import Mathlib

/-!
# PVRTCC::Image — index wrapping and resampling (PVRTCEncoder/src/Image.cpp)

A shallow embedding of the `Image` class of the PVRTC encoder and the
properties of its pixel addressing and resampling routines.

Conventions of the embedding:

* `uint32` values are natural numbers, `int32` values are integers; the
  conversions between them are written out (`toInt32`, `toUInt32`, `u32`).
* `uint8` values (pixel components, bit depths) are `Fin 256`.
* A computation that has no defined result (a loop that never exits, a failed
  `assert`, an access outside a buffer, a conversion of an out-of-range
  floating-point value) yields `none`.
* `float`/`double` arithmetic of the downscaler is carried out over `ℚ`.
-/

namespace PVRTCC

/-! ## Machine integers -/

/-- The value of a 32-bit pattern read as a two's-complement `int32`. -/
def toInt32 (z : Int) : Int := (z + 2147483648) % 4294967296 - 2147483648

/-- The value of a 32-bit pattern read as a `uint32`. -/
def toUInt32 (z : Int) : Nat := (z % 4294967296).toNat

/-- A natural number reduced to `uint32`. -/
def u32 (n : Nat) : Nat := n % 4294967296

/-- A natural number stored into a `uint8`. -/
def u8 (n : Nat) : Fin 256 := ⟨n % 256, Nat.mod_lt _ (by decide)⟩

/-! ## Pixels and images -/

/-- Wrap policy for out-of-range coordinates. -/
inductive EWrapMode where
  | eWrapMode_Clamp
  | eWrapMode_Wrap
  deriving DecidableEq, Repr

/-- Modelled from the spec: the `Pixel` value type, whose header is not among
the sources. Four components in the order alpha, red, green, blue and one bit
depth per component; both are `uint8`, as `Image.cpp` uses them
(`uint8 bitDepth[4]`, `static_cast<uint8>` on the store into `Component(c)`,
`uint8 channel` in `ConvertChannelToFloat`). -/
structure Pixel where
  Component : Fin 4 → Fin 256
  BitDepth : Fin 4 → Fin 256

/-- The image: dimensions, primary samples and fractional samples. -/
structure Image where
  m_Width : Nat
  m_Height : Nat
  m_Pixels : List Pixel
  m_FractionalPixels : List Pixel

/-- Method `Image::GetWidth`. -/
def Image.GetWidth (img : Image) : Nat := img.m_Width

/-- Method `Image::GetHeight`. -/
def Image.GetHeight (img : Image) : Nat := img.m_Height

/-! ## Buffers -/

/-- A load `buf[k]` from a buffer. -/
def load {α : Type} (buf : List α) (k : Nat) : Option α := buf.get? k

/-- A store `buf[k] = v` into a buffer. -/
def store {α : Type} (buf : List α) (k : Nat) (v : α) : Option (List α) :=
  if k < buf.length then some (buf.set k v) else none

/-! ## Pixel addressing -/

/-- Number of iterations granted to a `while` loop over one `int32` variable.
Such a loop either exits within `2^32` iterations or revisits a state and
never exits, so running out of this fuel is divergence. -/
def loopFuel : Nat := 4294967296

/-- The loop `while(i < 0) { if(clamp) i = 0; else i += dim; }`. -/
def whileNegative (wrapMode : EWrapMode) (dim : Nat) : Nat → Int → Option Int
  | 0, i => if i < 0 then none else some i
  | fuel + 1, i =>
    if i < 0 then
      if wrapMode = EWrapMode.eWrapMode_Clamp then
        whileNegative wrapMode dim fuel 0
      else
        whileNegative wrapMode dim fuel (toInt32 (i + dim))
    else some i

/-- The loop
`while(i >= static_cast<int32>(dim)) { if(clamp) i = dim - 1; else i -= dim; }`. -/
def whileTooLarge (wrapMode : EWrapMode) (dim : Nat) : Nat → Int → Option Int
  | 0, i => if toInt32 dim ≤ i then none else some i
  | fuel + 1, i =>
    if toInt32 dim ≤ i then
      if wrapMode = EWrapMode.eWrapMode_Clamp then
        whileTooLarge wrapMode dim fuel (toInt32 ((dim : Int) - 1))
      else
        whileTooLarge wrapMode dim fuel (toInt32 (i - dim))
    else some i

/-- Method `Image::GetPixelIndex`: the four loops, then `idx = j * width + i` with the
two assertions on `idx`. -/
def Image.GetPixelIndex (img : Image) (i j : Int) (wrapMode : EWrapMode) :
    Option Nat := do
  let i ← whileNegative wrapMode img.GetWidth loopFuel i
  let i ← whileTooLarge wrapMode img.GetWidth loopFuel i
  let j ← whileNegative wrapMode img.GetHeight loopFuel j
  let j ← whileTooLarge wrapMode img.GetHeight loopFuel j
  let idx : Int := toInt32 (j * img.GetWidth + i)
  if idx < 0 then none
  else if ¬ (toUInt32 idx < u32 (img.GetWidth * img.GetHeight)) then none
  else some (toUInt32 idx)

/-- Method `Image::GetPixel`. -/
def Image.GetPixel (img : Image) (i j : Int) (wrapMode : EWrapMode) :
    Option Pixel := do
  let idx ← img.GetPixelIndex i j wrapMode
  load img.m_Pixels idx

/-! ## Declarations taken from headers -/

/-- What `Image.cpp` uses from `Image.h` and `Pixel.h`, which are not among the
sources: the default argument of the `wrapMode` parameter of `GetPixelIndex`,
the default-constructed `Pixel`, and the per-channel conversion
`(value, oldDepth, newDepth)` that `Pixel::ChangeBitDepth` applies. Every
general statement is proved for all values of these. -/
structure Decls where
  defaultWrapMode : EWrapMode
  defaultPixel : Pixel
  changeDepth : Fin 256 → Fin 256 → Fin 256 → Fin 256

/-- Method `Pixel::GetBitDepth`. -/
def Pixel.GetBitDepth (p : Pixel) : Fin 4 → Fin 256 := p.BitDepth

/-- Method `Pixel::ChangeBitDepth`: every component is converted to its new depth and
the new depths are recorded. -/
def Pixel.ChangeBitDepth (D : Decls) (p : Pixel) (depth : Fin 4 → Fin 256) : Pixel :=
  { Component := fun c => D.changeDepth (p.Component c) (p.BitDepth c) (depth c)
    BitDepth := depth }

/-- The assignment `p.Component(c) = v`. -/
def Pixel.setComponent (p : Pixel) (c : Fin 4) (v : Fin 256) : Pixel :=
  { p with Component := Function.update p.Component c v }

/-- Function `CompareBitDepths`: the four depths agree. -/
def CompareBitDepths (depth1 depth2 : Fin 4 → Fin 256) : Bool :=
  (List.finRange 4).foldl (fun ok i => ok && decide (depth1 i = depth2 i)) true

/-! ## Loops -/

/-- The loop `for(uint32 i = 0; i < n; i++) body(i)` over a state; an iteration
without a defined result ends the computation. -/
def forLoop {σ : Type} (n : Nat) (body : Nat → σ → Option σ) (s : σ) : Option σ :=
  match n with
  | 0 => some s
  | n + 1 => (forLoop n body s).bind (body n)

/-- Subtraction of `uint32` values. -/
def u32sub (a b : Nat) : Nat := (a + 4294967296 - b % 4294967296) % 4294967296

/-- A natural number stored into a `uint16`. -/
def u16 (n : Nat) : Nat := n % 65536

/-! ## Bilinear upscaling -/

/-- Line `xscale = 1 << xtimes` (and `yscale`). -/
def scale (times : Nat) : Nat := u32 (1 <<< times)

/-- Line `xoffset = xscale >> 1` (and `yoffset`). -/
def offset (times : Nat) : Nat := scale times >>> 1

/-- Line `highXIdx = (i + xoffset) / xscale`, stored in an `int32`. -/
def highIdx (times i : Nat) : Int := toInt32 ((u32 (i + offset times) / scale times : Nat) : Int)

/-- Line `lowXIdx = highXIdx - 1`. -/
def lowIdx (times i : Nat) : Int := toInt32 (highIdx times i - 1)

/-- Line `highXWeight = (i + xoffset) % xscale`. -/
def highWeight (times i : Nat) : Nat := u32 (i + offset times) % scale times

/-- Line `lowXWeight = xscale - highXWeight`. -/
def lowWeight (times i : Nat) : Nat := u32sub (scale times) (highWeight times i)

/-- Line `topLeftWeight = lowXWeight * lowYWeight`. -/
def topLeftWeight (xtimes ytimes i j : Nat) : Nat :=
  u32 (lowWeight xtimes i * lowWeight ytimes j)

/-- Line `topRightWeight = highXWeight * lowYWeight`. -/
def topRightWeight (xtimes ytimes i j : Nat) : Nat :=
  u32 (highWeight xtimes i * lowWeight ytimes j)

/-- Line `bottomLeftWeight = lowXWeight * highYWeight`. -/
def bottomLeftWeight (xtimes ytimes i j : Nat) : Nat :=
  u32 (lowWeight xtimes i * highWeight ytimes j)

/-- Line `bottomRightWeight = highXWeight * highYWeight`. -/
def bottomRightWeight (xtimes ytimes i j : Nat) : Nat :=
  u32 (highWeight xtimes i * highWeight ytimes j)

/-- The `uint32` variable `sum` of the channel loop: the weighted sum of the
four corner components of channel `c`. -/
def channelSum (xtimes ytimes i j : Nat) (topLeft topRight bottomLeft bottomRight : Pixel)
    (c : Fin 4) : Nat :=
  let tl := u32 ((topLeft.Component c).val * topLeftWeight xtimes ytimes i j)
  let tr := u32 ((topRight.Component c).val * topRightWeight xtimes ytimes i j)
  let bl := u32 ((bottomLeft.Component c).val * bottomLeftWeight xtimes ytimes i j)
  let br := u32 ((bottomRight.Component c).val * bottomRightWeight xtimes ytimes i j)
  u32 (tl + tr + bl + br)

/-- Line `scaleMask = (xscale * yscale) - 1`, a `uint16`. -/
def scaleMask (xtimes ytimes : Nat) : Nat :=
  u16 (u32sub (u32 (scale xtimes * scale ytimes)) 1)

/-- The value stored by `fp.Component(c) = sum & scaleMask`. -/
def fractionalComponent (xtimes ytimes sum : Nat) : Fin 256 :=
  u8 (sum &&& scaleMask xtimes ytimes)

/-- The value stored by `p.Component(c) = sum / (xscale * yscale)`. -/
def primaryComponent (xtimes ytimes sum : Nat) : Fin 256 :=
  u8 (sum / u32 (scale xtimes * scale ytimes))

/-- One iteration of the channel loop `for(uint32 c = 0; c < 4; c++)`. -/
def upscaleChannel (xtimes ytimes i j : Nat) (topLeft topRight bottomLeft bottomRight : Pixel)
    (c : Fin 4) (s : Pixel × Pixel) : Pixel × Pixel :=
  let sum := channelSum xtimes ytimes i j topLeft topRight bottomLeft bottomRight c
  (s.1.setComponent c (primaryComponent xtimes ytimes sum),
   s.2.setComponent c (fractionalComponent xtimes ytimes sum))

/-- The four corner pixels `topLeft`, `topRight`, `bottomLeft`, `bottomRight`
of output pixel `(i, j)`, read with `GetPixel` from the image as it was on
entry. -/
def upscaleCorners (img : Image) (xtimes ytimes : Nat) (wrapMode : EWrapMode) (i j : Nat) :
    Option (Pixel × Pixel × Pixel × Pixel) :=
  (img.GetPixel (lowIdx xtimes i) (lowIdx ytimes j) wrapMode).bind fun topLeft =>
  (img.GetPixel (highIdx xtimes i) (lowIdx ytimes j) wrapMode).bind fun topRight =>
  (img.GetPixel (lowIdx xtimes i) (highIdx ytimes j) wrapMode).bind fun bottomLeft =>
  (img.GetPixel (highIdx xtimes i) (highIdx ytimes j) wrapMode).bind fun bottomRight =>
  some (topLeft, topRight, bottomLeft, bottomRight)

/-- The variable `sum` of channel `c` at output pixel `(i, j)`. -/
def upscaleSum (img : Image) (xtimes ytimes : Nat) (wrapMode : EWrapMode) (i j : Nat)
    (c : Fin 4) : Option Nat :=
  (upscaleCorners img xtimes ytimes wrapMode i j).map fun k =>
    channelSum xtimes ytimes i j k.1 k.2.1 k.2.2.1 k.2.2.2 c

/-- The body of the pixel loops of `BilinearUpscale` for output pixel `(i, j)`:
from the current contents `p`, `fp` of the two output cells to their new
contents. -/
def upscalePixel (D : Decls) (img : Image) (xtimes ytimes : Nat) (wrapMode : EWrapMode)
    (i j : Nat) (p fp : Pixel) : Option (Pixel × Pixel) :=
  (upscaleCorners img xtimes ytimes wrapMode i j).bind fun k =>
  let topLeft := k.1
  let topRight := k.2.1
  let bottomLeft := k.2.2.1
  let bottomRight := k.2.2.2
  let bitDepth := topLeft.GetBitDepth
  let p := p.ChangeBitDepth D bitDepth
  if ¬ CompareBitDepths bitDepth topRight.GetBitDepth then none
  else if ¬ CompareBitDepths bitDepth bottomLeft.GetBitDepth then none
  else if ¬ CompareBitDepths bitDepth bottomRight.GetBitDepth then none
  else
    let fp := fp.ChangeBitDepth D (fun _ => u8 (xtimes + ytimes))
    if u32 (scale xtimes * scale ytimes) = 0 then none
    else
      some ((List.finRange 4).foldl
        (fun s c => upscaleChannel xtimes ytimes i j topLeft topRight bottomLeft bottomRight c s)
        (p, fp))

/-- The body of the inner pixel loop of `BilinearUpscale`: the two cells at
`pidx = j * newWidth + i` are rewritten in place. -/
def upscaleStep (D : Decls) (img : Image) (xtimes ytimes : Nat) (wrapMode : EWrapMode)
    (newWidth i j : Nat) (s : List Pixel × List Pixel) : Option (List Pixel × List Pixel) :=
  let pidx := u32 (j * newWidth + i)
  (load s.1 pidx).bind fun p =>
  (load s.2 pidx).bind fun fp =>
  (upscalePixel D img xtimes ytimes wrapMode i j p fp).bind fun r =>
  some (s.1.set pidx r.1, s.2.set pidx r.2)

/-- Method `Image::BilinearUpscale`. Both output buffers are allocated with
`newWidth * newHeight` default pixels, the loops over `j` and `i` rewrite the
cells at `pidx = j * newWidth + i`, and the image takes the new buffers and
dimensions. -/
def Image.BilinearUpscale (D : Decls) (img : Image) (xtimes ytimes : Nat)
    (wrapMode : EWrapMode) : Option Image :=
  let newWidth := u32 (img.GetWidth <<< xtimes)
  let newHeight := u32 (img.GetHeight <<< ytimes)
  let upscaledPixels := List.replicate (u32 (newWidth * newHeight)) D.defaultPixel
  let fractionalPixels := List.replicate (u32 (newWidth * newHeight)) D.defaultPixel
  (forLoop newHeight (fun j s =>
    forLoop newWidth (fun i s => upscaleStep D img xtimes ytimes wrapMode newWidth i j s) s)
    (upscaledPixels, fractionalPixels)).map fun s =>
      { m_Width := newWidth
        m_Height := newHeight
        m_Pixels := s.1
        m_FractionalPixels := s.2 }

/-! ## Content-aware downscaling -/

/-- Function `ConvertChannelToFloat`: `channel / ((1 << bitDepth) - 1)`. -/
def ConvertChannelToFloat (channel bitDepth : Fin 256) : ℚ :=
  (channel.val : ℚ) / (((1 <<< bitDepth.val : Nat) : ℚ) - 1)

/-- The conversion `static_cast<uint8>(v)` of a floating-point value: the
fraction is discarded; a value whose integral part is not a `uint8` has no
defined result. -/
def floatToUInt8 (v : ℚ) : Option (Fin 256) :=
  if -1 < v ∧ v < 256 then some (u8 (Rat.floor v).toNat) else none

/-- Start of the plane `I` inside `imgData`. -/
def planeI (_w _h : Nat) : Nat := 0

/-- Start of the plane `Ix[c]` inside `imgData`: `(c+1)*w*h` for the four
channels, `18*w*h` for `Ix[4]`, the derivative of the intensity. -/
def planeIx (w h : Nat) (c : Nat) : Nat :=
  if c = 4 then u32 (18 * w * h) else u32 ((c + 1) * w * h)

/-- Start of the plane `Iy` inside `imgData`. -/
def planeIy (w h : Nat) : Nat := u32 (5 * w * h)

/-- Start of the plane `Ixx[c]` inside `imgData`. -/
def planeIxx (w h : Nat) (c : Nat) : Nat := u32 ((6 + c) * w * h)

/-- Start of the plane `Iyy[c]` inside `imgData`. -/
def planeIyy (w h : Nat) (c : Nat) : Nat := u32 ((10 + c) * w * h)

/-- Start of the plane `Ixy[c]` inside `imgData`. -/
def planeIxy (w h : Nat) (c : Nat) : Nat := u32 ((14 + c) * w * h)

/-- The intensity of a pixel: the colour channels, premultiplied by alpha,
weighted `0.21`, `0.71`, `0.07`. -/
def intensity (bitDepth : Fin 4 → Fin 256) (p : Pixel) : ℚ :=
  let a := ConvertChannelToFloat (p.Component 0) (bitDepth 0)
  let r := a * ConvertChannelToFloat (p.Component 1) (bitDepth 1)
  let g := a * ConvertChannelToFloat (p.Component 2) (bitDepth 2)
  let b := a * ConvertChannelToFloat (p.Component 3) (bitDepth 3)
  r * (21 / 100) + g * (71 / 100) + b * (7 / 100)

/-- The first-derivative stencil `(f(-2) - 8 f(-1) + 8 f(+1) - f(+2)) / 12`. -/
def firstDerivative (m2 m1 p1 p2 : ℚ) : ℚ := (m2 - 8 * m1 + 8 * p1 - p2) / 12

/-- The second-derivative stencil
`(-f(-2) + 16 f(-1) - 30 f(0) + 16 f(+1) - f(+2)) / 12`. -/
def secondDerivative (m2 m1 c p1 p2 : ℚ) : ℚ :=
  (-m2 + 16 * m1 - 30 * c + 16 * p1 - p2) / 12

/-- The macro `CPNT(dx)`: component `c` of pixel `dx` as a float. -/
def CPNT (img : Image) (bitDepth : Fin 4 → Fin 256) (c : Fin 4) (dx : Nat) : Option ℚ :=
  (load img.m_Pixels dx).map fun p => ConvertChannelToFloat (p.Component c) (bitDepth c)

/-- The first loop of `ContentAwareDownscale`: the intensity of every pixel. -/
def intensityLoop (img : Image) (bitDepth : Fin 4 → Fin 256) (imgData : List ℚ) :
    Option (List ℚ) :=
  forLoop (u32 (img.GetWidth * img.GetHeight)) (fun i imgData => do
    let p ← load img.m_Pixels i
    store imgData (planeI img.GetWidth img.GetHeight + i) (intensity bitDepth p)) imgData

/-- The channel loop inside the derivative loop: `Ix[c]`, `Ixx[c]`, `Iyy[c]`
at `idx`. -/
def derivativeChannel (img : Image) (bitDepth : Fin 4 → Fin 256)
    (hm2xidx hm1xidx hp1xidx hp2xidx hm2yidx hm1yidx hp1yidx hp2yidx idx : Nat)
    (c : Fin 4) (imgData : List ℚ) : Option (List ℚ) := do
  let w := img.GetWidth
  let h := img.GetHeight
  let xm2 ← CPNT img bitDepth c hm2xidx
  let xm1 ← CPNT img bitDepth c hm1xidx
  let xp1 ← CPNT img bitDepth c hp1xidx
  let xp2 ← CPNT img bitDepth c hp2xidx
  let imgData ← store imgData (planeIx w h c.val + idx) (firstDerivative xm2 xm1 xp1 xp2)
  let mid ← CPNT img bitDepth c idx
  let imgData ← store imgData (planeIxx w h c.val + idx) (secondDerivative xm2 xm1 mid xp1 xp2)
  let ym2 ← CPNT img bitDepth c hm2yidx
  let ym1 ← CPNT img bitDepth c hm1yidx
  let yp1 ← CPNT img bitDepth c hp1yidx
  let yp2 ← CPNT img bitDepth c hp2yidx
  store imgData (planeIyy w h c.val + idx) (secondDerivative ym2 ym1 mid yp1 yp2)

/-- The nine indices the derivative loop computes at `(i, j)`. -/
structure Stencil where
  hm2xidx : Nat
  hm1xidx : Nat
  hp1xidx : Nat
  hp2xidx : Nat
  hm2yidx : Nat
  hm1yidx : Nat
  hp1yidx : Nat
  hp2yidx : Nat
  idx : Nat
  deriving DecidableEq, Repr

/-- The index computations at the head of the derivative loop. The neighbour
offsets are resolved by `GetPixelIndex` called without a wrap mode, that is
with the default argument of its declaration; `i-2` and `i-1` are `uint32`
differences passed as `int32`. -/
def stencil (D : Decls) (img : Image) (i j : Nat) : Option Stencil :=
  (img.GetPixelIndex (toInt32 ((i : Int) - 2)) (toInt32 j) D.defaultWrapMode).bind fun hm2xidx =>
  (img.GetPixelIndex (toInt32 ((i : Int) - 1)) (toInt32 j) D.defaultWrapMode).bind fun hm1xidx =>
  (img.GetPixelIndex (toInt32 ((i : Int) + 1)) (toInt32 j) D.defaultWrapMode).bind fun hp1xidx =>
  (img.GetPixelIndex (toInt32 ((i : Int) + 2)) (toInt32 j) D.defaultWrapMode).bind fun hp2xidx =>
  (img.GetPixelIndex (toInt32 i) (toInt32 ((j : Int) - 2)) D.defaultWrapMode).bind fun hm2yidx =>
  (img.GetPixelIndex (toInt32 i) (toInt32 ((j : Int) - 1)) D.defaultWrapMode).bind fun hm1yidx =>
  (img.GetPixelIndex (toInt32 i) (toInt32 ((j : Int) + 1)) D.defaultWrapMode).bind fun hp1yidx =>
  (img.GetPixelIndex (toInt32 i) (toInt32 ((j : Int) + 2)) D.defaultWrapMode).bind fun hp2yidx =>
  (img.GetPixelIndex (toInt32 i) (toInt32 j) D.defaultWrapMode).bind fun idx =>
  some ⟨hm2xidx, hm1xidx, hp1xidx, hp2xidx, hm2yidx, hm1yidx, hp1yidx, hp2yidx, idx⟩

/-- The stencil `(I[m2] - 8*I[m1] + 8*I[p1] - I[p2]) / 12.0f` read from the
plane that starts at `plane`. -/
def planeDerivative (imgData : List ℚ) (plane m2 m1 p1 p2 : Nat) : Option ℚ :=
  (load imgData (plane + m2)).bind fun a =>
  (load imgData (plane + m1)).bind fun b =>
  (load imgData (plane + p1)).bind fun c =>
  (load imgData (plane + p2)).bind fun d =>
  some (firstDerivative a b c d)

/-- The body of the derivative loop at `(i, j)`: `Ix[4]`, `Iy`, then the
channel loop. -/
def derivativePixel (D : Decls) (img : Image) (bitDepth : Fin 4 → Fin 256) (i j : Nat)
    (imgData : List ℚ) : Option (List ℚ) :=
  let w := img.GetWidth
  let h := img.GetHeight
  (stencil D img i j).bind fun s =>
  (planeDerivative imgData (planeI w h) s.hm2xidx s.hm1xidx s.hp1xidx s.hp2xidx).bind fun dx =>
  (store imgData (planeIx w h 4 + s.idx) dx).bind fun imgData =>
  (planeDerivative imgData (planeI w h) s.hm2yidx s.hm1yidx s.hp1yidx s.hp2yidx).bind fun dy =>
  (store imgData (planeIy w h + s.idx) dy).bind fun imgData =>
  forLoop 4 (fun c imgData =>
    if hc : c < 4 then
      derivativeChannel img bitDepth s.hm2xidx s.hm1xidx s.hp1xidx s.hp2xidx
        s.hm2yidx s.hm1yidx s.hp1yidx s.hp2yidx s.idx ⟨c, hc⟩ imgData
    else none) imgData

/-- The head of the loop that computes `Ixy`: the four vertical neighbours and
the centre. -/
def mixedStencil (D : Decls) (img : Image) (i j : Nat) : Option (Nat × Nat × Nat × Nat × Nat) :=
  (img.GetPixelIndex (toInt32 i) (toInt32 ((j : Int) - 2)) D.defaultWrapMode).bind fun hm2y =>
  (img.GetPixelIndex (toInt32 i) (toInt32 ((j : Int) - 1)) D.defaultWrapMode).bind fun hm1y =>
  (img.GetPixelIndex (toInt32 i) (toInt32 ((j : Int) + 1)) D.defaultWrapMode).bind fun hp1y =>
  (img.GetPixelIndex (toInt32 i) (toInt32 ((j : Int) + 2)) D.defaultWrapMode).bind fun hp2y =>
  (img.GetPixelIndex (toInt32 i) (toInt32 j) D.defaultWrapMode).bind fun idx =>
  some (hm2y, hm1y, hp1y, hp2y, idx)

/-- The body of the loop that computes `Ixy` at `(i, j)`. -/
def mixedDerivativePixel (D : Decls) (img : Image) (i j : Nat) (imgData : List ℚ) :
    Option (List ℚ) :=
  let w := img.GetWidth
  let h := img.GetHeight
  (mixedStencil D img i j).bind fun s =>
  forLoop 4 (fun c imgData =>
    (planeDerivative imgData (planeIx w h c) s.1 s.2.1 s.2.2.1 s.2.2.2.1).bind fun d =>
    store imgData (planeIxy w h c + s.2.2.2.2) d) imgData

/-- The source coordinate `x` (or `y`) that output column `i` (or row `j`) is
mapped back to: `scale * i`, plus `scale >> 1` when `bOffsetNewPixels`. -/
def sourceCoord (times i : Nat) (bOffsetNewPixels : Bool) : Nat :=
  let x := u32 (scale times * i)
  if bOffsetNewPixels then u32 (x + (scale times >>> 1)) else x

/-- The offset of the store `downscaledPixels[j * newHeight + i] = result`. -/
def downscaleStoreOffset (newHeight i j : Nat) : Nat := u32 (j * newHeight + i)

/-- One iteration of the channel loop of the smoothing step: the new value of
component `c`. -/
def smoothChannel (w h : Nat) (imgData : List ℚ) (bitDepth : Fin 4 → Fin 256)
    (current : Pixel) (idx : Nat) (c : Fin 4) (result : Pixel) : Option Pixel := do
  let Ix4 ← load imgData (planeIx w h 4 + idx)
  let Iy ← load imgData (planeIy w h + idx)
  let Ixsq := Ix4 * Ix4
  let Iysq := Iy * Iy
  let denom := Ixsq + Iysq
  let I0 := ConvertChannelToFloat (current.Component c) (bitDepth c)
  let Ixx ← load imgData (planeIxx w h c.val + idx)
  let Iyy ← load imgData (planeIyy w h c.val + idx)
  let Ixy ← load imgData (planeIxy w h c.val + idx)
  let It := Ixx + Iyy
  let It := if |denom| > 1 / 1000000 then
      It - (Ixsq * Ixx + 2 * Ix4 * Iy * Ixy + Iysq * Iyy)
    else It
  let pxScale : ℚ := ((1 <<< (bitDepth c).val : Nat) : ℚ) - 1
  let v ← floatToUInt8 (((I0 + (1 / 4) * It) + 1 / 2) * pxScale)
  some (result.setComponent c v)

/-- The body of the smoothing loop for output pixel `(i, j)`. -/
def downscalePixel (D : Decls) (img : Image) (xtimes ytimes : Nat) (bOffsetNewPixels : Bool)
    (bitDepth : Fin 4 → Fin 256) (imgData : List ℚ) (newHeight i j : Nat)
    (downscaledPixels : List Pixel) : Option (List Pixel) := do
  let x := sourceCoord xtimes i bOffsetNewPixels
  let y := sourceCoord ytimes j bOffsetNewPixels
  let idx ← img.GetPixelIndex (toInt32 x) (toInt32 y) D.defaultWrapMode
  let current ← load img.m_Pixels idx
  let result := D.defaultPixel.ChangeBitDepth D bitDepth
  let result ← forLoop 4 (fun c result =>
    if hc : c < 4 then
      smoothChannel img.GetWidth img.GetHeight imgData bitDepth current idx ⟨c, hc⟩ result
    else none) result
  store downscaledPixels (downscaleStoreOffset newHeight i j) result

/-- Method `Image::ContentAwareDownscale`. The parameter `wrapMode` is not used by
the body. The fractional buffer is not touched. The float buffer `imgData`
starts as zeros here; the code writes every cell of it before reading it. -/
def Image.ContentAwareDownscale (D : Decls) (img : Image) (xtimes ytimes : Nat)
    (_wrapMode : EWrapMode) (bOffsetNewPixels : Bool) : Option Image := do
  let w := img.GetWidth
  let h := img.GetHeight
  let newWidth := w >>> xtimes
  let newHeight := h >>> ytimes
  let numDownscaledPixels := u32 (newWidth * newHeight)
  let first ← load img.m_Pixels 0
  let bitDepth := first.GetBitDepth
  let downscaledPixels :=
    List.replicate numDownscaledPixels (D.defaultPixel.ChangeBitDepth D bitDepth)
  let imgData := List.replicate (u32 (19 * w * h)) (0 : ℚ)
  let imgData ← intensityLoop img bitDepth imgData
  let imgData ← forLoop h (fun j imgData =>
    forLoop w (fun i imgData => derivativePixel D img bitDepth i j imgData) imgData) imgData
  let imgData ← forLoop h (fun j imgData =>
    forLoop w (fun i imgData => mixedDerivativePixel D img i j imgData) imgData) imgData
  let downscaledPixels ← forLoop newHeight (fun j downscaledPixels =>
    forLoop newWidth (fun i downscaledPixels =>
      downscalePixel D img xtimes ytimes bOffsetNewPixels bitDepth imgData newHeight i j
        downscaledPixels) downscaledPixels) downscaledPixels
  some { m_Width := newWidth
         m_Height := newHeight
         m_Pixels := downscaledPixels
         m_FractionalPixels := img.m_FractionalPixels }

/-- The nine coordinate pairs that the derivative loop passes to
`GetPixelIndex` at `(i, j)`, in the order of the source: `(i-2, j)`, `(i-1, j)`,
`(i+1, j)`, `(i+2, j)`, `(i, j-2)`, `(i, j-1)`, `(i, j+1)`, `(i, j+2)`, `(i, j)`,
each `uint32` value passed as `int32`. -/
def stencilCoords (i j : Nat) : List (Int × Int) :=
  [(toInt32 ((i : Int) - 2), toInt32 j), (toInt32 ((i : Int) - 1), toInt32 j),
   (toInt32 ((i : Int) + 1), toInt32 j), (toInt32 ((i : Int) + 2), toInt32 j),
   (toInt32 i, toInt32 ((j : Int) - 2)), (toInt32 i, toInt32 ((j : Int) - 1)),
   (toInt32 i, toInt32 ((j : Int) + 1)), (toInt32 i, toInt32 ((j : Int) + 2)),
   (toInt32 i, toInt32 j)]

/-- The four coordinate pairs that `BilinearUpscale` passes to `GetPixel` at
output pixel `(i, j)`: top left, top right, bottom left, bottom right. -/
def cornerCoords (xtimes ytimes i j : Nat) : List (Int × Int) :=
  [(lowIdx xtimes i, lowIdx ytimes j), (highIdx xtimes i, lowIdx ytimes j),
   (lowIdx xtimes i, highIdx ytimes j), (highIdx xtimes i, highIdx ytimes j)]

/-! ## Expansion to eight bits per channel -/

/-- The body of the channel loop of `ExpandTo8888` for one channel: from the
depth `currentDepth[c]` of the first pixel, the depth `fractionDepth[c]` of the
fractional pixel, the component of the primary pixel (already converted to
depth 8) and the component of the fractional pixel, to the `uint8` stored back.
The shifts `1 << currentDepth[c]` and `Component(c) >> shift` have no defined
result for a count of 32 or more. -/
def expandComponent (currentDepth fractionDepth component fraction : Fin 256) :
    Option (Fin 256) :=
  if 32 ≤ currentDepth.val then none
  else
    let denominator := u32 (1 <<< currentDepth.val)
    let numerator := u32 (denominator + 1)
    let shift := toUInt32 ((fractionDepth.val : Int) - ((8 : Int) - (currentDepth.val : Int)))
    if 32 ≤ shift then none
    else
      let fractionBits := fraction.val >>> shift
      some (u8 (u32 (component.val + u32 (fractionBits * numerator) / denominator)))

/-- The body of the pixel loops of `ExpandTo8888` on one pixel:
`ChangeBitDepth(fullDepth)`, then the channel loop. -/
def expandPixel (D : Decls) (currentDepth : Fin 4 → Fin 256) (p fp : Pixel) : Option Pixel :=
  forLoop 4 (fun c p =>
    if hc : c < 4 then
      (expandComponent (currentDepth ⟨c, hc⟩) (fp.GetBitDepth ⟨c, hc⟩) (p.Component ⟨c, hc⟩)
        (fp.Component ⟨c, hc⟩)).map fun v => p.setComponent ⟨c, hc⟩ v
    else none) (p.ChangeBitDepth D (fun _ => 8))

/-- One iteration of the inner pixel loop of `ExpandTo8888`: the primary pixel
at `pidx = j * width + i` is rewritten in place. -/
def expandStep (D : Decls) (img : Image) (currentDepth : Fin 4 → Fin 256) (i j : Nat)
    (pixels : List Pixel) : Option (List Pixel) :=
  (load pixels (u32 (j * img.GetWidth + i))).bind fun p =>
  (load img.m_FractionalPixels (u32 (j * img.GetWidth + i))).bind fun fp =>
  (expandPixel D currentDepth p fp).bind fun q =>
  store pixels (u32 (j * img.GetWidth + i)) q

/-- Method `Image::ExpandTo8888`: `currentDepth` is the depth of the first
pixel; the dimensions and the fractional buffer stay. -/
def Image.ExpandTo8888 (D : Decls) (img : Image) : Option Image :=
  (load img.m_Pixels 0).bind fun first =>
  (forLoop img.GetHeight (fun j pixels =>
    forLoop img.GetWidth (fun i pixels => expandStep D img first.GetBitDepth i j pixels)
      pixels) img.m_Pixels).map fun pixels =>
      { m_Width := img.m_Width
        m_Height := img.m_Height
        m_Pixels := pixels
        m_FractionalPixels := img.m_FractionalPixels }

/-! ## Element access and copies -/

/-- Method `Image::operator()(i, j)`: the two assertions, then
`m_Pixels[j * width + i]`. -/
def Image.operatorCall (img : Image) (i j : Nat) : Option Pixel :=
  if i < img.GetWidth ∧ j < img.GetHeight then
    load img.m_Pixels (u32 (j * img.GetWidth + i))
  else none

/-- The copy constructor `Image::Image(const Image &)`: both buffers are
allocated with `width * height` default pixels and `memcpy` fills the primary
buffer from `other.m_Pixels`; the fractional buffer is left as allocated. -/
def Image.copyConstruct (D : Decls) (other : Image) : Option Image :=
  if other.m_Pixels.length < u32 (other.GetWidth * other.GetHeight) then none
  else
    some { m_Width := other.GetWidth
           m_Height := other.GetHeight
           m_Pixels := other.m_Pixels.take (u32 (other.GetWidth * other.GetHeight))
           m_FractionalPixels :=
             List.replicate (u32 (other.GetWidth * other.GetHeight)) D.defaultPixel }

/-- The assignment `Image::operator=`: both buffers are reallocated and both
are filled by `memcpy` from `other`. -/
def Image.assign (_self other : Image) : Option Image :=
  if other.m_Pixels.length < u32 (other.GetWidth * other.GetHeight) then none
  else if other.m_FractionalPixels.length < u32 (other.GetWidth * other.GetHeight) then none
  else
    some { m_Width := other.GetWidth
           m_Height := other.GetHeight
           m_Pixels := other.m_Pixels.take (u32 (other.GetWidth * other.GetHeight))
           m_FractionalPixels :=
             other.m_FractionalPixels.take (u32 (other.GetWidth * other.GetHeight)) }

/-! ## Values written by the upscaler -/

/-- The primary pixel `BilinearUpscale` writes at output pixel `(i, j)`, from
the four corners `k`: the depth of `topLeft` and, per channel, the quotient of
`sum` by `xscale * yscale`. -/
def upscaledPixel (xtimes ytimes i j : Nat) (k : Pixel × Pixel × Pixel × Pixel) : Pixel :=
  { Component := fun c =>
      primaryComponent xtimes ytimes (channelSum xtimes ytimes i j k.1 k.2.1 k.2.2.1 k.2.2.2 c)
    BitDepth := k.1.BitDepth }

/-- The fractional pixel `BilinearUpscale` writes at output pixel `(i, j)`:
depth `xtimes + ytimes` and, per channel, `sum & scaleMask`. -/
def upscaledFraction (xtimes ytimes i j : Nat) (k : Pixel × Pixel × Pixel × Pixel) : Pixel :=
  { Component := fun c =>
      fractionalComponent xtimes ytimes
        (channelSum xtimes ytimes i j k.1 k.2.1 k.2.2.1 k.2.2.2 c)
    BitDepth := fun _ => u8 (xtimes + ytimes) }

/-- The weighted sum of the four corner components of channel `c`, as a
natural number (no wrap-around). -/
def weightedSum (xtimes ytimes i j : Nat) (k : Pixel × Pixel × Pixel × Pixel) (c : Fin 4) :
    Nat :=
  (k.1.Component c).val * topLeftWeight xtimes ytimes i j
    + (k.2.1.Component c).val * topRightWeight xtimes ytimes i j
    + (k.2.2.1.Component c).val * bottomLeftWeight xtimes ytimes i j
    + (k.2.2.2.Component c).val * bottomRightWeight xtimes ytimes i j

/-! ## Well-formed images -/

/-- The class invariant under which the `int32` index arithmetic is meaningful:
positive dimensions, a pixel count that fits a signed 32-bit value, and a
primary buffer of `width * height` pixels. -/
def Image.WellFormed (img : Image) : Prop :=
  0 < img.m_Width ∧ 0 < img.m_Height ∧ img.m_Width * img.m_Height < 2147483648 ∧
    img.m_Pixels.length = img.m_Width * img.m_Height

/-- All primary samples share one bit-depth vector. -/
def Image.UniformDepth (img : Image) : Prop :=
  ∀ p ∈ img.m_Pixels, ∀ q ∈ img.m_Pixels, p.BitDepth = q.BitDepth

/-- The pixel whose four components are `v` and whose four depths are `d`. -/
def Pixel.flat (v d : Nat) : Pixel := ⟨fun _ => u8 v, fun _ => u8 d⟩

/-- The image of the given size whose primary samples all equal `p`, with
all-zero fractional samples of depth 0. -/
def Image.uniform (w h : Nat) (p : Pixel) : Image :=
  ⟨w, h, List.replicate (w * h) p, List.replicate (w * h) (Pixel.flat 0 0)⟩

/-- A row of two different pixels: all components 10, then all components 20,
depth 8. -/
def Image.twoPixelRow : Image :=
  ⟨2, 1, [Pixel.flat 10 8, Pixel.flat 20 8], [Pixel.flat 0 0, Pixel.flat 0 0]⟩

/-- One admissible set of header declarations: default wrap mode `Clamp`, a
default pixel with zero components of depth 8, and a depth conversion that
keeps the value. Used only to instantiate general statements. -/
def Decls.sample : Decls :=
  ⟨EWrapMode.eWrapMode_Clamp, Pixel.flat 0 8, fun v _ _ => v⟩

/-- The state of `imgData` on a flat image of `n` pixels and intensity `L`:
the plane `I` holds `L` everywhere, the eighteen derivative planes hold 0. -/
def FlatPlanes (n : Nat) (L : ℚ) (d : List ℚ) : Prop :=
  d.length = 19 * n ∧ (∀ k, k < n → d[k]? = some L) ∧
    ∀ k, n ≤ k → k < 19 * n → d[k]? = some 0

/-- A flat image: well formed, small enough for the nineteen float planes to
be addressed with 32 bits, and every primary sample equal to `P`. -/
def Image.Flat (img : Image) (P : Pixel) : Prop :=
  img.WellFormed ∧ 19 * (img.m_Width * img.m_Height) < 4294967296 ∧
    ∀ q ∈ img.m_Pixels, q = P

/-- The pixel the smoothing step stores for a depth-8 pixel `P` when every
derivative term is 0: each component is raised by 127, the integral part of
`0.5 * 255`. -/
def Pixel.raised (P : Pixel) : Pixel :=
  ⟨fun c => u8 ((P.Component c).val + 127), P.BitDepth⟩

/-! ## Values written by the expansion -/

/-- The value `ExpandTo8888` adds to a component, as a natural number: the
fraction bits `fraction >> (f - (8 - d))` scaled by `(2^d + 1) / 2^d`. -/
def expandAddend (d f fraction : Nat) : Nat :=
  (fraction >>> (f + d - 8)) * (2 ^ d + 1) / 2 ^ d

/-- The pixel `ExpandTo8888` writes for primary pixel `p` and fractional pixel
`fp`, with `currentDepth` the depth of the first pixel of the image: depth 8
and, per channel, the converted component plus the addend, stored in a
`uint8`. -/
def expandedPixel (D : Decls) (currentDepth : Fin 4 → Fin 256) (p fp : Pixel) : Pixel :=
  { Component := fun c =>
      u8 ((D.changeDepth (p.Component c) (p.BitDepth c) 8).val
        + expandAddend (currentDepth c).val (fp.BitDepth c).val (fp.Component c).val)
    BitDepth := fun _ => 8 }

/-- The state of a buffer that is being rewritten in place, cell by cell in
increasing order: the cells below `n` hold the new value of the original
content, the others still hold the original content. -/
def MappedUpTo {α : Type} (G : Nat → α → α) (ps : List α) (n : Nat) (s : List α) : Prop :=
  s.length = ps.length ∧ (∀ k, k < n → s[k]? = (ps[k]?).map (G k)) ∧
    ∀ k, n ≤ k → s[k]? = ps[k]?

/-! ## Sample images -/

/-- A 1x1 image whose primary sample has depth 0 and whose fractional sample
has depth 8 and components 128. -/
def Image.depthZero : Image := ⟨1, 1, [Pixel.flat 0 0], [Pixel.flat 128 8]⟩

/-- A 1x1 image of primary depth 4 and fractional depth 2. -/
def Image.depthFourTwo : Image := ⟨1, 1, [Pixel.flat 3 4], [Pixel.flat 1 2]⟩

/-- A 2x1 image of primary depth 4, components 3 and 9, with fractional samples
of depth 2 and components 1. -/
def Image.rampFourTwo : Image :=
  ⟨2, 1, [Pixel.flat 3 4, Pixel.flat 9 4], [Pixel.flat 1 2, Pixel.flat 1 2]⟩

/-- A 2x1 image of primary depth 4, components 3 and 9, with fractional samples
of depth 4 and components 5. -/
def Image.rampFourFour : Image :=
  ⟨2, 1, [Pixel.flat 3 4, Pixel.flat 9 4], [Pixel.flat 5 4, Pixel.flat 5 4]⟩

/-- A 2x1 image of depth 4 with two equal primary samples and two different
fractional samples. -/
def Image.twoFractions : Image :=
  ⟨2, 1, [Pixel.flat 3 4, Pixel.flat 3 4], [Pixel.flat 1 4, Pixel.flat 2 4]⟩

/-- The 1x1 image of depth 8 whose pixel has all components 255. -/
def Image.whitePixel : Image := ⟨1, 1, [Pixel.flat 255 8], [Pixel.flat 0 0]⟩

/-- The coordinate a wrap policy assigns to a signed coordinate, in the words
of the specification: `Clamp` pins it to `[0, dim-1]`, `Wrap` takes the true
(non-negative) modulo. -/
def wrapCoord (wrapMode : EWrapMode) (dim : Nat) (i : Int) : Int :=
  match wrapMode with
  | EWrapMode.eWrapMode_Clamp => min (max i 0) ((dim : Int) - 1)
  | EWrapMode.eWrapMode_Wrap => i % (dim : Int)

/-- Signed 32-bit range. -/
def IsInt32 (z : Int) : Prop := -2147483648 ≤ z ∧ z < 2147483648

instance (z : Int) : Decidable (IsInt32 z) := by
  unfold IsInt32; infer_instance

/-! ## Lemmas on machine integers and the index loops -/

theorem toInt32_eq_self {z : Int} (h1 : -2147483648 ≤ z) (h2 : z < 2147483648) :
    toInt32 z = z := by
  unfold toInt32; omega

theorem toUInt32_eq_toNat {z : Int} (h1 : 0 ≤ z) (h2 : z < 4294967296) :
    toUInt32 z = z.toNat := by
  unfold toUInt32; rw [Int.emod_eq_of_lt h1 h2]

theorem u32_eq_self {n : Nat} (h : n < 4294967296) : u32 n = n := by
  unfold u32; exact Nat.mod_eq_of_lt h

theorem whileNegative_of_nonneg (wrapMode : EWrapMode) (dim fuel : Nat) {i : Int}
    (h : 0 ≤ i) : whileNegative wrapMode dim fuel i = some i := by
  cases fuel <;> simp [whileNegative, not_lt.mpr h]

theorem whileNegative_clamp (dim fuel : Nat) (i : Int) :
    whileNegative EWrapMode.eWrapMode_Clamp dim (fuel + 1) i = some (max i 0) := by
  by_cases h : i < 0
  · rw [whileNegative, if_pos h, if_pos rfl, whileNegative_of_nonneg _ _ _ le_rfl]
    rw [max_eq_right (le_of_lt h)]
  · rw [whileNegative, if_neg h, max_eq_left (not_lt.mp h)]

theorem whileNegative_wrap (dim : Nat) (hd : 0 < dim) (hd2 : dim < 2147483648) :
    ∀ (fuel : Nat) (i : Int), -2147483648 ≤ i → i < 2147483648 →
      (-i).toNat ≤ fuel →
      whileNegative EWrapMode.eWrapMode_Wrap dim fuel i
        = some (if i < 0 then i % (dim : Int) else i) := by
  intro fuel
  induction fuel with
  | zero =>
    intro i _ _ hf
    have hi : ¬ i < 0 := by omega
    simp [whileNegative, hi]
  | succ n ih =>
    intro i h1 h2 hf
    by_cases hi : i < 0
    · have hstep : toInt32 (i + dim) = i + dim := toInt32_eq_self (by omega) (by omega)
      rw [whileNegative, if_pos hi, if_neg (by decide), hstep, if_pos hi]
      rw [ih (i + dim) (by omega) (by omega) (by omega)]
      have hmod : (i + (dim : Int)) % (dim : Int) = i % (dim : Int) :=
        Int.add_emod_self
      by_cases hi2 : i + (dim : Int) < 0
      · rw [if_pos hi2, hmod]
      · rw [if_neg hi2, ← hmod, Int.emod_eq_of_lt (by omega) (by omega)]
    · rw [whileNegative, if_neg hi, if_neg hi]

theorem whileTooLarge_of_lt (wrapMode : EWrapMode) (dim fuel : Nat) {i : Int}
    (h : i < toInt32 dim) : whileTooLarge wrapMode dim fuel i = some i := by
  cases fuel <;> simp [whileTooLarge, not_le.mpr h]

theorem whileTooLarge_clamp (dim fuel : Nat) (hd : 0 < dim) (hd2 : dim < 2147483648)
    (i : Int) :
    whileTooLarge EWrapMode.eWrapMode_Clamp dim (fuel + 1) i
      = some (min i ((dim : Int) - 1)) := by
  have hdim : toInt32 dim = dim := toInt32_eq_self (by omega) (by omega)
  have hdim1 : toInt32 ((dim : Int) - 1) = (dim : Int) - 1 :=
    toInt32_eq_self (by omega) (by omega)
  by_cases h : (dim : Int) ≤ i
  · rw [whileTooLarge, hdim, if_pos h, if_pos rfl, hdim1,
      whileTooLarge_of_lt _ _ _ (by rw [hdim]; omega)]
    rw [min_eq_right (by omega)]
  · rw [whileTooLarge, hdim, if_neg h, min_eq_left (by omega)]

theorem whileTooLarge_wrap (dim : Nat) (hd : 0 < dim) (hd2 : dim < 2147483648) :
    ∀ (fuel : Nat) (i : Int), 0 ≤ i → i < 2147483648 → i.toNat ≤ fuel →
      whileTooLarge EWrapMode.eWrapMode_Wrap dim fuel i = some (i % (dim : Int)) := by
  have hdim : toInt32 dim = dim := toInt32_eq_self (by omega) (by omega)
  intro fuel
  induction fuel with
  | zero =>
    intro i h1 _ hf
    have hi : i = 0 := by omega
    subst hi
    rw [whileTooLarge, hdim, if_neg (by omega), Int.zero_emod]
  | succ n ih =>
    intro i h1 h2 hf
    by_cases hi : (dim : Int) ≤ i
    · have hstep : toInt32 (i - dim) = i - dim := toInt32_eq_self (by omega) (by omega)
      rw [whileTooLarge, hdim, if_pos hi, if_neg (by decide), hstep]
      rw [ih (i - dim) (by omega) (by omega) (by omega)]
      rw [Int.sub_emod, Int.emod_self, sub_zero, Int.emod_emod]
    · rw [whileTooLarge, hdim, if_neg hi, Int.emod_eq_of_lt h1 (by omega)]

theorem wrapCoord_range (wrapMode : EWrapMode) (dim : Nat) (hd : 0 < dim) (i : Int) :
    0 ≤ wrapCoord wrapMode dim i ∧ wrapCoord wrapMode dim i < dim := by
  cases wrapMode
  · simp only [wrapCoord]
    omega
  · simp only [wrapCoord]
    exact ⟨Int.emod_nonneg _ (by omega), Int.emod_lt_of_pos _ (by omega)⟩

/-- The two loops on one coordinate compute `wrapCoord`. -/
theorem loops_eq_wrapCoord (wrapMode : EWrapMode) (dim : Nat) (hd : 0 < dim)
    (hd2 : dim < 2147483648) (i : Int) (hi : IsInt32 i) :
    (whileNegative wrapMode dim loopFuel i).bind (whileTooLarge wrapMode dim loopFuel)
      = some (wrapCoord wrapMode dim i) := by
  obtain ⟨h1, h2⟩ := hi
  have hdim : toInt32 dim = dim := toInt32_eq_self (by omega) (by omega)
  cases wrapMode
  · have hf : loopFuel = 4294967295 + 1 := rfl
    rw [hf, whileNegative_clamp, Option.some_bind, whileTooLarge_clamp _ _ hd hd2]
    rfl
  · rw [whileNegative_wrap dim hd hd2 loopFuel i h1 h2 (by unfold loopFuel; omega)]
    by_cases hneg : i < 0
    · rw [if_pos hneg, Option.some_bind]
      have hr := wrapCoord_range EWrapMode.eWrapMode_Wrap dim hd i
      simp only [wrapCoord] at hr
      rw [whileTooLarge_of_lt _ _ _ (by rw [hdim]; exact hr.2)]
      rfl
    · rw [if_neg hneg, Option.some_bind]
      rw [whileTooLarge_wrap dim hd hd2 loopFuel i (by omega) h2 (by unfold loopFuel; omega)]
      rfl

/-- Closed form of `GetPixelIndex` on an image whose pixel count fits `int32`. -/
theorem GetPixelIndex_eq (img : Image) (hw : 0 < img.m_Width) (hh : 0 < img.m_Height)
    (hsz : img.m_Width * img.m_Height < 2147483648) (x y : Int)
    (hx : IsInt32 x) (hy : IsInt32 y) (wrapMode : EWrapMode) :
    img.GetPixelIndex x y wrapMode
      = some (Int.toNat (wrapCoord wrapMode img.m_Height y * img.m_Width
          + wrapCoord wrapMode img.m_Width x)) := by
  have hw2 : img.m_Width < 2147483648 := by nlinarith
  have hh2 : img.m_Height < 2147483648 := by nlinarith
  obtain ⟨i1, hi1, hi2⟩ := Option.bind_eq_some.mp
    (loops_eq_wrapCoord wrapMode img.m_Width hw hw2 x hx)
  obtain ⟨j1, hj1, hj2⟩ := Option.bind_eq_some.mp
    (loops_eq_wrapCoord wrapMode img.m_Height hh hh2 y hy)
  obtain ⟨hx0, hx1⟩ := wrapCoord_range wrapMode img.m_Width hw x
  obtain ⟨hy0, hy1⟩ := wrapCoord_range wrapMode img.m_Height hh y
  generalize wrapCoord wrapMode img.m_Width x = wx at *
  generalize wrapCoord wrapMode img.m_Height y = wy at *
  have hlo : 0 ≤ wy * (img.m_Width : Int) + wx := by positivity
  have hhi : wy * (img.m_Width : Int) + wx < (img.m_Width : Int) * img.m_Height := by
    nlinarith
  have hszI : (img.m_Width : Int) * img.m_Height < 2147483648 := by exact_mod_cast hsz
  have hidx : toInt32 (wy * (img.m_Width : Int) + wx) = wy * (img.m_Width : Int) + wx :=
    toInt32_eq_self (by omega) (by omega)
  have hu : toUInt32 (wy * (img.m_Width : Int) + wx)
      = (wy * (img.m_Width : Int) + wx).toNat := toUInt32_eq_toNat hlo (by omega)
  have hprod : u32 (img.m_Width * img.m_Height) = img.m_Width * img.m_Height :=
    u32_eq_self (by omega)
  have hlt : (wy * (img.m_Width : Int) + wx).toNat < img.m_Width * img.m_Height := by
    have : ((wy * (img.m_Width : Int) + wx).toNat : Int)
        < ((img.m_Width * img.m_Height : Nat) : Int) := by
      rw [Int.toNat_of_nonneg hlo]; push_cast; exact hhi
    exact_mod_cast this
  simp only [Image.GetPixelIndex, Image.GetWidth, Image.GetHeight, hi1, hi2, hj1, hj2,
    Option.bind_eq_bind, Option.some_bind, hidx, hu, hprod]
  rw [if_neg (by omega), if_neg (by omega)]

/-- On such an image `GetPixelIndex` returns a row-major offset inside the buffer. -/
theorem GetPixelIndex_exists (img : Image) (hw : 0 < img.m_Width)
    (hh : 0 < img.m_Height) (hsz : img.m_Width * img.m_Height < 2147483648)
    (x y : Int) (hx : IsInt32 x) (hy : IsInt32 y) (wrapMode : EWrapMode) :
    ∃ x' y' : Nat, x' < img.m_Width ∧ y' < img.m_Height ∧
      img.GetPixelIndex x y wrapMode = some (y' * img.m_Width + x') ∧
      y' * img.m_Width + x' < img.m_Width * img.m_Height := by
  obtain ⟨hx0, hx1⟩ := wrapCoord_range wrapMode img.m_Width hw x
  obtain ⟨hy0, hy1⟩ := wrapCoord_range wrapMode img.m_Height hh y
  refine ⟨(wrapCoord wrapMode img.m_Width x).toNat,
    (wrapCoord wrapMode img.m_Height y).toNat, by omega, by omega, ?_, ?_⟩
  · rw [GetPixelIndex_eq img hw hh hsz x y hx hy wrapMode]
    congr 1
    zify
    rw [Int.toNat_of_nonneg hx0, Int.toNat_of_nonneg hy0, Int.toNat_of_nonneg (by positivity)]
  · have h1 : (wrapCoord wrapMode img.m_Width x).toNat < img.m_Width := by omega
    have h2 : (wrapCoord wrapMode img.m_Height y).toNat < img.m_Height := by omega
    nlinarith

/-! ## Pixel addressing: the claims -/

/-- C1. For every image with positive width and height whose pixel count is
representable as a signed 32-bit value, every signed 32-bit coordinate pair and
both wrap modes, `GetPixelIndex` returns (the loops exit, both assertions pass)
`y' * width + x'` for some `x' < width`, `y' < height`; the result is strictly
below `width * height`. -/
theorem C1_GetPixelIndex_in_bounds (img : Image) (hw : 0 < img.m_Width)
    (hh : 0 < img.m_Height) (hsz : img.m_Width * img.m_Height < 2147483648)
    (x y : Int) (hx : IsInt32 x) (hy : IsInt32 y) (wrapMode : EWrapMode) :
    ∃ x' y' : Nat, x' < img.m_Width ∧ y' < img.m_Height ∧
      img.GetPixelIndex x y wrapMode = some (y' * img.m_Width + x') ∧
      y' * img.m_Width + x' < img.m_Width * img.m_Height :=
  GetPixelIndex_exists img hw hh hsz x y hx hy wrapMode

/-- Witness for C1: a 3x2 image, coordinate (-7, 5), wrap mode `Wrap`. -/
theorem C1_GetPixelIndex_in_bounds_witness :
    ∃ x' y' : Nat, x' < 3 ∧ y' < 2 ∧
      (Image.mk 3 2 [] []).GetPixelIndex (-7) 5 EWrapMode.eWrapMode_Wrap
        = some (y' * 3 + x') ∧ y' * 3 + x' < 3 * 2 :=
  C1_GetPixelIndex_in_bounds (Image.mk 3 2 [] []) (by decide) (by decide) (by decide)
    (-7) 5 (by decide) (by decide) EWrapMode.eWrapMode_Wrap

/-- C2. In `Clamp` mode, on every image with positive width and height (pixel
count within `int32`) and every signed 32-bit coordinate,
`GetPixelIndex(x, y, Clamp)` is
`min(max(y,0),height-1) * width + min(max(x,0),width-1)`; in particular
`index(-1,0) = index(0,0)` and `index(width,0) = index(width-1,0)`. -/
theorem C2_GetPixelIndex_clamp (img : Image) (hw : 0 < img.m_Width)
    (hh : 0 < img.m_Height) (hsz : img.m_Width * img.m_Height < 2147483648)
    (x y : Int) (hx : IsInt32 x) (hy : IsInt32 y) :
    img.GetPixelIndex x y EWrapMode.eWrapMode_Clamp
        = some (Int.toNat (min (max y 0) ((img.m_Height : Int) - 1) * img.m_Width
            + min (max x 0) ((img.m_Width : Int) - 1))) ∧
      img.GetPixelIndex (-1) 0 EWrapMode.eWrapMode_Clamp
        = img.GetPixelIndex 0 0 EWrapMode.eWrapMode_Clamp ∧
      img.GetPixelIndex img.m_Width 0 EWrapMode.eWrapMode_Clamp
        = img.GetPixelIndex ((img.m_Width : Int) - 1) 0 EWrapMode.eWrapMode_Clamp := by
  have hw2 : img.m_Width < 2147483648 := by nlinarith
  refine ⟨GetPixelIndex_eq img hw hh hsz x y hx hy _, ?_, ?_⟩
  · rw [GetPixelIndex_eq img hw hh hsz (-1) 0 (by unfold IsInt32; omega)
        (by unfold IsInt32; omega),
      GetPixelIndex_eq img hw hh hsz 0 0 (by unfold IsInt32; omega)
        (by unfold IsInt32; omega)]
    simp only [wrapCoord]
    congr 3
  · rw [GetPixelIndex_eq img hw hh hsz img.m_Width 0 (by unfold IsInt32; omega)
        (by unfold IsInt32; omega),
      GetPixelIndex_eq img hw hh hsz ((img.m_Width : Int) - 1) 0
        (by unfold IsInt32; omega) (by unfold IsInt32; omega)]
    simp only [wrapCoord]
    congr 3
    omega

/-- Witness for C2: a 3x2 image, coordinate (5, -4). -/
theorem C2_GetPixelIndex_clamp_witness :
    (Image.mk 3 2 [] []).GetPixelIndex 5 (-4) EWrapMode.eWrapMode_Clamp
        = some (Int.toNat (min (max (-4) 0) (((2 : Nat) : Int) - 1) * ((3 : Nat) : Int)
            + min (max 5 0) (((3 : Nat) : Int) - 1))) ∧
      (Image.mk 3 2 [] []).GetPixelIndex (-1) 0 EWrapMode.eWrapMode_Clamp
        = (Image.mk 3 2 [] []).GetPixelIndex 0 0 EWrapMode.eWrapMode_Clamp ∧
      (Image.mk 3 2 [] []).GetPixelIndex ((3 : Nat) : Int) 0 EWrapMode.eWrapMode_Clamp
        = (Image.mk 3 2 [] []).GetPixelIndex (((3 : Nat) : Int) - 1) 0
            EWrapMode.eWrapMode_Clamp :=
  C2_GetPixelIndex_clamp (Image.mk 3 2 [] []) (by decide) (by decide) (by decide)
    5 (-4) (by decide) (by decide)

/-- C3. In `Wrap` mode, on every image with positive width and height (pixel
count within `int32`) and every signed 32-bit coordinate, the add/subtract
loops of `GetPixelIndex` compute the true (non-negative) modulo:
`GetPixelIndex(x, y, Wrap) = (y mod height) * width + (x mod width)`. -/
theorem C3_GetPixelIndex_wrap (img : Image) (hw : 0 < img.m_Width)
    (hh : 0 < img.m_Height) (hsz : img.m_Width * img.m_Height < 2147483648)
    (x y : Int) (hx : IsInt32 x) (hy : IsInt32 y) :
    img.GetPixelIndex x y EWrapMode.eWrapMode_Wrap
      = some (Int.toNat (y % (img.m_Height : Int) * img.m_Width
          + x % (img.m_Width : Int))) :=
  GetPixelIndex_eq img hw hh hsz x y hx hy _

/-- Witness for C3: a 3x2 image, coordinate (-7, 5). -/
theorem C3_GetPixelIndex_wrap_witness :
    (Image.mk 3 2 [] []).GetPixelIndex (-7) 5 EWrapMode.eWrapMode_Wrap
      = some (Int.toNat (5 % ((2 : Nat) : Int) * ((3 : Nat) : Int)
          + (-7) % ((3 : Nat) : Int))) :=
  C3_GetPixelIndex_wrap (Image.mk 3 2 [] []) (by decide) (by decide) (by decide)
    (-7) 5 (by decide) (by decide)

/-- C4. In `Wrap` mode the index is periodic in `x` with period `width`: on
every image with positive width and height (pixel count within `int32`), for
every coordinate `(x, y)` and every integer `k` with `x + k*width` a signed
32-bit value, `GetPixelIndex(x + k*width, y, Wrap) = GetPixelIndex(x, y, Wrap)`. -/
theorem C4_GetPixelIndex_wrap_periodic (img : Image) (hw : 0 < img.m_Width)
    (hh : 0 < img.m_Height) (hsz : img.m_Width * img.m_Height < 2147483648)
    (x y k : Int) (hx : IsInt32 x) (hy : IsInt32 y)
    (hxk : IsInt32 (x + k * img.m_Width)) :
    img.GetPixelIndex (x + k * img.m_Width) y EWrapMode.eWrapMode_Wrap
      = img.GetPixelIndex x y EWrapMode.eWrapMode_Wrap := by
  rw [GetPixelIndex_eq img hw hh hsz _ y hxk hy, GetPixelIndex_eq img hw hh hsz x y hx hy]
  simp only [wrapCoord, Int.add_mul_emod_self]

/-- Witness for C4: a 3x2 image, `x = 1`, `y = 1`, `k = -4`. -/
theorem C4_GetPixelIndex_wrap_periodic_witness :
    (Image.mk 3 2 [] []).GetPixelIndex (1 + (-4) * ((3 : Nat) : Int)) 1
        EWrapMode.eWrapMode_Wrap
      = (Image.mk 3 2 [] []).GetPixelIndex 1 1 EWrapMode.eWrapMode_Wrap :=
  C4_GetPixelIndex_wrap_periodic (Image.mk 3 2 [] []) (by decide) (by decide) (by decide)
    1 1 (-4) (by decide) (by decide) (by decide)

/-! ## Bilinear upscaling: arithmetic of the weights -/

theorem scale_eq {t : Nat} (ht : t < 32) : scale t = 2 ^ t := by
  have h : (2 : Nat) ^ t < 2 ^ 32 := Nat.pow_lt_pow_right (by norm_num) ht
  unfold scale u32
  rw [Nat.shiftLeft_eq, one_mul]
  exact Nat.mod_eq_of_lt (by norm_num at h ⊢; exact h)

theorem scale_pos {t : Nat} (ht : t < 32) : 0 < scale t := by
  rw [scale_eq ht]; positivity

theorem scale_dvd {t : Nat} (ht : t < 32) : scale t ∣ 4294967296 := by
  rw [scale_eq ht]
  have : (4294967296 : Nat) = 2 ^ 32 := by norm_num
  rw [this]
  exact Nat.pow_dvd_pow 2 (by omega)

theorem scale_mul_lt {sx sy : Nat} (h : sx + sy < 32) :
    scale sx * scale sy < 4294967296 := by
  rw [scale_eq (by omega), scale_eq (by omega), ← pow_add]
  have h2 : (2 : Nat) ^ (sx + sy) < 2 ^ 32 := Nat.pow_lt_pow_right (by norm_num) h
  norm_num at h2 ⊢
  exact h2

theorem highWeight_eq {t : Nat} (ht : t < 32) (i : Nat) :
    highWeight t i = (i + 2 ^ t / 2) % 2 ^ t := by
  have hd := scale_dvd ht
  unfold highWeight offset u32
  rw [Nat.mod_mod_of_dvd _ hd, scale_eq ht, Nat.shiftRight_eq_div_pow, pow_one]

theorem highWeight_lt {t : Nat} (ht : t < 32) (i : Nat) : highWeight t i < scale t := by
  unfold highWeight
  exact Nat.mod_lt _ (scale_pos ht)

theorem scale_lt (t : Nat) : scale t < 4294967296 := by
  unfold scale u32
  exact Nat.mod_lt _ (by norm_num)

theorem lowWeight_eq {t : Nat} (ht : t < 32) (i : Nat) :
    lowWeight t i = scale t - highWeight t i := by
  have h1 := highWeight_lt ht i
  have h2 := scale_lt t
  unfold lowWeight u32sub
  omega

theorem low_add_high {t : Nat} (ht : t < 32) (i : Nat) :
    lowWeight t i + highWeight t i = scale t := by
  have h1 := highWeight_lt ht i
  rw [lowWeight_eq ht]
  omega

/-- The four weights without wrap-around, and their sum. -/
theorem weights_eq {sx sy : Nat} (h : sx + sy < 32) (i j : Nat) :
    topLeftWeight sx sy i j = lowWeight sx i * lowWeight sy j ∧
    topRightWeight sx sy i j = highWeight sx i * lowWeight sy j ∧
    bottomLeftWeight sx sy i j = lowWeight sx i * highWeight sy j ∧
    bottomRightWeight sx sy i j = highWeight sx i * highWeight sy j ∧
    topLeftWeight sx sy i j + topRightWeight sx sy i j + bottomLeftWeight sx sy i j
      + bottomRightWeight sx sy i j = scale sx * scale sy := by
  have hx := low_add_high (show sx < 32 by omega) i
  have hy := low_add_high (show sy < 32 by omega) j
  have hm := scale_mul_lt h
  have hexp : lowWeight sx i * lowWeight sy j + highWeight sx i * lowWeight sy j
      + lowWeight sx i * highWeight sy j + highWeight sx i * highWeight sy j
      = scale sx * scale sy := by
    rw [← hx, ← hy]; ring
  have e1 : lowWeight sx i * lowWeight sy j < 4294967296 := by omega
  have e2 : highWeight sx i * lowWeight sy j < 4294967296 := by omega
  have e3 : lowWeight sx i * highWeight sy j < 4294967296 := by omega
  have e4 : highWeight sx i * highWeight sy j < 4294967296 := by omega
  simp only [topLeftWeight, topRightWeight, bottomLeftWeight, bottomRightWeight,
    u32_eq_self e1, u32_eq_self e2, u32_eq_self e3, u32_eq_self e4]
  exact ⟨trivial, trivial, trivial, trivial, hexp⟩

/-- C7. In `BilinearUpscale`, for every shift pair `(sx, sy)` whose scale
product `2^sx * 2^sy` is a 32-bit value and every output pixel `(i, j)`, with
`highWeight = (coord + scale/2) mod scale` and `lowWeight = scale - highWeight`
on each axis, the four corner weights sum to exactly `2^sx * 2^sy`. -/
theorem C7_corner_weights_sum (sx sy i j : Nat) (h : sx + sy < 32) :
    highWeight sx i = (i + 2 ^ sx / 2) % 2 ^ sx ∧
    lowWeight sx i = 2 ^ sx - highWeight sx i ∧
    highWeight sy j = (j + 2 ^ sy / 2) % 2 ^ sy ∧
    lowWeight sy j = 2 ^ sy - highWeight sy j ∧
    topLeftWeight sx sy i j + topRightWeight sx sy i j + bottomLeftWeight sx sy i j
      + bottomRightWeight sx sy i j = 2 ^ sx * 2 ^ sy := by
  have hsx : sx < 32 := by omega
  have hsy : sy < 32 := by omega
  refine ⟨highWeight_eq hsx i, ?_, highWeight_eq hsy j, ?_, ?_⟩
  · rw [lowWeight_eq hsx, scale_eq hsx]
  · rw [lowWeight_eq hsy, scale_eq hsy]
  · rw [(weights_eq h i j).2.2.2.2, scale_eq hsx, scale_eq hsy]

/-- Witness for C7: shifts `(2, 1)`, output pixel `(5, 3)`. -/
theorem C7_corner_weights_sum_witness :
    highWeight 2 5 = (5 + 2 ^ 2 / 2) % 2 ^ 2 ∧
    lowWeight 2 5 = 2 ^ 2 - highWeight 2 5 ∧
    highWeight 1 3 = (3 + 2 ^ 1 / 2) % 2 ^ 1 ∧
    lowWeight 1 3 = 2 ^ 1 - highWeight 1 3 ∧
    topLeftWeight 2 1 5 3 + topRightWeight 2 1 5 3 + bottomLeftWeight 2 1 5 3
      + bottomRightWeight 2 1 5 3 = 2 ^ 2 * 2 ^ 1 :=
  C7_corner_weights_sum 2 1 5 3 (by decide)

/-! ## Loops and buffers: general lemmas -/

theorem load_eq {α : Type} (buf : List α) (k : Nat) : load buf k = buf[k]? := by
  simp [load]

/-- Total correctness of a `for` loop from an invariant. -/
theorem forLoop_inv {σ : Type} (Inv : Nat → σ → Prop) (n : Nat)
    (body : Nat → σ → Option σ) (s : σ) (h0 : Inv 0 s)
    (hstep : ∀ i s, i < n → Inv i s → ∃ s', body i s = some s' ∧ Inv (i + 1) s') :
    ∃ s', forLoop n body s = some s' ∧ Inv n s' := by
  induction n with
  | zero => exact ⟨s, rfl, h0⟩
  | succ k ih =>
    obtain ⟨s1, h1, hI⟩ := ih (fun i s hi => hstep i s (by omega))
    obtain ⟨s2, h2, hI2⟩ := hstep k s1 (by omega) hI
    exact ⟨s2, by simp [forLoop, h1, h2], hI2⟩

/-- A property every iteration preserves holds of the result of a `for` loop. -/
theorem forLoop_preserves {σ : Type} (P : σ → Prop) (n : Nat)
    (body : Nat → σ → Option σ)
    (hstep : ∀ i s t, body i s = some t → P s → P t) :
    ∀ s t, forLoop n body s = some t → P s → P t := by
  induction n with
  | zero =>
    intro s t h hs
    simp only [forLoop, Option.some.injEq] at h
    exact h ▸ hs
  | succ k ih =>
    intro s t h hs
    simp only [forLoop] at h
    obtain ⟨s1, h1, h2⟩ := Option.bind_eq_some.mp h
    exact hstep k s1 t h2 (ih s s1 h1 hs)

/-- Two nested loops that rewrite the cells `j * W + i` of a pair of buffers in
row-major order: every cell ends with the value computed for it. -/
theorem fill_rows {α : Type} (W H : Nat) (g : Nat → Nat → α → α → Option (α × α))
    (PV FV : Nat → Nat → α)
    (hg : ∀ i j p fp, i < W → j < H → g i j p fp = some (PV i j, FV i j))
    (hN : W * H < 4294967296) (ps fs : List α)
    (hps : ps.length = W * H) (hfs : fs.length = W * H) :
    ∃ s, forLoop H (fun j s => forLoop W (fun i s =>
          (load s.1 (u32 (j * W + i))).bind fun p =>
          (load s.2 (u32 (j * W + i))).bind fun fp =>
          (g i j p fp).bind fun r =>
          some (s.1.set (u32 (j * W + i)) r.1, s.2.set (u32 (j * W + i)) r.2)) s) (ps, fs)
        = some s ∧
      s.1.length = W * H ∧ s.2.length = W * H ∧
      ∀ i j, i < W → j < H →
        s.1[j * W + i]? = some (PV i j) ∧ s.2[j * W + i]? = some (FV i j) := by
  have key := forLoop_inv
    (fun j (s : List α × List α) => s.1.length = W * H ∧ s.2.length = W * H ∧
      ∀ i j', i < W → j' < j →
        s.1[j' * W + i]? = some (PV i j') ∧ s.2[j' * W + i]? = some (FV i j'))
    H (fun j s => forLoop W (fun i s =>
          (load s.1 (u32 (j * W + i))).bind fun p =>
          (load s.2 (u32 (j * W + i))).bind fun fp =>
          (g i j p fp).bind fun r =>
          some (s.1.set (u32 (j * W + i)) r.1, s.2.set (u32 (j * W + i)) r.2)) s) (ps, fs)
    ⟨hps, hfs, fun i j' _ hj => absurd hj (Nat.not_lt_zero _)⟩ ?_
  · obtain ⟨s, hs, h1, h2, h3⟩ := key
    exact ⟨s, hs, h1, h2, fun i j hi hj => h3 i j hi hj⟩
  · intro j s hj ⟨hl1, hl2, hrows⟩
    have inner := forLoop_inv
      (fun i (s : List α × List α) => s.1.length = W * H ∧ s.2.length = W * H ∧
        (∀ i' j', i' < W → j' < j →
          s.1[j' * W + i']? = some (PV i' j') ∧ s.2[j' * W + i']? = some (FV i' j')) ∧
        ∀ i', i' < i →
          s.1[j * W + i']? = some (PV i' j) ∧ s.2[j * W + i']? = some (FV i' j))
      W (fun i s =>
          (load s.1 (u32 (j * W + i))).bind fun p =>
          (load s.2 (u32 (j * W + i))).bind fun fp =>
          (g i j p fp).bind fun r =>
          some (s.1.set (u32 (j * W + i)) r.1, s.2.set (u32 (j * W + i)) r.2)) s
      ⟨hl1, hl2, hrows, fun i' hi' => absurd hi' (Nat.not_lt_zero _)⟩ ?_
    · obtain ⟨s', hs', h1, h2, h3, h4⟩ := inner
      refine ⟨s', hs', h1, h2, ?_⟩
      intro i j' hi hj'
      rcases Nat.lt_succ_iff_lt_or_eq.mp hj' with h | h
      · exact h3 i j' hi h
      · subst h; exact h4 i hi
    · intro i t hi ⟨ht1, ht2, hprev, hcur⟩
      have hrow : (j + 1) * W ≤ H * W := Nat.mul_le_mul_right W hj
      have hidx : j * W + i < W * H := by
        have : j * W + i < (j + 1) * W := by rw [Nat.succ_mul]; omega
        rw [Nat.mul_comm W H]; omega
      have hu : u32 (j * W + i) = j * W + i := u32_eq_self (by omega)
      obtain ⟨p0, hp⟩ : ∃ p0, load t.1 (j * W + i) = some p0 := by
        rw [load_eq]; exact ⟨_, List.getElem?_eq_getElem (by omega)⟩
      obtain ⟨fp0, hfp⟩ : ∃ fp0, load t.2 (j * W + i) = some fp0 := by
        rw [load_eq]; exact ⟨_, List.getElem?_eq_getElem (by omega)⟩
      refine ⟨(t.1.set (j * W + i) (PV i j), t.2.set (j * W + i) (FV i j)), ?_, ?_⟩
      · simp only [hu, hp, hfp, Option.some_bind, hg i j _ _ hi hj]
      · refine ⟨by simp [ht1], by simp [ht2], ?_, ?_⟩
        · intro i' j' hi' hj'
          have hne : j * W + i ≠ j' * W + i' := by
            have h1 : (j' + 1) * W ≤ j * W := Nat.mul_le_mul_right W hj'
            rw [Nat.succ_mul] at h1
            omega
          simp only [List.getElem?_set_ne hne]
          exact hprev i' j' hi' hj'
        · intro i' hi'
          rcases Nat.lt_succ_iff_lt_or_eq.mp hi' with h | h
          · have hne : j * W + i ≠ j * W + i' := by omega
            simp only [List.getElem?_set_ne hne]
            exact hcur i' h
          · subst h
            exact ⟨List.getElem?_set_self (by omega), List.getElem?_set_self (by omega)⟩

/-! ## Bilinear upscaling: what is written -/

theorem toInt32_isInt32 (z : Int) : IsInt32 (toInt32 z) := by
  unfold IsInt32 toInt32; omega

theorem GetPixel_some (img : Image) (hwf : img.WellFormed) (x y : Int)
    (hx : IsInt32 x) (hy : IsInt32 y) (wrapMode : EWrapMode) :
    ∃ p, img.GetPixel x y wrapMode = some p ∧ p ∈ img.m_Pixels := by
  obtain ⟨hw, hh, hsz, hlen⟩ := hwf
  obtain ⟨x', y', _, _, hidx, hlt⟩ := GetPixelIndex_exists img hw hh hsz x y hx hy wrapMode
  have hget : img.m_Pixels[y' * img.m_Width + x']?
      = some (img.m_Pixels.get ⟨y' * img.m_Width + x', by omega⟩) :=
    List.getElem?_eq_getElem (by omega)
  refine ⟨img.m_Pixels.get ⟨y' * img.m_Width + x', by omega⟩, ?_, List.get_mem _ _ _⟩
  simp only [Image.GetPixel, hidx, Option.bind_eq_bind, Option.some_bind, load_eq, hget]

theorem upscaleCorners_some (img : Image) (hwf : img.WellFormed) (sx sy : Nat)
    (wrapMode : EWrapMode) (i j : Nat) :
    ∃ k, upscaleCorners img sx sy wrapMode i j = some k ∧
      k.1 ∈ img.m_Pixels ∧ k.2.1 ∈ img.m_Pixels ∧ k.2.2.1 ∈ img.m_Pixels ∧
      k.2.2.2 ∈ img.m_Pixels := by
  obtain ⟨tl, h1, m1⟩ := GetPixel_some img hwf (lowIdx sx i) (lowIdx sy j)
    (toInt32_isInt32 _) (toInt32_isInt32 _) wrapMode
  obtain ⟨tr, h2, m2⟩ := GetPixel_some img hwf (highIdx sx i) (lowIdx sy j)
    (toInt32_isInt32 _) (toInt32_isInt32 _) wrapMode
  obtain ⟨bl, h3, m3⟩ := GetPixel_some img hwf (lowIdx sx i) (highIdx sy j)
    (toInt32_isInt32 _) (toInt32_isInt32 _) wrapMode
  obtain ⟨br, h4, m4⟩ := GetPixel_some img hwf (highIdx sx i) (highIdx sy j)
    (toInt32_isInt32 _) (toInt32_isInt32 _) wrapMode
  exact ⟨(tl, tr, bl, br), by simp [upscaleCorners, h1, h2, h3, h4], m1, m2, m3, m4⟩

theorem CompareBitDepths_self (d : Fin 4 → Fin 256) : CompareBitDepths d d = true := by
  have h : ∀ l : List (Fin 4),
      l.foldl (fun ok i => ok && decide (d i = d i)) true = true := by
    intro l
    induction l with
    | nil => rfl
    | cons a l ih => simp [ih]
  exact h _

theorem setComponent_all (p : Pixel) (v : Fin 4 → Fin 256) :
    (((p.setComponent 0 (v 0)).setComponent 1 (v 1)).setComponent 2 (v 2)).setComponent 3
      (v 3) = ⟨v, p.BitDepth⟩ := by
  simp only [Pixel.setComponent, Pixel.mk.injEq, and_true]
  funext c
  fin_cases c <;> simp [Function.update]

/-- The channel loop leaves the depths alone and writes every component. -/
theorem upscaleChannel_fold (sx sy i j : Nat) (tl tr bl br p fp : Pixel) :
    (List.finRange 4).foldl (fun s c => upscaleChannel sx sy i j tl tr bl br c s) (p, fp)
      = (⟨fun c => primaryComponent sx sy (channelSum sx sy i j tl tr bl br c), p.BitDepth⟩,
         ⟨fun c => fractionalComponent sx sy (channelSum sx sy i j tl tr bl br c),
           fp.BitDepth⟩) := by
  have h4 : List.finRange 4 = [0, 1, 2, 3] := by decide
  rw [h4]
  simp only [List.foldl, upscaleChannel]
  rw [setComponent_all p (fun c => primaryComponent sx sy (channelSum sx sy i j tl tr bl br c)),
    setComponent_all fp
      (fun c => fractionalComponent sx sy (channelSum sx sy i j tl tr bl br c))]

/-- On a well-formed image of uniform depth the body of the pixel loops has a
result, and it does not depend on the previous contents of the two cells. -/
theorem upscalePixel_eq (D : Decls) (img : Image) (hwf : img.WellFormed)
    (hud : img.UniformDepth) (sx sy : Nat) (hs : sx + sy < 32) (wrapMode : EWrapMode)
    (i j : Nat) :
    ∃ k, upscaleCorners img sx sy wrapMode i j = some k ∧
      (k.1 ∈ img.m_Pixels ∧ k.2.1 ∈ img.m_Pixels ∧ k.2.2.1 ∈ img.m_Pixels ∧
        k.2.2.2 ∈ img.m_Pixels) ∧
      ∀ p fp, upscalePixel D img sx sy wrapMode i j p fp
        = some (upscaledPixel sx sy i j k, upscaledFraction sx sy i j k) := by
  obtain ⟨k, hk, m1, m2, m3, m4⟩ := upscaleCorners_some img hwf sx sy wrapMode i j
  refine ⟨k, hk, ⟨m1, m2, m3, m4⟩, ?_⟩
  intro p fp
  have d2 : k.2.1.GetBitDepth = k.1.GetBitDepth := hud _ m2 _ m1
  have d3 : k.2.2.1.GetBitDepth = k.1.GetBitDepth := hud _ m3 _ m1
  have d4 : k.2.2.2.GetBitDepth = k.1.GetBitDepth := hud _ m4 _ m1
  have hne : u32 (scale sx * scale sy) ≠ 0 := by
    rw [u32_eq_self (scale_mul_lt hs)]
    exact Nat.pos_iff_ne_zero.mp
      (Nat.mul_pos (scale_pos (by omega)) (scale_pos (by omega)))
  simp only [upscalePixel, hk, Option.some_bind, d2, d3, d4, CompareBitDepths_self,
    not_true_eq_false, if_false, if_neg hne, upscaleChannel_fold]
  rfl

theorem shifts_lt_of_size {w h sx sy : Nat} (hw : 0 < w) (hh : 0 < h)
    (hsz : w * 2 ^ sx * (h * 2 ^ sy) < 4294967296) :
    sx + sy < 32 ∧ w * 2 ^ sx < 4294967296 ∧ h * 2 ^ sy < 4294967296 := by
  have hx : 0 < 2 ^ sx := by positivity
  have hy : 0 < 2 ^ sy := by positivity
  have h1 : w * 2 ^ sx ≤ w * 2 ^ sx * (h * 2 ^ sy) :=
    Nat.le_mul_of_pos_right _ (Nat.mul_pos hh hy)
  have h2 : h * 2 ^ sy ≤ w * 2 ^ sx * (h * 2 ^ sy) :=
    Nat.le_mul_of_pos_left _ (Nat.mul_pos hw hx)
  have h3 : 2 ^ sx * 2 ^ sy ≤ w * 2 ^ sx * (h * 2 ^ sy) :=
    Nat.mul_le_mul (Nat.le_mul_of_pos_left _ hw) (Nat.le_mul_of_pos_left _ hh)
  refine ⟨?_, by omega, by omega⟩
  by_contra hcon
  have h4 : (2 : Nat) ^ 32 ≤ 2 ^ (sx + sy) := Nat.pow_le_pow_right (by norm_num) (by omega)
  rw [pow_add] at h4
  norm_num at h4
  omega

/-- What `BilinearUpscale` returns on a well-formed image of uniform depth when
the new pixel count fits 32 bits: the new dimensions, two buffers of the new
size, and at every output pixel the values computed from its four corners. -/
theorem BilinearUpscale_spec (D : Decls) (img : Image) (hwf : img.WellFormed)
    (hud : img.UniformDepth) (sx sy : Nat)
    (hsz : img.m_Width * 2 ^ sx * (img.m_Height * 2 ^ sy) < 4294967296)
    (wrapMode : EWrapMode) :
    ∃ out, img.BilinearUpscale D sx sy wrapMode = some out ∧
      out.m_Width = img.m_Width * 2 ^ sx ∧ out.m_Height = img.m_Height * 2 ^ sy ∧
      out.m_Pixels.length = out.m_Width * out.m_Height ∧
      out.m_FractionalPixels.length = out.m_Width * out.m_Height ∧
      ∀ i j, i < out.m_Width → j < out.m_Height →
        ∃ k, upscaleCorners img sx sy wrapMode i j = some k ∧
          (k.1 ∈ img.m_Pixels ∧ k.2.1 ∈ img.m_Pixels ∧ k.2.2.1 ∈ img.m_Pixels ∧
            k.2.2.2 ∈ img.m_Pixels) ∧
          out.m_Pixels[j * out.m_Width + i]? = some (upscaledPixel sx sy i j k) ∧
          out.m_FractionalPixels[j * out.m_Width + i]?
            = some (upscaledFraction sx sy i j k) := by
  obtain ⟨hs, hWlt, hHlt⟩ := shifts_lt_of_size hwf.1 hwf.2.1 hsz
  have hW : u32 (img.GetWidth <<< sx) = img.m_Width * 2 ^ sx := by
    rw [Image.GetWidth, Nat.shiftLeft_eq, u32_eq_self hWlt]
  have hH : u32 (img.GetHeight <<< sy) = img.m_Height * 2 ^ sy := by
    rw [Image.GetHeight, Nat.shiftLeft_eq, u32_eq_self hHlt]
  have hN : u32 (img.m_Width * 2 ^ sx * (img.m_Height * 2 ^ sy))
      = img.m_Width * 2 ^ sx * (img.m_Height * 2 ^ sy) := u32_eq_self hsz
  choose K hK using fun i j => upscalePixel_eq D img hwf hud sx sy hs wrapMode i j
  obtain ⟨s, hrun, hl1, hl2, hcells⟩ := fill_rows (img.m_Width * 2 ^ sx)
    (img.m_Height * 2 ^ sy)
    (fun i j p fp => upscalePixel D img sx sy wrapMode i j p fp)
    (fun i j => upscaledPixel sx sy i j (K i j))
    (fun i j => upscaledFraction sx sy i j (K i j))
    (fun i j p fp _ _ => (hK i j).2.2 p fp) hsz
    (List.replicate (img.m_Width * 2 ^ sx * (img.m_Height * 2 ^ sy)) D.defaultPixel)
    (List.replicate (img.m_Width * 2 ^ sx * (img.m_Height * 2 ^ sy)) D.defaultPixel)
    (List.length_replicate _ _) (List.length_replicate _ _)
  refine ⟨⟨img.m_Width * 2 ^ sx, img.m_Height * 2 ^ sy, s.1, s.2⟩, ?_, rfl, rfl, hl1, hl2, ?_⟩
  · simp only [Image.BilinearUpscale, upscaleStep, hW, hH, hN, hrun, Option.map_some']
  · intro i j hi hj
    exact ⟨K i j, (hK i j).1, (hK i j).2.1, (hcells i j hi hj).1, (hcells i j hi hj).2⟩

/-! ## Bilinear upscaling: quotient and remainder -/

theorem scale_mul_eq {sx sy : Nat} (h : sx + sy < 32) :
    scale sx * scale sy = 2 ^ (sx + sy) := by
  rw [scale_eq (by omega), scale_eq (by omega), pow_add]

theorem channelSum_eq {sx sy : Nat} (h : sx + sy ≤ 8) (i j : Nat)
    (k : Pixel × Pixel × Pixel × Pixel) (c : Fin 4) :
    channelSum sx sy i j k.1 k.2.1 k.2.2.1 k.2.2.2 c = weightedSum sx sy i j k c ∧
      weightedSum sx sy i j k c ≤ 2 ^ (sx + sy) * 255 := by
  have hw := (weights_eq (show sx + sy < 32 by omega) i j).2.2.2.2
  rw [scale_mul_eq (by omega)] at hw
  have hS : (2 : Nat) ^ (sx + sy) ≤ 2 ^ 8 := Nat.pow_le_pow_right (by norm_num) h
  norm_num at hS
  have b1 : (k.1.Component c).val * topLeftWeight sx sy i j
      ≤ 255 * topLeftWeight sx sy i j := Nat.mul_le_mul_right _ (by omega)
  have b2 : (k.2.1.Component c).val * topRightWeight sx sy i j
      ≤ 255 * topRightWeight sx sy i j := Nat.mul_le_mul_right _ (by omega)
  have b3 : (k.2.2.1.Component c).val * bottomLeftWeight sx sy i j
      ≤ 255 * bottomLeftWeight sx sy i j := Nat.mul_le_mul_right _ (by omega)
  have b4 : (k.2.2.2.Component c).val * bottomRightWeight sx sy i j
      ≤ 255 * bottomRightWeight sx sy i j := Nat.mul_le_mul_right _ (by omega)
  refine ⟨?_, by unfold weightedSum; omega⟩
  unfold channelSum weightedSum
  simp only []
  rw [u32_eq_self (n := (k.1.Component c).val * topLeftWeight sx sy i j) (by omega),
    u32_eq_self (n := (k.2.1.Component c).val * topRightWeight sx sy i j) (by omega),
    u32_eq_self (n := (k.2.2.1.Component c).val * bottomLeftWeight sx sy i j) (by omega),
    u32_eq_self (n := (k.2.2.2.Component c).val * bottomRightWeight sx sy i j) (by omega),
    u32_eq_self (by omega)]

theorem primaryComponent_val {sx sy : Nat} (h : sx + sy ≤ 8) {sum : Nat}
    (hsum : sum ≤ 2 ^ (sx + sy) * 255) :
    (primaryComponent sx sy sum).val = sum / 2 ^ (sx + sy) := by
  have hpos : 0 < 2 ^ (sx + sy) := by positivity
  have hq : sum / 2 ^ (sx + sy) ≤ 255 := by
    have := Nat.div_le_div_right (c := 2 ^ (sx + sy)) hsum
    rwa [Nat.mul_div_cancel_left _ hpos] at this
  unfold primaryComponent u8
  rw [u32_eq_self (scale_mul_lt (by omega)), scale_mul_eq (by omega)]
  show sum / 2 ^ (sx + sy) % 256 = sum / 2 ^ (sx + sy)
  exact Nat.mod_eq_of_lt (Nat.lt_succ_of_le hq)

theorem fractionalComponent_val {sx sy : Nat} (h : sx + sy ≤ 8) (sum : Nat) :
    (fractionalComponent sx sy sum).val = sum % 2 ^ (sx + sy) := by
  have hpos : 0 < 2 ^ (sx + sy) := by positivity
  have hS : (2 : Nat) ^ (sx + sy) ≤ 2 ^ 8 := Nat.pow_le_pow_right (by norm_num) h
  norm_num at hS
  have hmask : scaleMask sx sy = 2 ^ (sx + sy) - 1 := by
    unfold scaleMask u16 u32sub
    rw [u32_eq_self (scale_mul_lt (by omega)), scale_mul_eq (by omega)]
    omega
  have hlt : sum % 2 ^ (sx + sy) < 2 ^ (sx + sy) := Nat.mod_lt _ hpos
  unfold fractionalComponent u8
  rw [hmask, Nat.and_pow_two_sub_one_eq_mod]
  show sum % 2 ^ (sx + sy) % 256 = sum % 2 ^ (sx + sy)
  exact Nat.mod_eq_of_lt (lt_of_lt_of_le hlt hS)

/-- The image of the counterexample to C6: two pixels in a row, all
components 0 and all components 1, depth 8. -/
theorem upscale_step_image_wellFormed :
    (Image.mk 2 1 [Pixel.flat 0 8, Pixel.flat 1 8] [Pixel.flat 0 0, Pixel.flat 0 0]).WellFormed ∧
    (Image.mk 2 1 [Pixel.flat 0 8, Pixel.flat 1 8]
      [Pixel.flat 0 0, Pixel.flat 0 0]).UniformDepth := by
  refine ⟨⟨by decide, by decide, by decide, rfl⟩, ?_⟩
  intro p hp q hq
  simp only [List.mem_cons, List.mem_singleton, List.not_mem_nil, or_false] at hp hq
  rcases hp with rfl | rfl <;> rcases hq with rfl | rfl <;> rfl

/-- C6, counterexample. Upscaling the 2x1 image with components 0 and 1 by
`(9, 0)`: at output pixel `(556, 0)` the variable `sum` of channel 0 is 300 and
`2^9 * 2^0 = 512`, but the stored fractional component is not `sum mod 512`
(it is 44, the low eight bits of 300). -/
theorem C6_counterexample :
    ¬ ∃ (D : Decls) (out : Image) (fp : Pixel) (sum : Nat),
      (Image.mk 2 1 [Pixel.flat 0 8, Pixel.flat 1 8]
          [Pixel.flat 0 0, Pixel.flat 0 0]).BilinearUpscale D 9 0
          EWrapMode.eWrapMode_Clamp = some out ∧
        out.m_FractionalPixels[0 * out.m_Width + 556]? = some fp ∧
        upscaleSum (Image.mk 2 1 [Pixel.flat 0 8, Pixel.flat 1 8]
          [Pixel.flat 0 0, Pixel.flat 0 0]) 9 0 EWrapMode.eWrapMode_Clamp 556 0 0
          = some sum ∧
        (fp.Component 0).val = sum % (2 ^ 9 * 2 ^ 0) := by
  rintro ⟨D, out, fp, sum, hout, hfp, hsum, heq⟩
  obtain ⟨hwf, hud⟩ := upscale_step_image_wellFormed
  obtain ⟨out', hout', hW, hH, _, _, hcells⟩ := BilinearUpscale_spec D _ hwf hud 9 0
    (by norm_num) EWrapMode.eWrapMode_Clamp
  rw [hout] at hout'
  cases hout'
  obtain ⟨k, hk, _, _, hf⟩ := hcells 556 0 (by rw [hW]; norm_num) (by rw [hH]; norm_num)
  have hcorn : upscaleCorners (Image.mk 2 1 [Pixel.flat 0 8, Pixel.flat 1 8]
      [Pixel.flat 0 0, Pixel.flat 0 0]) 9 0 EWrapMode.eWrapMode_Clamp 556 0
      = some (Pixel.flat 0 8, Pixel.flat 1 8, Pixel.flat 0 8, Pixel.flat 1 8) := by rfl
  rw [hcorn] at hk
  cases hk
  rw [hfp] at hf
  cases hf
  simp only [upscaleSum, hcorn, Option.map_some', Option.some.injEq] at hsum
  subst hsum
  revert heq
  decide

/-- C6, amended. In `BilinearUpscale`, for every shift pair with
`sx + sy ≤ 8` (the fractional bits fit the 8-bit component), every output pixel
and every channel, with `sum` the weighted sum of the four corner components
and `S = 2^sx * 2^sy`: the stored primary component is `sum div S`, the stored
fractional component is `sum mod S` (so it is below `S`), and
`sum = primary * S + fractional`. The call completes on every well-formed image
of uniform depth whose upscaled pixel count fits 32 bits. -/
theorem C6_quotient_remainder (D : Decls) (img : Image) (hwf : img.WellFormed)
    (hud : img.UniformDepth) (sx sy : Nat) (hs : sx + sy ≤ 8)
    (hsz : img.m_Width * 2 ^ sx * (img.m_Height * 2 ^ sy) < 4294967296)
    (wrapMode : EWrapMode) (i j : Nat) (hi : i < img.m_Width * 2 ^ sx)
    (hj : j < img.m_Height * 2 ^ sy) (c : Fin 4) :
    ∃ (out : Image) (k : Pixel × Pixel × Pixel × Pixel) (p fp : Pixel),
      img.BilinearUpscale D sx sy wrapMode = some out ∧
      upscaleCorners img sx sy wrapMode i j = some k ∧
      out.m_Pixels[j * out.m_Width + i]? = some p ∧
      out.m_FractionalPixels[j * out.m_Width + i]? = some fp ∧
      channelSum sx sy i j k.1 k.2.1 k.2.2.1 k.2.2.2 c = weightedSum sx sy i j k c ∧
      (p.Component c).val = weightedSum sx sy i j k c / (2 ^ sx * 2 ^ sy) ∧
      (fp.Component c).val = weightedSum sx sy i j k c % (2 ^ sx * 2 ^ sy) ∧
      (fp.Component c).val < 2 ^ sx * 2 ^ sy ∧
      weightedSum sx sy i j k c
        = (p.Component c).val * (2 ^ sx * 2 ^ sy) + (fp.Component c).val := by
  obtain ⟨out, hout, hW, hH, _, _, hcells⟩ := BilinearUpscale_spec D img hwf hud sx sy hsz
    wrapMode
  obtain ⟨k, hk, _, hp, hfp⟩ := hcells i j (by rw [hW]; exact hi) (by rw [hH]; exact hj)
  obtain ⟨hcs, hbound⟩ := channelSum_eq hs i j k c
  have hpv : ((upscaledPixel sx sy i j k).Component c).val
      = weightedSum sx sy i j k c / (2 ^ sx * 2 ^ sy) := by
    rw [← pow_add]
    show (primaryComponent sx sy _).val = _
    rw [hcs]
    exact primaryComponent_val hs hbound
  have hfv : ((upscaledFraction sx sy i j k).Component c).val
      = weightedSum sx sy i j k c % (2 ^ sx * 2 ^ sy) := by
    rw [← pow_add]
    show (fractionalComponent sx sy _).val = _
    rw [hcs]
    exact fractionalComponent_val hs _
  have hpos : 0 < 2 ^ sx * 2 ^ sy := by positivity
  refine ⟨out, k, _, _, hout, hk, hp, hfp, hcs, hpv, hfv, ?_, ?_⟩
  · rw [hfv]; exact Nat.mod_lt _ hpos
  · rw [hpv, hfv, Nat.mul_comm]; exact (Nat.div_add_mod _ _).symm

/-- Witness for C6: the two-pixel row upscaled by `(1, 1)`, output pixel
`(2, 0)`, channel 0. -/
theorem C6_quotient_remainder_witness :
    ∃ (out : Image) (k : Pixel × Pixel × Pixel × Pixel) (p fp : Pixel),
      Image.twoPixelRow.BilinearUpscale Decls.sample 1 1 EWrapMode.eWrapMode_Clamp
        = some out ∧
      upscaleCorners Image.twoPixelRow 1 1 EWrapMode.eWrapMode_Clamp 2 0 = some k ∧
      out.m_Pixels[0 * out.m_Width + 2]? = some p ∧
      out.m_FractionalPixels[0 * out.m_Width + 2]? = some fp ∧
      channelSum 1 1 2 0 k.1 k.2.1 k.2.2.1 k.2.2.2 0 = weightedSum 1 1 2 0 k 0 ∧
      (p.Component 0).val = weightedSum 1 1 2 0 k 0 / (2 ^ 1 * 2 ^ 1) ∧
      (fp.Component 0).val = weightedSum 1 1 2 0 k 0 % (2 ^ 1 * 2 ^ 1) ∧
      (fp.Component 0).val < 2 ^ 1 * 2 ^ 1 ∧
      weightedSum 1 1 2 0 k 0 = (p.Component 0).val * (2 ^ 1 * 2 ^ 1) + (fp.Component 0).val :=
  C6_quotient_remainder Decls.sample Image.twoPixelRow
    ⟨by decide, by decide, by decide, rfl⟩
    (by
      intro p hp q hq
      simp only [Image.twoPixelRow, List.mem_cons, List.mem_singleton, List.not_mem_nil,
        or_false] at hp hq
      rcases hp with rfl | rfl <;> rcases hq with rfl | rfl <;> rfl)
    1 1 (by decide) (by decide) EWrapMode.eWrapMode_Clamp 2 0 (by decide) (by decide) 0

/-! ## Bilinear upscaling with zero shifts -/

theorem lowIdx_zero {i : Nat} (hi : i < 2147483648) : lowIdx 0 i = (i : Int) - 1 := by
  have hs : scale 0 = 1 := by decide
  have ho : offset 0 = 0 := by decide
  have hh : highIdx 0 i = (i : Int) := by
    unfold highIdx
    rw [ho, hs, Nat.add_zero, Nat.div_one, u32_eq_self (by omega)]
    exact toInt32_eq_self (by omega) (by omega)
  unfold lowIdx
  rw [hh]
  exact toInt32_eq_self (by omega) (by omega)

/-- With zero shifts the pixel written at `(i, j)` is the top-left corner. -/
theorem upscaledPixel_zero (i j : Nat) (k : Pixel × Pixel × Pixel × Pixel) :
    upscaledPixel 0 0 i j k = k.1 := by
  have hs : (0 : Nat) + 0 ≤ 8 := by decide
  obtain ⟨w1, w2, w3, w4, _⟩ := weights_eq (show 0 + 0 < 32 by decide) i j
  have hhx : highWeight 0 i = 0 := by
    rw [highWeight_eq (by decide)]; exact Nat.mod_one _
  have hhy : highWeight 0 j = 0 := by
    rw [highWeight_eq (by decide)]; exact Nat.mod_one _
  have hlx : lowWeight 0 i = 1 := by
    rw [lowWeight_eq (by decide), hhx]; decide
  have hly : lowWeight 0 j = 1 := by
    rw [lowWeight_eq (by decide), hhy]; decide
  have hcomp : ∀ c, primaryComponent 0 0 (channelSum 0 0 i j k.1 k.2.1 k.2.2.1 k.2.2.2 c)
      = k.1.Component c := by
    intro c
    obtain ⟨hcs, hbound⟩ := channelSum_eq hs i j k c
    have hsum : weightedSum 0 0 i j k c = (k.1.Component c).val := by
      unfold weightedSum
      rw [w1, w2, w3, w4, hhx, hhy, hlx, hly]
      simp
    apply Fin.ext
    rw [hcs, primaryComponent_val hs hbound, hsum]
    simp
  show (⟨fun c => primaryComponent 0 0 (channelSum 0 0 i j k.1 k.2.1 k.2.2.1 k.2.2.2 c),
    k.1.BitDepth⟩ : Pixel) = k.1
  rw [funext hcomp]

/-- What `BilinearUpscale(0, 0)` does on every well-formed image of uniform
depth: the dimensions stay, and the output sample at `(i, j)` is the input
sample that `GetPixel(i - 1, j - 1, wrapMode)` returns. -/
theorem BilinearUpscale_zero_shift (D : Decls) (img : Image) (hwf : img.WellFormed)
    (hud : img.UniformDepth) (wrapMode : EWrapMode) :
    ∃ out, img.BilinearUpscale D 0 0 wrapMode = some out ∧
      out.m_Width = img.m_Width ∧ out.m_Height = img.m_Height ∧
      ∀ i j, i < img.m_Width → j < img.m_Height →
        ∃ p, img.GetPixel ((i : Int) - 1) ((j : Int) - 1) wrapMode = some p ∧
          out.m_Pixels[j * img.m_Width + i]? = some p := by
  have hw := hwf.1
  have hh := hwf.2.1
  have hsz := hwf.2.2.1
  obtain ⟨out, hout, hW, hH, _, _, hcells⟩ := BilinearUpscale_spec D img hwf hud 0 0
    (by simp only [pow_zero, Nat.mul_one]; omega) wrapMode
  simp only [pow_zero, Nat.mul_one] at hW hH
  refine ⟨out, hout, hW, hH, ?_⟩
  intro i j hi hj
  obtain ⟨k, hk, _, hp, _⟩ := hcells i j (by omega) (by omega)
  have hwlt : img.m_Width < 2147483648 := by nlinarith
  have hhlt : img.m_Height < 2147483648 := by nlinarith
  simp only [upscaleCorners] at hk
  obtain ⟨tl, htl, hk⟩ := Option.bind_eq_some.mp hk
  obtain ⟨tr, _, hk⟩ := Option.bind_eq_some.mp hk
  obtain ⟨bl, _, hk⟩ := Option.bind_eq_some.mp hk
  obtain ⟨br, _, hk⟩ := Option.bind_eq_some.mp hk
  cases hk
  rw [lowIdx_zero (by omega), lowIdx_zero (by omega)] at htl
  rw [upscaledPixel_zero, hW] at hp
  exact ⟨tl, htl, hp⟩

/-- C5, the code at a failing input. `BilinearUpscale(0, 0)` of the two-pixel
row (components 10, then 20) keeps the dimensions 2x1, but the output sample
at `(1, 0)` has the components 10 of the input sample at `(0, 0)`, not the
components 20 of the input sample at `(1, 0)`: with `xscale = 1` the whole
weight falls on `lowXIdx = i - 1`. This holds in both wrap modes. -/
theorem C5_zero_shift_moves_samples (D : Decls) (wrapMode : EWrapMode) :
    ∃ (out : Image) (p q : Pixel),
      Image.twoPixelRow.BilinearUpscale D 0 0 wrapMode = some out ∧
      out.m_Width = 2 ∧ out.m_Height = 1 ∧
      out.m_Pixels[0 * 2 + 1]? = some p ∧
      Image.twoPixelRow.m_Pixels[0 * 2 + 1]? = some q ∧
      (∀ c, (p.Component c).val = 10) ∧ (∀ c, (q.Component c).val = 20) := by
  have hwf : Image.twoPixelRow.WellFormed := ⟨by decide, by decide, by decide, rfl⟩
  have hud : Image.twoPixelRow.UniformDepth := by
    intro p hp q hq
    simp only [Image.twoPixelRow, List.mem_cons, List.mem_singleton, List.not_mem_nil,
      or_false] at hp hq
    rcases hp with rfl | rfl <;> rcases hq with rfl | rfl <;> rfl
  obtain ⟨out, hout, hW, hH, _, _, hcells⟩ := BilinearUpscale_spec D _ hwf hud 0 0
    (by decide) wrapMode
  have hW2 : out.m_Width = 2 := by rw [hW]; rfl
  have hH2 : out.m_Height = 1 := by rw [hH]; rfl
  obtain ⟨k, hk, _, hp, _⟩ := hcells 1 0 (by omega) (by omega)
  have hcorn : ∃ b, upscaleCorners Image.twoPixelRow 0 0 wrapMode 1 0
      = some (Pixel.flat 10 8, b) := by
    cases wrapMode
    · exact ⟨_, rfl⟩
    · exact ⟨_, rfl⟩
  obtain ⟨b, hb⟩ := hcorn
  rw [hb] at hk
  cases hk
  rw [hW2] at hp
  refine ⟨out, _, Pixel.flat 20 8, hout, hW2, hH2, hp, rfl, ?_, ?_⟩
  · intro c
    have h0 : ∀ x : Pixel, channelSum 0 0 1 0 (Pixel.flat 10 8) b.1 b.2.1 x c = 10 := by
      intro x
      simp only [channelSum]
      have e1 : topLeftWeight 0 0 1 0 = 1 := by decide
      have e2 : topRightWeight 0 0 1 0 = 0 := by decide
      have e3 : bottomLeftWeight 0 0 1 0 = 0 := by decide
      have e4 : bottomRightWeight 0 0 1 0 = 0 := by decide
      rw [e1, e2, e3, e4]
      simp only [Nat.mul_zero, Nat.mul_one, Nat.add_zero]
      rfl
    show (primaryComponent 0 0 (channelSum 0 0 1 0 (Pixel.flat 10 8) b.1 b.2.1 b.2.2 c)).val
      = 10
    rw [h0]
    rfl
  · intro c
    rfl

/-! ## Content-aware downscaling: dimensions and buffers -/

theorem store_length {α : Type} {buf t : List α} {k : Nat} {v : α}
    (h : store buf k v = some t) : t.length = buf.length := by
  unfold store at h
  split at h
  · cases h; exact List.length_set _ _ _
  · cases h

theorem downscalePixel_length (D : Decls) (img : Image) (sx sy : Nat) (b : Bool)
    (bitDepth : Fin 4 → Fin 256) (imgData : List ℚ) (newHeight i j : Nat)
    (px t : List Pixel)
    (h : downscalePixel D img sx sy b bitDepth imgData newHeight i j px = some t) :
    t.length = px.length := by
  simp only [downscalePixel, Option.bind_eq_bind] at h
  obtain ⟨_, _, h⟩ := Option.bind_eq_some.mp h
  obtain ⟨_, _, h⟩ := Option.bind_eq_some.mp h
  obtain ⟨_, _, h⟩ := Option.bind_eq_some.mp h
  exact store_length h

/-- Whatever `ContentAwareDownscale` returns has the dimensions
`(width >> xtimes, height >> ytimes)`, a primary buffer with
`newWidth * newHeight` cells, and the fractional buffer of the input,
unchanged. -/
theorem ContentAwareDownscale_shape (D : Decls) (img out : Image) (sx sy : Nat)
    (wrapMode : EWrapMode) (b : Bool)
    (h : img.ContentAwareDownscale D sx sy wrapMode b = some out) :
    out.m_Width = img.m_Width >>> sx ∧ out.m_Height = img.m_Height >>> sy ∧
      out.m_Pixels.length = u32 ((img.m_Width >>> sx) * (img.m_Height >>> sy)) ∧
      out.m_FractionalPixels = img.m_FractionalPixels := by
  simp only [Image.ContentAwareDownscale, Option.bind_eq_bind] at h
  obtain ⟨first, _, h⟩ := Option.bind_eq_some.mp h
  obtain ⟨d1, _, h⟩ := Option.bind_eq_some.mp h
  obtain ⟨d2, _, h⟩ := Option.bind_eq_some.mp h
  obtain ⟨d3, _, h⟩ := Option.bind_eq_some.mp h
  obtain ⟨px, hpx, h⟩ := Option.bind_eq_some.mp h
  cases h
  refine ⟨rfl, rfl, ?_, rfl⟩
  have hlen := forLoop_preserves
    (fun t : List Pixel =>
      t.length = u32 (img.GetWidth >>> sx * (img.GetHeight >>> sy)))
    _ _ (fun j s t hst hs => forLoop_preserves
      (fun t : List Pixel =>
        t.length = u32 (img.GetWidth >>> sx * (img.GetHeight >>> sy)))
      _ _ (fun i s t hst hs => (downscalePixel_length D img sx sy b _ _ _ i j s t hst).trans hs)
      s t hst hs) _ px hpx (List.length_replicate _ _)
  exact hlen

/-- The buffer-pair invariant after `BilinearUpscale`: on a well-formed image
of uniform depth whose upscaled pixel count fits 32 bits the call returns an
image of dimensions `(width << xtimes, height << ytimes)` whose two buffers
both have `newWidth * newHeight` cells. -/
theorem BilinearUpscale_shape (D : Decls) (img : Image) (hwf : img.WellFormed)
    (hud : img.UniformDepth) (sx sy : Nat)
    (hsz : img.m_Width * 2 ^ sx * (img.m_Height * 2 ^ sy) < 4294967296)
    (wrapMode : EWrapMode) :
    ∃ out, img.BilinearUpscale D sx sy wrapMode = some out ∧
      out.m_Width = img.m_Width <<< sx ∧ out.m_Height = img.m_Height <<< sy ∧
      out.m_Pixels.length = out.m_Width * out.m_Height ∧
      out.m_FractionalPixels.length = out.m_Width * out.m_Height := by
  obtain ⟨out, hout, hW, hH, h1, h2, _⟩ := BilinearUpscale_spec D img hwf hud sx sy hsz
    wrapMode
  exact ⟨out, hout, by rw [hW, Nat.shiftLeft_eq], by rw [hH, Nat.shiftLeft_eq], h1, h2⟩

/-! ## Content-aware downscaling of a flat image: the derivative planes -/

theorem firstDerivative_const (v : ℚ) : firstDerivative v v v v = 0 := by
  unfold firstDerivative; ring

theorem secondDerivative_const (v : ℚ) : secondDerivative v v v v v = 0 := by
  unfold secondDerivative; ring

theorem forLoop_const_inv {σ : Type} (P : σ → Prop) (n : Nat)
    (body : Nat → σ → Option σ) (s : σ) (h0 : P s)
    (hstep : ∀ i s, i < n → P s → ∃ s', body i s = some s' ∧ P s') :
    ∃ s', forLoop n body s = some s' ∧ P s' :=
  forLoop_inv (fun _ => P) n body s h0 hstep

theorem GetPixelIndex_lt (img : Image) (hwf : img.WellFormed) (x y : Int)
    (wrapMode : EWrapMode) :
    ∃ k, img.GetPixelIndex (toInt32 x) (toInt32 y) wrapMode = some k ∧
      k < img.m_Width * img.m_Height := by
  obtain ⟨hw, hh, hsz, _⟩ := hwf
  obtain ⟨x', y', _, _, hidx, hlt⟩ := GetPixelIndex_exists img hw hh hsz _ _
    (toInt32_isInt32 x) (toInt32_isInt32 y) wrapMode
  exact ⟨_, hidx, hlt⟩

theorem load_flat {img : Image} {P : Pixel} (hf : img.Flat P) {k : Nat}
    (hk : k < img.m_Width * img.m_Height) : load img.m_Pixels k = some P := by
  obtain ⟨⟨_, _, _, hlen⟩, _, hall⟩ := hf
  have hk2 : k < img.m_Pixels.length := by omega
  rw [load_eq, List.getElem?_eq_getElem hk2]
  exact congrArg some (hall _ (List.getElem_mem _))

theorem planeIx_eq {w h : Nat} (hn : 19 * (w * h) < 4294967296) {c : Nat} (hc : c ≤ 4) :
    planeIx w h c = (if c = 4 then 18 else c + 1) * (w * h) := by
  unfold planeIx
  by_cases h4 : c = 4
  · rw [if_pos h4, if_pos h4, Nat.mul_assoc]; exact u32_eq_self (by omega)
  · rw [if_neg h4, if_neg h4, Nat.mul_assoc]
    have : (c + 1) * (w * h) ≤ 4 * (w * h) := Nat.mul_le_mul_right _ (by omega)
    exact u32_eq_self (by omega)

theorem planeIy_eq {w h : Nat} (hn : 19 * (w * h) < 4294967296) :
    planeIy w h = 5 * (w * h) := by
  unfold planeIy; rw [Nat.mul_assoc]; exact u32_eq_self (by omega)

theorem planeIxx_eq {w h : Nat} (hn : 19 * (w * h) < 4294967296) {c : Nat} (hc : c < 4) :
    planeIxx w h c = (6 + c) * (w * h) := by
  unfold planeIxx; rw [Nat.mul_assoc]
  have : (6 + c) * (w * h) ≤ 9 * (w * h) := Nat.mul_le_mul_right _ (by omega)
  exact u32_eq_self (by omega)

theorem planeIyy_eq {w h : Nat} (hn : 19 * (w * h) < 4294967296) {c : Nat} (hc : c < 4) :
    planeIyy w h c = (10 + c) * (w * h) := by
  unfold planeIyy; rw [Nat.mul_assoc]
  have : (10 + c) * (w * h) ≤ 13 * (w * h) := Nat.mul_le_mul_right _ (by omega)
  exact u32_eq_self (by omega)

theorem planeIxy_eq {w h : Nat} (hn : 19 * (w * h) < 4294967296) {c : Nat} (hc : c < 4) :
    planeIxy w h c = (14 + c) * (w * h) := by
  unfold planeIxy; rw [Nat.mul_assoc]
  have : (14 + c) * (w * h) ≤ 17 * (w * h) := Nat.mul_le_mul_right _ (by omega)
  exact u32_eq_self (by omega)

/-- The start of each derivative plane lies between `n` and `18 * n`. -/
theorem plane_bounds {w h : Nat} (hn : 19 * (w * h) < 4294967296) {c : Nat} (hc : c < 4) :
    (w * h ≤ planeIx w h c ∧ planeIx w h c ≤ 18 * (w * h)) ∧
    (w * h ≤ planeIx w h 4 ∧ planeIx w h 4 ≤ 18 * (w * h)) ∧
    (w * h ≤ planeIy w h ∧ planeIy w h ≤ 18 * (w * h)) ∧
    (w * h ≤ planeIxx w h c ∧ planeIxx w h c ≤ 18 * (w * h)) ∧
    (w * h ≤ planeIyy w h c ∧ planeIyy w h c ≤ 18 * (w * h)) ∧
    (w * h ≤ planeIxy w h c ∧ planeIxy w h c ≤ 18 * (w * h)) := by
  rw [planeIx_eq hn (show c ≤ 4 by omega), planeIx_eq hn (le_refl 4), planeIy_eq hn,
    planeIxx_eq hn hc, planeIyy_eq hn hc, planeIxy_eq hn hc, if_neg (show c ≠ 4 by omega),
    if_pos rfl]
  have e1 : (c + 1) * (w * h) = c * (w * h) + w * h := by ring
  have e2 : (6 + c) * (w * h) = c * (w * h) + 6 * (w * h) := by ring
  have e3 : (10 + c) * (w * h) = c * (w * h) + 10 * (w * h) := by ring
  have e4 : (14 + c) * (w * h) = c * (w * h) + 14 * (w * h) := by ring
  have e5 : c * (w * h) ≤ 3 * (w * h) := Nat.mul_le_mul_right _ (by omega)
  rw [e1, e2, e3, e4]
  omega

/-- A store of 0 into a derivative plane keeps the flat state. -/
theorem store_zero_flat {n : Nat} {L : ℚ} {d : List ℚ} (hd : FlatPlanes n L d) {k : Nat}
    (h1 : n ≤ k) (h2 : k < 19 * n) :
    ∃ d', store d k 0 = some d' ∧ FlatPlanes n L d' := by
  obtain ⟨hlen, hI, hz⟩ := hd
  refine ⟨d.set k 0, by unfold store; rw [if_pos (by omega)], ?_, ?_, ?_⟩
  · rw [List.length_set]; exact hlen
  · intro m hm
    rw [List.getElem?_set_ne (by omega)]
    exact hI m hm
  · intro m hm1 hm2
    by_cases hkm : k = m
    · subst hkm
      exact List.getElem?_set_self (by omega)
    · rw [List.getElem?_set_ne hkm]
      exact hz m hm1 hm2

/-- The first-derivative stencil read from the plane `I` of a flat state. -/
theorem planeDerivative_I {n : Nat} {L : ℚ} {d : List ℚ} (hd : FlatPlanes n L d)
    {a b c e : Nat} (ha : a < n) (hb : b < n) (hc : c < n) (he : e < n) :
    planeDerivative d 0 a b c e = some 0 := by
  obtain ⟨_, hI, _⟩ := hd
  simp only [planeDerivative, load_eq, Nat.zero_add, hI a ha, hI b hb, hI c hc, hI e he,
    Option.some_bind, firstDerivative_const]

/-- The first-derivative stencil read from a derivative plane of a flat state. -/
theorem planeDerivative_zero {n : Nat} {L : ℚ} {d : List ℚ} (hd : FlatPlanes n L d)
    {base a b c e : Nat} (h1 : n ≤ base) (h2 : base ≤ 18 * n)
    (ha : a < n) (hb : b < n) (hc : c < n) (he : e < n) :
    planeDerivative d base a b c e = some 0 := by
  obtain ⟨_, _, hz⟩ := hd
  simp only [planeDerivative, load_eq, hz (base + a) (by omega) (by omega),
    hz (base + b) (by omega) (by omega), hz (base + c) (by omega) (by omega),
    hz (base + e) (by omega) (by omega), Option.some_bind, firstDerivative_const]

theorem CPNT_flat {img : Image} {P : Pixel} (hf : img.Flat P) (bitDepth : Fin 4 → Fin 256)
    (c : Fin 4) {k : Nat} (hk : k < img.m_Width * img.m_Height) :
    CPNT img bitDepth c k = some (ConvertChannelToFloat (P.Component c) (bitDepth c)) := by
  simp only [CPNT, load_flat hf hk, Option.map_some']

/-- The intensity loop on a flat image fills the plane `I` with one value. -/
theorem intensityLoop_flat {img : Image} {P : Pixel} (hf : img.Flat P)
    (bitDepth : Fin 4 → Fin 256) :
    ∃ d, intensityLoop img bitDepth
        (List.replicate (19 * (img.m_Width * img.m_Height)) 0) = some d ∧
      FlatPlanes (img.m_Width * img.m_Height) (intensity bitDepth P) d := by
  have hn := hf.2.1
  have hu : u32 (img.GetWidth * img.GetHeight) = img.m_Width * img.m_Height :=
    u32_eq_self (by simp only [Image.GetWidth, Image.GetHeight]; omega)
  have key := forLoop_inv
    (fun i (d : List ℚ) => d.length = 19 * (img.m_Width * img.m_Height) ∧
      (∀ k, k < i → d[k]? = some (intensity bitDepth P)) ∧
      ∀ k, img.m_Width * img.m_Height ≤ k → k < 19 * (img.m_Width * img.m_Height) →
        d[k]? = some 0)
    (img.m_Width * img.m_Height)
    (fun i imgData => (load img.m_Pixels i).bind fun p =>
      store imgData (planeI img.GetWidth img.GetHeight + i) (intensity bitDepth p))
    (List.replicate (19 * (img.m_Width * img.m_Height)) 0)
    ⟨List.length_replicate _ _, fun k hk => absurd hk (Nat.not_lt_zero _),
      fun k _ hk => List.getElem?_replicate_of_lt hk⟩ ?_
  · obtain ⟨d, hd, hP⟩ := key
    refine ⟨d, ?_, hP⟩
    simp only [intensityLoop, hu, Option.bind_eq_bind]
    exact hd
  · intro i d hi ⟨hlen, hI, hz⟩
    refine ⟨d.set i (intensity bitDepth P), ?_, ?_, ?_, ?_⟩
    · simp only [load_flat hf hi, Option.some_bind, planeI, Nat.zero_add, store]
      rw [if_pos (by omega)]
    · rw [List.length_set]; exact hlen
    · intro k hk
      by_cases hki : i = k
      · subst hki; exact List.getElem?_set_self (by omega)
      · rw [List.getElem?_set_ne hki]; exact hI k (by omega)
    · intro k hk1 hk2
      rw [List.getElem?_set_ne (by omega)]
      exact hz k hk1 hk2

theorem derivativeChannel_flat {img : Image} {P : Pixel} (hf : img.Flat P)
    (bitDepth : Fin 4 → Fin 256) {L : ℚ} {d : List ℚ}
    (hd : FlatPlanes (img.m_Width * img.m_Height) L d)
    {a1 a2 a3 a4 b1 b2 b3 b4 idx : Nat}
    (h1 : a1 < img.m_Width * img.m_Height) (h2 : a2 < img.m_Width * img.m_Height)
    (h3 : a3 < img.m_Width * img.m_Height) (h4 : a4 < img.m_Width * img.m_Height)
    (h5 : b1 < img.m_Width * img.m_Height) (h6 : b2 < img.m_Width * img.m_Height)
    (h7 : b3 < img.m_Width * img.m_Height) (h8 : b4 < img.m_Width * img.m_Height)
    (h9 : idx < img.m_Width * img.m_Height) (c : Fin 4) :
    ∃ d', derivativeChannel img bitDepth a1 a2 a3 a4 b1 b2 b3 b4 idx c d = some d' ∧
      FlatPlanes (img.m_Width * img.m_Height) L d' := by
  obtain ⟨⟨bx1, bx2⟩, _, _, ⟨bxx1, bxx2⟩, ⟨byy1, byy2⟩, _⟩ := plane_bounds hf.2.1 c.isLt
  obtain ⟨d1, e1, hd1⟩ := store_zero_flat hd
    (k := planeIx img.m_Width img.m_Height c.val + idx) (by omega) (by omega)
  obtain ⟨d2, e2, hd2⟩ := store_zero_flat hd1
    (k := planeIxx img.m_Width img.m_Height c.val + idx) (by omega) (by omega)
  obtain ⟨d3, e3, hd3⟩ := store_zero_flat hd2
    (k := planeIyy img.m_Width img.m_Height c.val + idx) (by omega) (by omega)
  refine ⟨d3, ?_, hd3⟩
  simp only [derivativeChannel, CPNT_flat hf bitDepth c h1, CPNT_flat hf bitDepth c h2,
    CPNT_flat hf bitDepth c h3, CPNT_flat hf bitDepth c h4, CPNT_flat hf bitDepth c h5,
    CPNT_flat hf bitDepth c h6, CPNT_flat hf bitDepth c h7, CPNT_flat hf bitDepth c h8,
    CPNT_flat hf bitDepth c h9, Option.bind_eq_bind, Option.some_bind,
    firstDerivative_const, secondDerivative_const, Image.GetWidth, Image.GetHeight,
    e1, e2, e3]

theorem stencil_flat (D : Decls) {img : Image} (hwf : img.WellFormed) (i j : Nat) :
    ∃ s, stencil D img i j = some s ∧
      s.hm2xidx < img.m_Width * img.m_Height ∧ s.hm1xidx < img.m_Width * img.m_Height ∧
      s.hp1xidx < img.m_Width * img.m_Height ∧ s.hp2xidx < img.m_Width * img.m_Height ∧
      s.hm2yidx < img.m_Width * img.m_Height ∧ s.hm1yidx < img.m_Width * img.m_Height ∧
      s.hp1yidx < img.m_Width * img.m_Height ∧ s.hp2yidx < img.m_Width * img.m_Height ∧
      s.idx < img.m_Width * img.m_Height := by
  obtain ⟨k1, e1, l1⟩ := GetPixelIndex_lt img hwf ((i : Int) - 2) j D.defaultWrapMode
  obtain ⟨k2, e2, l2⟩ := GetPixelIndex_lt img hwf ((i : Int) - 1) j D.defaultWrapMode
  obtain ⟨k3, e3, l3⟩ := GetPixelIndex_lt img hwf ((i : Int) + 1) j D.defaultWrapMode
  obtain ⟨k4, e4, l4⟩ := GetPixelIndex_lt img hwf ((i : Int) + 2) j D.defaultWrapMode
  obtain ⟨k5, e5, l5⟩ := GetPixelIndex_lt img hwf i ((j : Int) - 2) D.defaultWrapMode
  obtain ⟨k6, e6, l6⟩ := GetPixelIndex_lt img hwf i ((j : Int) - 1) D.defaultWrapMode
  obtain ⟨k7, e7, l7⟩ := GetPixelIndex_lt img hwf i ((j : Int) + 1) D.defaultWrapMode
  obtain ⟨k8, e8, l8⟩ := GetPixelIndex_lt img hwf i ((j : Int) + 2) D.defaultWrapMode
  obtain ⟨k9, e9, l9⟩ := GetPixelIndex_lt img hwf i j D.defaultWrapMode
  exact ⟨⟨k1, k2, k3, k4, k5, k6, k7, k8, k9⟩,
    by simp only [stencil, e1, e2, e3, e4, e5, e6, e7, e8, e9, Option.some_bind],
    l1, l2, l3, l4, l5, l6, l7, l8, l9⟩

/-- One iteration of the derivative loop keeps the flat state. -/
theorem derivativePixel_flat (D : Decls) {img : Image} {P : Pixel} (hf : img.Flat P)
    (bitDepth : Fin 4 → Fin 256) {L : ℚ} {d : List ℚ}
    (hd : FlatPlanes (img.m_Width * img.m_Height) L d) (i j : Nat) :
    ∃ d', derivativePixel D img bitDepth i j d = some d' ∧
      FlatPlanes (img.m_Width * img.m_Height) L d' := by
  obtain ⟨s, hs, l1, l2, l3, l4, l5, l6, l7, l8, l9⟩ := stencil_flat D hf.1 i j
  obtain ⟨_, ⟨b1, b2⟩, ⟨b3, b4⟩, _⟩ := plane_bounds hf.2.1 (show 0 < 4 by omega)
  obtain ⟨d1, e1, hd1⟩ := store_zero_flat hd
    (k := planeIx img.m_Width img.m_Height 4 + s.idx) (by omega) (by omega)
  obtain ⟨d2, e2, hd2⟩ := store_zero_flat hd1
    (k := planeIy img.m_Width img.m_Height + s.idx) (by omega) (by omega)
  obtain ⟨d3, e3, hd3⟩ := forLoop_const_inv
    (FlatPlanes (img.m_Width * img.m_Height) L) 4
    (fun c imgData =>
      if hc : c < 4 then
        derivativeChannel img bitDepth s.hm2xidx s.hm1xidx s.hp1xidx s.hp2xidx
          s.hm2yidx s.hm1yidx s.hp1yidx s.hp2yidx s.idx ⟨c, hc⟩ imgData
      else none) d2 hd2
    (fun c t hc ht => by
      beta_reduce
      rw [dif_pos hc]
      exact derivativeChannel_flat hf bitDepth ht l1 l2 l3 l4 l5 l6 l7 l8 l9 ⟨c, hc⟩)
  refine ⟨d3, ?_, hd3⟩
  simp only [derivativePixel, hs, Option.some_bind, planeI, Image.GetWidth, Image.GetHeight,
    planeDerivative_I hd l1 l2 l3 l4, e1, planeDerivative_I hd1 l5 l6 l7 l8, e2, e3]

theorem mixedStencil_flat (D : Decls) {img : Image} (hwf : img.WellFormed) (i j : Nat) :
    ∃ s, mixedStencil D img i j = some s ∧
      s.1 < img.m_Width * img.m_Height ∧ s.2.1 < img.m_Width * img.m_Height ∧
      s.2.2.1 < img.m_Width * img.m_Height ∧ s.2.2.2.1 < img.m_Width * img.m_Height ∧
      s.2.2.2.2 < img.m_Width * img.m_Height := by
  obtain ⟨k5, e5, l5⟩ := GetPixelIndex_lt img hwf i ((j : Int) - 2) D.defaultWrapMode
  obtain ⟨k6, e6, l6⟩ := GetPixelIndex_lt img hwf i ((j : Int) - 1) D.defaultWrapMode
  obtain ⟨k7, e7, l7⟩ := GetPixelIndex_lt img hwf i ((j : Int) + 1) D.defaultWrapMode
  obtain ⟨k8, e8, l8⟩ := GetPixelIndex_lt img hwf i ((j : Int) + 2) D.defaultWrapMode
  obtain ⟨k9, e9, l9⟩ := GetPixelIndex_lt img hwf i j D.defaultWrapMode
  exact ⟨(k5, k6, k7, k8, k9),
    by simp only [mixedStencil, e5, e6, e7, e8, e9, Option.some_bind], l5, l6, l7, l8, l9⟩

/-- One iteration of the `Ixy` loop keeps the flat state. -/
theorem mixedDerivativePixel_flat (D : Decls) {img : Image} {P : Pixel} (hf : img.Flat P)
    {L : ℚ} {d : List ℚ} (hd : FlatPlanes (img.m_Width * img.m_Height) L d) (i j : Nat) :
    ∃ d', mixedDerivativePixel D img i j d = some d' ∧
      FlatPlanes (img.m_Width * img.m_Height) L d' := by
  obtain ⟨s, hs, l1, l2, l3, l4, l5⟩ := mixedStencil_flat D hf.1 i j
  obtain ⟨d3, e3, hd3⟩ := forLoop_const_inv
    (FlatPlanes (img.m_Width * img.m_Height) L) 4
    (fun c imgData =>
      (planeDerivative imgData (planeIx img.m_Width img.m_Height c) s.1 s.2.1 s.2.2.1
        s.2.2.2.1).bind fun dd =>
      store imgData (planeIxy img.m_Width img.m_Height c + s.2.2.2.2) dd) d hd
    (fun c t hc ht => by
      obtain ⟨⟨bx1, bx2⟩, _, _, _, _, ⟨bxy1, bxy2⟩⟩ := plane_bounds hf.2.1 hc
      beta_reduce
      rw [planeDerivative_zero ht bx1 bx2 l1 l2 l3 l4, Option.some_bind]
      exact store_zero_flat ht (by omega) (by omega))
  refine ⟨d3, ?_, hd3⟩
  simp only [mixedDerivativePixel, hs, Option.some_bind, Image.GetWidth, Image.GetHeight]
  exact e3

/-- The three float loops of `ContentAwareDownscale` on a flat image end in the
flat state: every derivative is 0. -/
theorem derivativeLoops_flat (D : Decls) {img : Image} {P : Pixel} (hf : img.Flat P)
    (bitDepth : Fin 4 → Fin 256) :
    ∃ d1 d2 d3,
      intensityLoop img bitDepth
        (List.replicate (19 * (img.m_Width * img.m_Height)) 0) = some d1 ∧
      forLoop img.m_Height (fun j imgData =>
        forLoop img.m_Width (fun i imgData => derivativePixel D img bitDepth i j imgData)
          imgData) d1 = some d2 ∧
      forLoop img.m_Height (fun j imgData =>
        forLoop img.m_Width (fun i imgData => mixedDerivativePixel D img i j imgData)
          imgData) d2 = some d3 ∧
      FlatPlanes (img.m_Width * img.m_Height) (intensity bitDepth P) d3 := by
  obtain ⟨d1, e1, h1⟩ := intensityLoop_flat hf bitDepth
  obtain ⟨d2, e2, h2⟩ := forLoop_const_inv
    (FlatPlanes (img.m_Width * img.m_Height) (intensity bitDepth P)) img.m_Height
    (fun j imgData =>
      forLoop img.m_Width (fun i imgData => derivativePixel D img bitDepth i j imgData)
        imgData) d1 h1
    (fun j t _ ht => forLoop_const_inv _ img.m_Width _ t ht
      (fun i u _ hu => derivativePixel_flat D hf bitDepth hu i j))
  obtain ⟨d3, e3, h3⟩ := forLoop_const_inv
    (FlatPlanes (img.m_Width * img.m_Height) (intensity bitDepth P)) img.m_Height
    (fun j imgData =>
      forLoop img.m_Width (fun i imgData => mixedDerivativePixel D img i j imgData)
        imgData) d2 h2
    (fun j t _ ht => forLoop_const_inv _ img.m_Width _ t ht
      (fun i u _ hu => mixedDerivativePixel_flat D hf hu i j))
  exact ⟨d1, d2, d3, e1, e2, e3, h3⟩

/-! ## Content-aware downscaling of a flat image: the smoothing step -/

/-- With every derivative term 0 the smoothing step of channel `c` stores
`static_cast<uint8>((I0 + 0.5) * pxScale)`. -/
theorem smoothChannel_flat {w h : Nat} (hn : 19 * (w * h) < 4294967296) {L : ℚ}
    {d : List ℚ} (hd : FlatPlanes (w * h) L d) (bitDepth : Fin 4 → Fin 256)
    (current result : Pixel) {idx : Nat} (hidx : idx < w * h) (c : Fin 4) :
    smoothChannel w h d bitDepth current idx c result
      = (floatToUInt8 ((ConvertChannelToFloat (current.Component c) (bitDepth c) + 1 / 2)
          * (((1 <<< (bitDepth c).val : Nat) : ℚ) - 1))).bind
          fun v => some (result.setComponent c v) := by
  obtain ⟨_, ⟨b1, b2⟩, ⟨b3, b4⟩, ⟨b5, b6⟩, ⟨b7, b8⟩, ⟨b9, b10⟩⟩ := plane_bounds hn c.isLt
  obtain ⟨_, _, hz⟩ := hd
  simp only [smoothChannel, load_eq, hz (planeIx w h 4 + idx) (by omega) (by omega),
    hz (planeIy w h + idx) (by omega) (by omega),
    hz (planeIxx w h c.val + idx) (by omega) (by omega),
    hz (planeIyy w h c.val + idx) (by omega) (by omega),
    hz (planeIxy w h c.val + idx) (by omega) (by omega),
    Option.bind_eq_bind, Option.some_bind]
  norm_num

/-- At depth 8, `static_cast<uint8>((v/255 + 0.5) * 255)` is `v + 127` for
`v ≤ 128`. -/
theorem floatToUInt8_half (v : Fin 256) (hv : v.val ≤ 128) :
    floatToUInt8 ((ConvertChannelToFloat v 8 + 1 / 2)
      * (((1 <<< (8 : Fin 256).val : Nat) : ℚ) - 1)) = some (u8 (v.val + 127)) := by
  have h256 : (1 <<< (8 : Fin 256).val : Nat) = 256 := by decide
  have h8 : (((1 <<< (8 : Fin 256).val : Nat) : ℚ) - 1) = 255 := by
    rw [h256]; norm_num
  have hval : (ConvertChannelToFloat v 8 + 1 / 2) * (((1 <<< (8 : Fin 256).val : Nat) : ℚ) - 1)
      = (v.val : ℚ) + 255 / 2 := by
    unfold ConvertChannelToFloat
    rw [h8]
    field_simp
    ring
  have hvq : (v.val : ℚ) ≤ 128 := by exact_mod_cast hv
  have hv0 : (0 : ℚ) ≤ (v.val : ℚ) := by positivity
  have hfloor : Rat.floor ((v.val : ℚ) + 255 / 2) = ((v.val + 127 : Nat) : Int) := by
    show ⌊(v.val : ℚ) + 255 / 2⌋ = _
    rw [Int.floor_eq_iff]
    push_cast
    constructor <;> linarith
  rw [hval]
  unfold floatToUInt8
  rw [if_pos ⟨by linarith, by linarith⟩, hfloor, Int.toNat_ofNat]

/-- The channel loop of the smoothing step on a flat depth-8 image. -/
theorem smoothLoop_flat {w h : Nat} (hn : 19 * (w * h) < 4294967296) {L : ℚ}
    {d : List ℚ} (hd : FlatPlanes (w * h) L d) (P result : Pixel)
    (hd8 : ∀ c, P.BitDepth c = 8) (hc : ∀ c, (P.Component c).val ≤ 128)
    {idx : Nat} (hidx : idx < w * h) :
    forLoop 4 (fun c result =>
      if hc : c < 4 then smoothChannel w h d P.GetBitDepth P idx ⟨c, hc⟩ result
      else none) result = some ⟨(Pixel.raised P).Component, result.BitDepth⟩ := by
  have hstep : ∀ (c : Fin 4) (r : Pixel),
      smoothChannel w h d P.GetBitDepth P idx c r
        = some (r.setComponent c (u8 ((P.Component c).val + 127))) := by
    intro c r
    rw [smoothChannel_flat hn hd _ _ _ hidx c]
    have e : P.GetBitDepth c = 8 := hd8 c
    rw [e, floatToUInt8_half _ (hc c), Option.some_bind]
  simp only [forLoop, Option.some_bind, hstep, Nat.reduceLT, dite_true, Nat.lt_add_one,
    Nat.zero_lt_succ, Nat.one_lt_ofNat]
  exact congrArg some (setComponent_all result (Pixel.raised P).Component)

/-- One iteration of the smoothing loop on a flat depth-8 image stores the
raised pixel. -/
theorem downscalePixel_flat (D : Decls) {img : Image} {P : Pixel} (hf : img.Flat P)
    (hd8 : ∀ c, P.BitDepth c = 8) (hc : ∀ c, (P.Component c).val ≤ 128)
    {L : ℚ} {d : List ℚ} (hd : FlatPlanes (img.m_Width * img.m_Height) L d)
    (sx sy : Nat) (b : Bool) (newHeight i j : Nat) (px : List Pixel) :
    downscalePixel D img sx sy b P.GetBitDepth d newHeight i j px
      = store px (downscaleStoreOffset newHeight i j) (Pixel.raised P) := by
  obtain ⟨idx, hidx, hlt⟩ := GetPixelIndex_lt img hf.1 (sourceCoord sx i b)
    (sourceCoord sy j b) D.defaultWrapMode
  simp only [downscalePixel, hidx, load_flat hf hlt, Option.bind_eq_bind, Option.some_bind,
    Image.GetWidth, Image.GetHeight, smoothLoop_flat hf.2.1 hd P _ hd8 hc hlt]
  rfl

/-- The smoothing loops on a flat depth-8 image, for a new height that does
not exceed the new width: every store is inside the buffer and every stored
pixel is the raised pixel. -/
theorem smoothLoops_flat (D : Decls) {img : Image} {P : Pixel} (hf : img.Flat P)
    (hd8 : ∀ c, P.BitDepth c = 8) (hc : ∀ c, (P.Component c).val ≤ 128)
    {L : ℚ} {d : List ℚ} (hd : FlatPlanes (img.m_Width * img.m_Height) L d)
    (sx sy : Nat) (b : Bool) (nw nh : Nat) (hle : nh ≤ nw) (hN : nw * nh < 4294967296)
    (px0 : List Pixel) (hpx0 : px0.length = nw * nh) :
    ∃ px, forLoop nh (fun j px => forLoop nw (fun i px =>
        downscalePixel D img sx sy b P.GetBitDepth d nh i j px) px) px0 = some px ∧
      px.length = nw * nh ∧
      ∀ i j, i < nw → j < nh → px[j * nh + i]? = some (Pixel.raised P) := by
  have addr : ∀ i j, i < nw → j < nh → j * nh + i < nw * nh := by
    intro i j hi hj
    have h1 : j * nh ≤ j * nw := Nat.mul_le_mul_left j hle
    have h2 : (j + 1) * nw ≤ nh * nw := Nat.mul_le_mul_right nw hj
    rw [Nat.succ_mul] at h2
    rw [Nat.mul_comm nw nh]
    omega
  have key := forLoop_inv
    (fun j (px : List Pixel) => px.length = nw * nh ∧
      ∀ i j', i < nw → j' < j → px[j' * nh + i]? = some (Pixel.raised P))
    nh (fun j px => forLoop nw (fun i px =>
      downscalePixel D img sx sy b P.GetBitDepth d nh i j px) px) px0
    ⟨hpx0, fun i j' _ hj => absurd hj (Nat.not_lt_zero _)⟩ ?_
  · obtain ⟨px, hpx, hl, hcells⟩ := key
    exact ⟨px, hpx, hl, fun i j hi hj => hcells i j hi hj⟩
  · intro j px hj ⟨hl, hrows⟩
    have inner := forLoop_inv
      (fun i (px : List Pixel) => px.length = nw * nh ∧
        (∀ i' j', i' < nw → j' < j → px[j' * nh + i']? = some (Pixel.raised P)) ∧
        ∀ i', i' < i → px[j * nh + i']? = some (Pixel.raised P))
      nw (fun i px => downscalePixel D img sx sy b P.GetBitDepth d nh i j px) px
      ⟨hl, hrows, fun i' hi' => absurd hi' (Nat.not_lt_zero _)⟩ ?_
    · obtain ⟨px', hpx', h1, h2, h3⟩ := inner
      refine ⟨px', hpx', h1, ?_⟩
      intro i j' hi hj'
      rcases Nat.lt_succ_iff_lt_or_eq.mp hj' with h | h
      · exact h2 i j' hi h
      · subst h; exact h3 i hi
    · intro i t hi ⟨ht, hprev, hcur⟩
      have hK := addr i j hi hj
      have hu : downscaleStoreOffset nh i j = j * nh + i := u32_eq_self (by omega)
      refine ⟨t.set (j * nh + i) (Pixel.raised P), ?_, ?_, ?_, ?_⟩
      · beta_reduce
        rw [downscalePixel_flat D hf hd8 hc hd, hu, store, if_pos (by omega)]
      · rw [List.length_set]; exact ht
      · intro i' j' hi' hj'
        by_cases hEq : j * nh + i = j' * nh + i'
        · rw [← hEq]; exact List.getElem?_set_self (by omega)
        · rw [List.getElem?_set_ne hEq]; exact hprev i' j' hi' hj'
      · intro i' hi'
        by_cases hEq : j * nh + i = j * nh + i'
        · rw [← hEq]; exact List.getElem?_set_self (by omega)
        · rw [List.getElem?_set_ne hEq]; exact hcur i' (by omega)

theorem shiftRight_le_self (n k : Nat) : n >>> k ≤ n := by
  rw [Nat.shiftRight_eq_div_pow]; exact Nat.div_le_self _ _

/-- Result of `ContentAwareDownscale` on a flat image of depth 8 whose components are at
most 128, when the new height does not exceed the new width: the call returns,
and every output pixel `(i, j)` it stores (at `j * newHeight + i`) is the input
colour with every component raised by 127. -/
theorem ContentAwareDownscale_flat (D : Decls) (img : Image) (P : Pixel)
    (hf : img.Flat P) (hd8 : ∀ c, P.BitDepth c = 8)
    (hc : ∀ c, (P.Component c).val ≤ 128) (sx sy : Nat)
    (hle : img.m_Height >>> sy ≤ img.m_Width >>> sx) (wrapMode : EWrapMode) (b : Bool) :
    ∃ out, img.ContentAwareDownscale D sx sy wrapMode b = some out ∧
      out.m_Width = img.m_Width >>> sx ∧ out.m_Height = img.m_Height >>> sy ∧
      out.m_Pixels.length = out.m_Width * out.m_Height ∧
      ∀ i j, i < out.m_Width → j < out.m_Height →
        out.m_Pixels[j * out.m_Height + i]? = some (Pixel.raised P) := by
  have hn := hf.2.1
  obtain ⟨hw, hh, hsz, hlen⟩ := hf.1
  have hpos : 0 < img.m_Width * img.m_Height := Nat.mul_pos hw hh
  have hfirst : load img.m_Pixels 0 = some P := load_flat hf hpos
  obtain ⟨d1, d2, d3, e1, e2, e3, hd3⟩ := derivativeLoops_flat D hf P.GetBitDepth
  have hNle : (img.m_Width >>> sx) * (img.m_Height >>> sy) ≤ img.m_Width * img.m_Height :=
    Nat.mul_le_mul (shiftRight_le_self _ _) (shiftRight_le_self _ _)
  have hN : u32 ((img.m_Width >>> sx) * (img.m_Height >>> sy))
      = (img.m_Width >>> sx) * (img.m_Height >>> sy) := u32_eq_self (by omega)
  have h19 : u32 (19 * img.m_Width * img.m_Height) = 19 * (img.m_Width * img.m_Height) := by
    rw [Nat.mul_assoc]; exact u32_eq_self hn
  obtain ⟨px, hpx, hl, hcells⟩ := smoothLoops_flat D hf hd8 hc hd3 sx sy b
    (img.m_Width >>> sx) (img.m_Height >>> sy) hle (by omega)
    (List.replicate ((img.m_Width >>> sx) * (img.m_Height >>> sy))
      (D.defaultPixel.ChangeBitDepth D P.GetBitDepth)) (List.length_replicate _ _)
  refine ⟨⟨img.m_Width >>> sx, img.m_Height >>> sy, px, img.m_FractionalPixels⟩, ?_, rfl, rfl,
    hl, fun i j hi hj => hcells i j hi hj⟩
  simp only [Image.ContentAwareDownscale, Image.GetWidth, Image.GetHeight, hfirst,
    Option.bind_eq_bind, Option.some_bind, hN, h19, e1, e2, e3, hpx]

/-! ## Flat images through both resamplers -/

theorem uniform_flat (w h : Nat) (P : Pixel) (hw : 0 < w) (hh : 0 < h)
    (hn : 19 * (w * h) < 4294967296) : (Image.uniform w h P).Flat P := by
  refine ⟨⟨hw, hh, ?_, List.length_replicate _ _⟩, hn, ?_⟩
  · show w * h < 2147483648
    omega
  · intro q hq
    exact List.eq_of_mem_replicate hq

theorem Flat.uniformDepth {img : Image} {P : Pixel} (hf : img.Flat P) : img.UniformDepth := by
  intro p hp q hq
  rw [hf.2.2 p hp, hf.2.2 q hq]

/-- The primary pixel written by the upscaler when the four corners are one
pixel `P`: `P` itself, for shifts with `sx + sy ≤ 8`. -/
theorem upscaledPixel_flat {sx sy : Nat} (hs : sx + sy ≤ 8) (i j : Nat) (P : Pixel) :
    upscaledPixel sx sy i j (P, P, P, P) = P := by
  have hw := (weights_eq (show sx + sy < 32 by omega) i j).2.2.2.2
  rw [scale_mul_eq (by omega)] at hw
  have hpos : 0 < 2 ^ (sx + sy) := by positivity
  have hcomp : ∀ c, primaryComponent sx sy (channelSum sx sy i j P P P P c)
      = P.Component c := by
    intro c
    obtain ⟨hcs, hbound⟩ := channelSum_eq hs i j (P, P, P, P) c
    have hsum : weightedSum sx sy i j (P, P, P, P) c
        = 2 ^ (sx + sy) * (P.Component c).val := by
      unfold weightedSum
      simp only []
      rw [← Nat.mul_add, ← Nat.mul_add, ← Nat.mul_add, hw, Nat.mul_comm]
    apply Fin.ext
    rw [hcs, primaryComponent_val hs hbound, hsum, Nat.mul_div_cancel_left _ hpos]
  show (⟨fun c => primaryComponent sx sy (channelSum sx sy i j P P P P c), P.BitDepth⟩ : Pixel)
    = P
  rw [funext hcomp]

/-- The result of `BilinearUpscale` on a flat image is the flat image of the new size, for
shifts with `sx + sy ≤ 8`. -/
theorem BilinearUpscale_flat (D : Decls) (img : Image) (P : Pixel) (hf : img.Flat P)
    (sx sy : Nat) (hs : sx + sy ≤ 8)
    (hsz : 19 * (img.m_Width * 2 ^ sx * (img.m_Height * 2 ^ sy)) < 4294967296)
    (wrapMode : EWrapMode) :
    ∃ out, img.BilinearUpscale D sx sy wrapMode = some out ∧
      out.m_Width = img.m_Width * 2 ^ sx ∧ out.m_Height = img.m_Height * 2 ^ sy ∧
      out.Flat P := by
  obtain ⟨hw, hh, _, _⟩ := hf.1
  obtain ⟨out, hout, hW, hH, hl, _, hcells⟩ := BilinearUpscale_spec D img hf.1
    (Flat.uniformDepth hf) sx sy (by omega) wrapMode
  have hx : 0 < 2 ^ sx := by positivity
  have hy : 0 < 2 ^ sy := by positivity
  refine ⟨out, hout, hW, hH, ⟨?_, ?_, ?_, hl⟩, ?_, ?_⟩
  · rw [hW]; exact Nat.mul_pos hw hx
  · rw [hH]; exact Nat.mul_pos hh hy
  · rw [hW, hH]; omega
  · rw [hW, hH]; exact hsz
  · intro q hq
    obtain ⟨n, hn, hq⟩ := List.getElem_of_mem hq
    have hWpos : 0 < out.m_Width := by rw [hW]; exact Nat.mul_pos hw hx
    have hnlt : n < out.m_Width * out.m_Height := by omega
    have hi : n % out.m_Width < out.m_Width := Nat.mod_lt _ hWpos
    have hj : n / out.m_Width < out.m_Height :=
      Nat.div_lt_of_lt_mul hnlt
    obtain ⟨k, _, ⟨m1, m2, m3, m4⟩, hp, _⟩ := hcells (n % out.m_Width) (n / out.m_Width) hi hj
    have hk : k = (P, P, P, P) := by
      obtain ⟨k1, k2, k3, k4⟩ := k
      have e1 : k1 = P := hf.2.2 _ m1
      have e2 : k2 = P := hf.2.2 _ m2
      have e3 : k3 = P := hf.2.2 _ m3
      have e4 : k4 = P := hf.2.2 _ m4
      rw [e1, e2, e3, e4]
    have hdec : n / out.m_Width * out.m_Width + n % out.m_Width = n := by
      rw [Nat.mul_comm]; exact Nat.div_add_mod n out.m_Width
    rw [hdec, hk, upscaledPixel_flat hs, List.getElem?_eq_getElem hn, hq] at hp
    exact Option.some.inj hp

theorem raised_flat_zero (c : Fin 4) :
    ((Pixel.raised (Pixel.flat 0 8)).Component c).val = 127 ∧
      ((Pixel.flat 0 8).Component c).val = 0 :=
  ⟨rfl, rfl⟩

/-- C8, the code at a failing input. `ContentAwareDownscale(1, 1)` of the
uniform 8x8 image (64 primary and 64 fractional samples) returns an image of
dimensions 4x4 with 16 primary samples and still the 64 fractional samples of
the input: the fractional buffer is not reallocated, so its length is not the
new `width * height`. This holds for every wrap mode and both values of
`bOffsetNewPixels`. -/
theorem C8_downscale_keeps_fractional_buffer (D : Decls) (wrapMode : EWrapMode) (b : Bool) :
    ∃ out : Image,
      (Image.uniform 8 8 (Pixel.flat 0 8)).ContentAwareDownscale D 1 1 wrapMode b
        = some out ∧
      out.m_Width = 4 ∧ out.m_Height = 4 ∧ out.m_Pixels.length = 16 ∧
      out.m_FractionalPixels.length = 64 ∧
      out.m_FractionalPixels.length ≠ out.m_Width * out.m_Height := by
  have hf : (Image.uniform 8 8 (Pixel.flat 0 8)).Flat (Pixel.flat 0 8) :=
    uniform_flat 8 8 _ (by decide) (by decide) (by decide)
  obtain ⟨out, hout, _, _, _, _⟩ := ContentAwareDownscale_flat D _ _ hf
    (fun _ => rfl) (fun _ => Nat.zero_le 128) 1 1 (le_refl _) wrapMode b
  obtain ⟨h1, h2, h3, h4⟩ := ContentAwareDownscale_shape D _ out 1 1 wrapMode b hout
  have hw : out.m_Width = 4 := h1
  have hh : out.m_Height = 4 := h2
  have hfl : out.m_FractionalPixels.length = 64 := by rw [h4]; rfl
  refine ⟨out, hout, hw, hh, h3, hfl, ?_⟩
  rw [hfl, hw, hh]
  decide

/-- C9, the code at a failing input. `ContentAwareDownscale(1, 1, mode, false)`
of the uniform 8x8 image of depth 8 whose pixels have all four components 0
returns a 4x4 image in which every pixel has all four components 127, not 0:
with all derivative terms zero the stored value is
`static_cast<uint8>((I0 + 0.5) * 255)`, the original component plus 127. This
holds for every wrap mode and every default of the header. -/
theorem C9_uniform_downscale_adds_127 (D : Decls) (wrapMode : EWrapMode) :
    ∃ out : Image,
      (Image.uniform 8 8 (Pixel.flat 0 8)).ContentAwareDownscale D 1 1 wrapMode false
        = some out ∧
      out.m_Width = 4 ∧ out.m_Height = 4 ∧ out.m_Pixels.length = 16 ∧
      ∀ i j, i < 4 → j < 4 →
        ∃ p, out.m_Pixels[j * 4 + i]? = some p ∧
          ∀ c, (p.Component c).val = 127 ∧ ((Pixel.flat 0 8).Component c).val = 0 := by
  have hf : (Image.uniform 8 8 (Pixel.flat 0 8)).Flat (Pixel.flat 0 8) :=
    uniform_flat 8 8 _ (by decide) (by decide) (by decide)
  obtain ⟨out, hout, hW, hH, hl, hcells⟩ := ContentAwareDownscale_flat D _ _ hf
    (fun _ => rfl) (fun _ => Nat.zero_le 128) 1 1 (le_refl _) wrapMode false
  have hW4 : out.m_Width = 4 := hW
  have hH4 : out.m_Height = 4 := hH
  refine ⟨out, hout, hW4, hH4, by rw [hl, hW4, hH4], ?_⟩
  intro i j hi hj
  have h := hcells i j (by omega) (by omega)
  rw [hH4] at h
  exact ⟨_, h, raised_flat_zero⟩

/-- C10, the code at a failing input. From the uniform 4x4 image of depth 8
whose pixels have all four components 0, `BilinearUpscale(1, 1, Clamp)` returns
the uniform 8x8 image, and `ContentAwareDownscale(1, 1, Clamp, false)` of that
returns a 4x4 image in which every pixel has all four components 127: the
original primary samples (0) are not reproduced. -/
theorem C10_flat_round_trip_adds_127 (D : Decls) :
    ∃ up out : Image,
      (Image.uniform 4 4 (Pixel.flat 0 8)).BilinearUpscale D 1 1 EWrapMode.eWrapMode_Clamp
        = some up ∧
      up.m_Width = 8 ∧ up.m_Height = 8 ∧
      up.ContentAwareDownscale D 1 1 EWrapMode.eWrapMode_Clamp false = some out ∧
      out.m_Width = 4 ∧ out.m_Height = 4 ∧
      ∀ i j, i < 4 → j < 4 →
        ∃ p, out.m_Pixels[j * 4 + i]? = some p ∧
          ∀ c, (p.Component c).val = 127 ∧ ((Pixel.flat 0 8).Component c).val = 0 := by
  have hf : (Image.uniform 4 4 (Pixel.flat 0 8)).Flat (Pixel.flat 0 8) :=
    uniform_flat 4 4 _ (by decide) (by decide) (by decide)
  obtain ⟨up, hup, hW, hH, hfu⟩ := BilinearUpscale_flat D _ _ hf 1 1 (by decide)
    (by decide) EWrapMode.eWrapMode_Clamp
  have hW8 : up.m_Width = 8 := hW
  have hH8 : up.m_Height = 8 := hH
  obtain ⟨out, hout, hW', hH', _, hcells⟩ := ContentAwareDownscale_flat D up _ hfu
    (fun _ => rfl) (fun _ => Nat.zero_le 128) 1 1 (by rw [hW8, hH8]) EWrapMode.eWrapMode_Clamp
    false
  have hW4 : out.m_Width = 4 := by rw [hW', hW8]; rfl
  have hH4 : out.m_Height = 4 := by rw [hH', hH8]; rfl
  refine ⟨up, out, hup, hW8, hH8, hout, hW4, hH4, ?_⟩
  intro i j hi hj
  have h := hcells i j (by omega) (by omega)
  rw [hH4] at h
  exact ⟨_, h, raised_flat_zero⟩

/-! ## Coordinates passed to `GetPixelIndex` -/

/-- A coordinate inside the image is left alone by both wrap policies. -/
theorem wrapCoord_of_range (wrapMode : EWrapMode) (dim : Nat) {i : Int} (h0 : 0 ≤ i)
    (h1 : i < dim) : wrapCoord wrapMode dim i = i := by
  cases wrapMode
  · simp only [wrapCoord]; omega
  · simp only [wrapCoord]; exact Int.emod_eq_of_lt h0 h1

/-- Inside the image `GetPixelIndex` is the row-major index, whatever the mode. -/
theorem GetPixelIndex_in_range (img : Image)
    (hsz : img.m_Width * img.m_Height < 2147483648) (x y : Nat)
    (lx : x < img.m_Width) (ly : y < img.m_Height) (wrapMode : EWrapMode) :
    img.GetPixelIndex (toInt32 x) (toInt32 y) wrapMode = some (y * img.m_Width + x) := by
  have hw0 : 0 < img.m_Width := by omega
  have hh0 : 0 < img.m_Height := by omega
  have hw : img.m_Width < 2147483648 := by
    have : img.m_Width * 1 ≤ img.m_Width * img.m_Height := Nat.mul_le_mul_left _ hh0
    omega
  have hh : img.m_Height < 2147483648 := by
    have : 1 * img.m_Height ≤ img.m_Width * img.m_Height := Nat.mul_le_mul_right _ hw0
    omega
  have tx : toInt32 (x : Int) = x := toInt32_eq_self (by omega) (by omega)
  have ty : toInt32 (y : Int) = y := toInt32_eq_self (by omega) (by omega)
  have hx1 : (x : Int) < (img.m_Width : Int) := by exact_mod_cast lx
  have hy1 : (y : Int) < (img.m_Height : Int) := by exact_mod_cast ly
  rw [tx, ty, GetPixelIndex_eq img hw0 hh0 hsz x y ⟨by omega, by omega⟩ ⟨by omega, by omega⟩,
    wrapCoord_of_range _ _ (Int.natCast_nonneg x) hx1,
    wrapCoord_of_range _ _ (Int.natCast_nonneg y) hy1]
  have e : ((y : Int) * (img.m_Width : Int) + (x : Int)) = ((y * img.m_Width + x : Nat) : Int) := by
    push_cast; rfl
  rw [e, Int.toNat_natCast]

/-- A positive right shift bounds the shift count and the multiples below it. -/
theorem shiftRight_bound {w t i : Nat} (hi : i < w >>> t) : 2 ^ t ≤ w ∧ (i + 1) * 2 ^ t ≤ w := by
  rw [Nat.shiftRight_eq_div_pow] at hi
  have hpos : 0 < 2 ^ t := Nat.two_pow_pos t
  have h1 : (i + 1) * 2 ^ t ≤ w := by
    have := (Nat.le_div_iff_mul_le hpos).mp (Nat.succ_le_of_lt hi)
    simpa using this
  refine ⟨?_, h1⟩
  have : 1 * 2 ^ t ≤ (i + 1) * 2 ^ t := Nat.mul_le_mul_right _ (by omega)
  omega

/-- The selection coordinate of an output pixel, without wrap-around. -/
theorem sourceCoord_eq {w t i : Nat} (hw : w < 2147483648) (hi : i < w >>> t) (b : Bool) :
    sourceCoord t i b = i * 2 ^ t + (if b then 2 ^ t / 2 else 0) ∧ sourceCoord t i b < w := by
  obtain ⟨h2, h1⟩ := shiftRight_bound hi
  have ht : t < 32 := by
    by_contra hge
    have : 2 ^ 32 ≤ 2 ^ t := Nat.pow_le_pow_right (by decide) (by omega)
    omega
  have hpos : 0 < 2 ^ t := Nat.two_pow_pos t
  rw [Nat.succ_mul] at h1
  have hx : u32 (2 ^ t * i) = i * 2 ^ t := by
    rw [Nat.mul_comm]; exact u32_eq_self (by omega)
  have hhalf : 2 ^ t / 2 < 2 ^ t := Nat.div_lt_self hpos (by decide)
  unfold sourceCoord
  rw [scale_eq ht]
  simp only [hx, Nat.shiftRight_one]
  cases b
  · simp only [Bool.false_eq_true, if_false]; omega
  · simp only [if_true]
    rw [u32_eq_self (by omega)]
    omega

/-- C16. In `ContentAwareDownscale`, for every output pixel `(i, j)` with
`i < (w >> sx)` and `j < (h >> sy)` of an image whose pixel count is an `int32`
value, the selected source coordinate is `x = i * 2^sx`, `y = j * 2^sy`, plus
`2^sx / 2` and `2^sy / 2` when `bOffsetNewPixels` is set; it satisfies `x < w`
and `y < h`, and `GetPixelIndex(x, y)` returns exactly `y * w + x` in either
wrap mode. -/
theorem C16_source_coordinate (img : Image)
    (hsz : img.m_Width * img.m_Height < 2147483648) (sx sy i j : Nat) (b : Bool)
    (wrapMode : EWrapMode) (hi : i < img.m_Width >>> sx) (hj : j < img.m_Height >>> sy) :
    sourceCoord sx i b = i * 2 ^ sx + (if b then 2 ^ sx / 2 else 0) ∧
    sourceCoord sy j b = j * 2 ^ sy + (if b then 2 ^ sy / 2 else 0) ∧
    sourceCoord sx i b < img.m_Width ∧ sourceCoord sy j b < img.m_Height ∧
    img.GetPixelIndex (toInt32 (sourceCoord sx i b)) (toInt32 (sourceCoord sy j b)) wrapMode
      = some (sourceCoord sy j b * img.m_Width + sourceCoord sx i b) := by
  have hw0 : 0 < img.m_Width := by
    have h1 := (shiftRight_bound hi).1
    have h2 := Nat.two_pow_pos sx
    omega
  have hh0 : 0 < img.m_Height := by
    have h1 := (shiftRight_bound hj).1
    have h2 := Nat.two_pow_pos sy
    omega
  have hw : img.m_Width < 2147483648 := by
    have : img.m_Width * 1 ≤ img.m_Width * img.m_Height := Nat.mul_le_mul_left _ hh0
    omega
  have hh : img.m_Height < 2147483648 := by
    have : 1 * img.m_Height ≤ img.m_Width * img.m_Height := Nat.mul_le_mul_right _ hw0
    omega
  obtain ⟨ex, lx⟩ := sourceCoord_eq hw hi b
  obtain ⟨ey, ly⟩ := sourceCoord_eq hh hj b
  exact ⟨ex, ey, lx, ly, GetPixelIndex_in_range img hsz _ _ lx ly wrapMode⟩

/-- Witness for C16: the 6x4 image, shifts (1, 1), output pixel (2, 1), offset
samples. -/
theorem C16_source_coordinate_witness :
    sourceCoord 1 2 true = 2 * 2 ^ 1 + (if true = true then 2 ^ 1 / 2 else 0) ∧
    sourceCoord 1 1 true = 1 * 2 ^ 1 + (if true = true then 2 ^ 1 / 2 else 0) ∧
    sourceCoord 1 2 true < (Image.mk 6 4 [] []).m_Width ∧
    sourceCoord 1 1 true < (Image.mk 6 4 [] []).m_Height ∧
    (Image.mk 6 4 [] []).GetPixelIndex (toInt32 (sourceCoord 1 2 true))
        (toInt32 (sourceCoord 1 1 true)) EWrapMode.eWrapMode_Wrap
      = some (sourceCoord 1 1 true * (Image.mk 6 4 [] []).m_Width + sourceCoord 1 2 true) :=
  C16_source_coordinate (Image.mk 6 4 [] []) (by decide) 1 1 2 1 true EWrapMode.eWrapMode_Wrap
    (by decide) (by decide)

/-- The indices of `stencil` are `GetPixelIndex` at `stencilCoords`. -/
theorem stencil_coords (D : Decls) (img : Image) (i j : Nat) (s : Stencil)
    (h : stencil D img i j = some s) :
    (stencilCoords i j).map (fun c => img.GetPixelIndex c.1 c.2 D.defaultWrapMode)
      = [some s.hm2xidx, some s.hm1xidx, some s.hp1xidx, some s.hp2xidx, some s.hm2yidx,
         some s.hm1yidx, some s.hp1yidx, some s.hp2yidx, some s.idx] := by
  unfold stencil at h
  obtain ⟨a1, e1, h⟩ := Option.bind_eq_some.mp h
  obtain ⟨a2, e2, h⟩ := Option.bind_eq_some.mp h
  obtain ⟨a3, e3, h⟩ := Option.bind_eq_some.mp h
  obtain ⟨a4, e4, h⟩ := Option.bind_eq_some.mp h
  obtain ⟨a5, e5, h⟩ := Option.bind_eq_some.mp h
  obtain ⟨a6, e6, h⟩ := Option.bind_eq_some.mp h
  obtain ⟨a7, e7, h⟩ := Option.bind_eq_some.mp h
  obtain ⟨a8, e8, h⟩ := Option.bind_eq_some.mp h
  obtain ⟨a9, e9, h⟩ := Option.bind_eq_some.mp h
  simp only [Option.some.injEq] at h
  subst h
  simp only [stencilCoords, List.map, e1, e2, e3, e4, e5, e6, e7, e8, e9]

/-- The corners of `upscaleCorners` are `GetPixel` at `cornerCoords`. -/
theorem corner_coords (img : Image) (sx sy : Nat) (wrapMode : EWrapMode) (i j : Nat)
    (k : Pixel × Pixel × Pixel × Pixel) (h : upscaleCorners img sx sy wrapMode i j = some k) :
    (cornerCoords sx sy i j).map (fun c => img.GetPixel c.1 c.2 wrapMode)
      = [some k.1, some k.2.1, some k.2.2.1, some k.2.2.2] := by
  unfold upscaleCorners at h
  obtain ⟨a1, e1, h⟩ := Option.bind_eq_some.mp h
  obtain ⟨a2, e2, h⟩ := Option.bind_eq_some.mp h
  obtain ⟨a3, e3, h⟩ := Option.bind_eq_some.mp h
  obtain ⟨a4, e4, h⟩ := Option.bind_eq_some.mp h
  simp only [Option.some.injEq] at h
  subst h
  simp only [cornerCoords, List.map, e1, e2, e3, e4]

/-- The high corner index of an output coordinate lies in `[0, dim]`. -/
theorem highIdx_range {w t i : Nat} (hw : w < 2147483648) (ht : t < 32)
    (hi : i < u32 (w <<< t)) :
    0 ≤ highIdx t i ∧ highIdx t i ≤ w ∧ lowIdx t i = highIdx t i - 1 := by
  have hpos : 0 < 2 ^ t := Nat.two_pow_pos t
  have hi2 : i < w * 2 ^ t := by
    rw [Nat.shiftLeft_eq] at hi
    have : u32 (w * 2 ^ t) ≤ w * 2 ^ t := Nat.mod_le _ _
    omega
  have hoff : offset t < 2 ^ t := by
    unfold offset
    rw [scale_eq ht, Nat.shiftRight_one]
    exact Nat.div_lt_self hpos (by decide)
  obtain ⟨q, hq⟩ : ∃ q, q = u32 (i + offset t) / scale t := ⟨_, rfl⟩
  have hqw : q ≤ w := by
    rw [hq, scale_eq ht]
    have h1 : u32 (i + offset t) ≤ i + offset t := Nat.mod_le _ _
    have h2 : i + offset t < (w + 1) * 2 ^ t := by rw [Nat.succ_mul]; omega
    have h3 : u32 (i + offset t) / 2 ^ t < w + 1 :=
      (Nat.div_lt_iff_lt_mul hpos).mpr (by omega)
    omega
  have e : highIdx t i = (q : Int) := by
    unfold highIdx
    rw [← hq]
    exact toInt32_eq_self (by omega) (by omega)
  refine ⟨by rw [e]; omega, by rw [e]; exact_mod_cast hqw, ?_⟩
  unfold lowIdx
  rw [e]
  exact toInt32_eq_self (by omega) (by omega)


theorem corner_bounds {a l : Int} {w : Nat} (h0 : 0 ≤ a) (h1 : a ≤ w) (hl : l = a - 1) :
    (-1 ≤ l ∧ l ≤ w) ∧ (-1 ≤ a ∧ a ≤ w) := by
  omega

theorem toInt32_near {n w : Nat} (hn : n < w) (hw : w + 1 < 2147483648) {d : Int}
    (h1 : -2 ≤ d) (h2 : d ≤ 2) :
    -2 ≤ toInt32 ((n : Int) + d) ∧ toInt32 ((n : Int) + d) ≤ (w : Int) + 1 := by
  rw [toInt32_eq_self (by omega) (by omega)]
  omega

theorem toInt32_inside {n w : Nat} (hn : n < w) (hw : w < 2147483648) :
    0 ≤ toInt32 (n : Int) ∧ toInt32 (n : Int) < (w : Int) := by
  rw [toInt32_eq_self (by omega) (by omega)]
  omega

/-- C17. Every coordinate the two resamplers pass to `GetPixel`/`GetPixelIndex`
overshoots the image by at most two pixels, for an image whose dimensions plus
one are `int32` values and shift counts below 32: the four corner coordinates of
`BilinearUpscale` at an output pixel lie in `[-1, width] x [-1, height]`; the
nine stencil coordinates of `ContentAwareDownscale` at a pixel `(i, j)` of the
image lie in `[-2, width+1] x [-2, height+1]`; and its selection coordinate
lies inside the image. -/
theorem C17_overshoot_at_most_two (img : Image) (hw1 : img.m_Width + 1 < 2147483648)
    (hh1 : img.m_Height + 1 < 2147483648) (sx sy : Nat) (hsx : sx < 32) (hsy : sy < 32) :
    (∀ i j, i < u32 (img.GetWidth <<< sx) → j < u32 (img.GetHeight <<< sy) →
      ∀ c ∈ cornerCoords sx sy i j,
        (-1 ≤ c.1 ∧ c.1 ≤ img.m_Width) ∧ (-1 ≤ c.2 ∧ c.2 ≤ img.m_Height)) ∧
    (∀ i j, i < img.GetWidth → j < img.GetHeight →
      ∀ c ∈ stencilCoords i j,
        (-2 ≤ c.1 ∧ c.1 ≤ (img.m_Width : Int) + 1) ∧
          (-2 ≤ c.2 ∧ c.2 ≤ (img.m_Height : Int) + 1)) ∧
    (∀ i j b, i < img.GetWidth >>> sx → j < img.GetHeight >>> sy →
      (0 ≤ toInt32 (sourceCoord sx i b) ∧ toInt32 (sourceCoord sx i b) < img.m_Width) ∧
      (0 ≤ toInt32 (sourceCoord sy j b) ∧ toInt32 (sourceCoord sy j b) < img.m_Height)) := by
  have hw : img.m_Width < 2147483648 := Nat.lt_of_succ_lt hw1
  have hh : img.m_Height < 2147483648 := Nat.lt_of_succ_lt hh1
  refine ⟨?_, ?_, ?_⟩
  · intro i j hi hj c hc
    obtain ⟨x0, x1, xl⟩ := highIdx_range hw hsx hi
    obtain ⟨y0, y1, yl⟩ := highIdx_range hh hsy hj
    obtain ⟨xlo, xhi⟩ := corner_bounds x0 x1 xl
    obtain ⟨ylo, yhi⟩ := corner_bounds y0 y1 yl
    simp only [cornerCoords, List.mem_cons, List.mem_singleton, List.not_mem_nil,
      or_false] at hc
    rcases hc with h | h | h | h <;> subst h
    · exact ⟨xlo, ylo⟩
    · exact ⟨xhi, ylo⟩
    · exact ⟨xlo, yhi⟩
    · exact ⟨xhi, yhi⟩
  · intro i j hi hj c hc
    have i0 := toInt32_near hi hw1 (show (-2 : Int) ≤ 0 by decide) (show (0 : Int) ≤ 2 by decide)
    have j0 := toInt32_near hj hh1 (show (-2 : Int) ≤ 0 by decide) (show (0 : Int) ≤ 2 by decide)
    rw [Int.add_zero] at i0 j0
    have im2 := toInt32_near hi hw1 (show (-2 : Int) ≤ -2 by decide)
      (show (-2 : Int) ≤ 2 by decide)
    have im1 := toInt32_near hi hw1 (show (-2 : Int) ≤ -1 by decide)
      (show (-1 : Int) ≤ 2 by decide)
    have ip1 := toInt32_near hi hw1 (show (-2 : Int) ≤ 1 by decide)
      (show (1 : Int) ≤ 2 by decide)
    have ip2 := toInt32_near hi hw1 (show (-2 : Int) ≤ 2 by decide)
      (show (2 : Int) ≤ 2 by decide)
    have jm2 := toInt32_near hj hh1 (show (-2 : Int) ≤ -2 by decide)
      (show (-2 : Int) ≤ 2 by decide)
    have jm1 := toInt32_near hj hh1 (show (-2 : Int) ≤ -1 by decide)
      (show (-1 : Int) ≤ 2 by decide)
    have jp1 := toInt32_near hj hh1 (show (-2 : Int) ≤ 1 by decide)
      (show (1 : Int) ≤ 2 by decide)
    have jp2 := toInt32_near hj hh1 (show (-2 : Int) ≤ 2 by decide)
      (show (2 : Int) ≤ 2 by decide)
    simp only [stencilCoords, List.mem_cons, List.mem_singleton, List.not_mem_nil,
      or_false] at hc
    rcases hc with h | h | h | h | h | h | h | h | h <;> subst h
    · exact ⟨im2, j0⟩
    · exact ⟨im1, j0⟩
    · exact ⟨ip1, j0⟩
    · exact ⟨ip2, j0⟩
    · exact ⟨i0, jm2⟩
    · exact ⟨i0, jm1⟩
    · exact ⟨i0, jp1⟩
    · exact ⟨i0, jp2⟩
    · exact ⟨i0, j0⟩
  · intro i j b hi hj
    exact ⟨toInt32_inside (sourceCoord_eq hw hi b).2 hw,
      toInt32_inside (sourceCoord_eq hh hj b).2 hh⟩

/-- Witness for C17: the 3x2 image with shifts (2, 1). -/
theorem C17_overshoot_at_most_two_witness :
    (∀ i j, i < u32 ((Image.mk 3 2 [] []).GetWidth <<< 2) →
      j < u32 ((Image.mk 3 2 [] []).GetHeight <<< 1) →
      ∀ c ∈ cornerCoords 2 1 i j,
        (-1 ≤ c.1 ∧ c.1 ≤ (Image.mk 3 2 [] []).m_Width) ∧
          (-1 ≤ c.2 ∧ c.2 ≤ (Image.mk 3 2 [] []).m_Height)) ∧
    (∀ i j, i < (Image.mk 3 2 [] []).GetWidth → j < (Image.mk 3 2 [] []).GetHeight →
      ∀ c ∈ stencilCoords i j,
        (-2 ≤ c.1 ∧ c.1 ≤ ((Image.mk 3 2 [] []).m_Width : Int) + 1) ∧
          (-2 ≤ c.2 ∧ c.2 ≤ ((Image.mk 3 2 [] []).m_Height : Int) + 1)) ∧
    (∀ i j b, i < (Image.mk 3 2 [] []).GetWidth >>> 2 →
      j < (Image.mk 3 2 [] []).GetHeight >>> 1 →
      (0 ≤ toInt32 (sourceCoord 2 i b) ∧
        toInt32 (sourceCoord 2 i b) < (Image.mk 3 2 [] []).m_Width) ∧
      (0 ≤ toInt32 (sourceCoord 1 j b) ∧
        toInt32 (sourceCoord 1 j b) < (Image.mk 3 2 [] []).m_Height)) :=
  C17_overshoot_at_most_two (Image.mk 3 2 [] []) (by decide) (by decide) 2 1 (by decide)
    (by decide)

/-! ## Store offsets of the downscaler -/

/-- On a flat depth-8 image the downscaler reduces to its store loops. -/
theorem ContentAwareDownscale_flat_stores (D : Decls) (img : Image) (P : Pixel)
    (hf : img.Flat P) (hd8 : ∀ c, P.BitDepth c = 8)
    (hc : ∀ c, (P.Component c).val ≤ 128) (sx sy : Nat) (wrapMode : EWrapMode) (b : Bool) :
    img.ContentAwareDownscale D sx sy wrapMode b
      = (forLoop (img.m_Height >>> sy) (fun j px =>
          forLoop (img.m_Width >>> sx) (fun i px =>
            store px (downscaleStoreOffset (img.m_Height >>> sy) i j) (Pixel.raised P)) px)
          (List.replicate ((img.m_Width >>> sx) * (img.m_Height >>> sy))
            (D.defaultPixel.ChangeBitDepth D P.GetBitDepth))).bind fun px =>
        some ⟨img.m_Width >>> sx, img.m_Height >>> sy, px, img.m_FractionalPixels⟩ := by
  have hn := hf.2.1
  obtain ⟨hw, hh, hsz, hlen⟩ := hf.1
  have hpos : 0 < img.m_Width * img.m_Height := Nat.mul_pos hw hh
  have hfirst : load img.m_Pixels 0 = some P := load_flat hf hpos
  obtain ⟨d1, d2, d3, e1, e2, e3, hd3⟩ := derivativeLoops_flat D hf P.GetBitDepth
  have hNle : (img.m_Width >>> sx) * (img.m_Height >>> sy) ≤ img.m_Width * img.m_Height :=
    Nat.mul_le_mul (shiftRight_le_self _ _) (shiftRight_le_self _ _)
  have hN : u32 ((img.m_Width >>> sx) * (img.m_Height >>> sy))
      = (img.m_Width >>> sx) * (img.m_Height >>> sy) := u32_eq_self (by omega)
  have h19 : u32 (19 * img.m_Width * img.m_Height) = 19 * (img.m_Width * img.m_Height) := by
    rw [Nat.mul_assoc]; exact u32_eq_self hn
  simp only [Image.ContentAwareDownscale, Image.GetWidth, Image.GetHeight, hfirst,
    Option.bind_eq_bind, Option.some_bind, hN, h19, e1, e2, e3,
    downscalePixel_flat D hf hd8 hc hd3]


/-- C18, the code at a failing input. `ContentAwareDownscale(1, 1, mode, b)` of the
uniform 2x4 image of depth 8 has no defined result: the new buffer has
`newWidth * newHeight = 1 * 2 = 2` cells, and the store for output pixel
`(i, j) = (0, 1)` goes to offset `j * newHeight + i = 2`, outside the buffer. -/
theorem C18_store_out_of_bounds (D : Decls) (wrapMode : EWrapMode) (b : Bool) :
    (Image.uniform 2 4 (Pixel.flat 0 8)).ContentAwareDownscale D 1 1 wrapMode b = none ∧
      0 < (Image.uniform 2 4 (Pixel.flat 0 8)).m_Width >>> 1 ∧
      1 < (Image.uniform 2 4 (Pixel.flat 0 8)).m_Height >>> 1 ∧
      downscaleStoreOffset ((Image.uniform 2 4 (Pixel.flat 0 8)).m_Height >>> 1) 0 1 = 2 ∧
      u32 (((Image.uniform 2 4 (Pixel.flat 0 8)).m_Width >>> 1)
        * ((Image.uniform 2 4 (Pixel.flat 0 8)).m_Height >>> 1)) = 2 := by
  have hf : (Image.uniform 2 4 (Pixel.flat 0 8)).Flat (Pixel.flat 0 8) :=
    uniform_flat 2 4 _ (by decide) (by decide) (by decide)
  refine ⟨?_, by decide, by decide, by decide, by decide⟩
  rw [ContentAwareDownscale_flat_stores D _ _ hf (fun _ => rfl) (fun _ => Nat.zero_le 128)]
  rfl

/-- C14, the code at a failing input. `ContentAwareDownscale(1, 1, mode, b)` of a
uniform 6x4 image of depth 8 returns a 3x2 image whose six cells are: the
computed pixel in cells 0 to 4 and the initial content of the buffer in cell 5.
The pixel computed for `(i, j)` is stored at `j * newHeight + i`, so the one for
`(2, 1)` is in cell 4 and cell `1 * newWidth + 2 = 5` is never written:
`operator()(2, 1)` returns the same initial pixel for the image of colour 0 and
for the image of colour 1, whose computed pixels have components 127 and 128. -/
theorem C14_store_offset_uses_height (D : Decls) (wrapMode : EWrapMode) (b : Bool) :
    ∃ out0 out1 : Image,
      (Image.uniform 6 4 (Pixel.flat 0 8)).ContentAwareDownscale D 1 1 wrapMode b
        = some out0 ∧
      (Image.uniform 6 4 (Pixel.flat 1 8)).ContentAwareDownscale D 1 1 wrapMode b
        = some out1 ∧
      out0.m_Width = 3 ∧ out0.m_Height = 2 ∧ out1.m_Width = 3 ∧ out1.m_Height = 2 ∧
      out0.m_Pixels = [Pixel.raised (Pixel.flat 0 8), Pixel.raised (Pixel.flat 0 8),
        Pixel.raised (Pixel.flat 0 8), Pixel.raised (Pixel.flat 0 8),
        Pixel.raised (Pixel.flat 0 8), D.defaultPixel.ChangeBitDepth D (fun _ => 8)] ∧
      out1.m_Pixels = [Pixel.raised (Pixel.flat 1 8), Pixel.raised (Pixel.flat 1 8),
        Pixel.raised (Pixel.flat 1 8), Pixel.raised (Pixel.flat 1 8),
        Pixel.raised (Pixel.flat 1 8), D.defaultPixel.ChangeBitDepth D (fun _ => 8)] ∧
      downscaleStoreOffset 2 2 1 = 4 ∧
      out0.operatorCall 2 1 = some (D.defaultPixel.ChangeBitDepth D (fun _ => 8)) ∧
      out1.operatorCall 2 1 = some (D.defaultPixel.ChangeBitDepth D (fun _ => 8)) ∧
      (∀ c, ((Pixel.raised (Pixel.flat 0 8)).Component c).val = 127) ∧
      (∀ c, ((Pixel.raised (Pixel.flat 1 8)).Component c).val = 128) := by
  have hf0 : (Image.uniform 6 4 (Pixel.flat 0 8)).Flat (Pixel.flat 0 8) :=
    uniform_flat 6 4 _ (by decide) (by decide) (by decide)
  have hf1 : (Image.uniform 6 4 (Pixel.flat 1 8)).Flat (Pixel.flat 1 8) :=
    uniform_flat 6 4 _ (by decide) (by decide) (by decide)
  refine ⟨⟨3, 2, [Pixel.raised (Pixel.flat 0 8), Pixel.raised (Pixel.flat 0 8),
        Pixel.raised (Pixel.flat 0 8), Pixel.raised (Pixel.flat 0 8),
        Pixel.raised (Pixel.flat 0 8), D.defaultPixel.ChangeBitDepth D (fun _ => 8)],
      (Image.uniform 6 4 (Pixel.flat 0 8)).m_FractionalPixels⟩,
    ⟨3, 2, [Pixel.raised (Pixel.flat 1 8), Pixel.raised (Pixel.flat 1 8),
        Pixel.raised (Pixel.flat 1 8), Pixel.raised (Pixel.flat 1 8),
        Pixel.raised (Pixel.flat 1 8), D.defaultPixel.ChangeBitDepth D (fun _ => 8)],
      (Image.uniform 6 4 (Pixel.flat 1 8)).m_FractionalPixels⟩,
    ?_, ?_, rfl, rfl, rfl, rfl, rfl, rfl, by decide, rfl, rfl,
    fun _ => rfl, fun _ => rfl⟩
  · rw [ContentAwareDownscale_flat_stores D _ _ hf0 (fun _ => rfl) (fun _ => Nat.zero_le 128)]
    rfl
  · rw [ContentAwareDownscale_flat_stores D _ _ hf1 (fun _ => rfl)
      (fun _ => (by decide : (u8 1).val ≤ 128))]
    rfl

/-- C15, the code against the claim. The body of `ContentAwareDownscale` never reads its
`wrapMode` parameter: for every image and every argument list the call made
with `Wrap` and the call made with `Clamp` are the same computation, and the
neighbour indices come from `GetPixelIndex` called with the default argument of
its declaration. On a 3x1 image the `-1` neighbour of column 0 is column 2 when
that default is `Wrap` and column 0 when it is `Clamp`, whatever the caller
passed. -/
theorem C15_wrap_mode_not_used (D : Decls) (img : Image) (sx sy : Nat) (b : Bool) :
    img.ContentAwareDownscale D sx sy EWrapMode.eWrapMode_Wrap b
        = img.ContentAwareDownscale D sx sy EWrapMode.eWrapMode_Clamp b ∧
      ∃ s, stencil D (Image.uniform 3 1 (Pixel.flat 0 8)) 0 0 = some s ∧
        s.hm1xidx = if D.defaultWrapMode = EWrapMode.eWrapMode_Wrap then 2 else 0 := by
  refine ⟨rfl, ?_⟩
  have hwf : (Image.uniform 3 1 (Pixel.flat 0 8)).WellFormed :=
    ⟨by decide, by decide, by decide, rfl⟩
  obtain ⟨s, hs, _⟩ := stencil_flat D hwf 0 0
  refine ⟨s, hs, ?_⟩
  have hc := stencil_coords D _ 0 0 s hs
  simp only [stencilCoords, List.map, List.cons.injEq] at hc
  have e2 := hc.2.1
  rw [GetPixelIndex_eq _ hwf.1 hwf.2.1 hwf.2.2.1 _ _ (toInt32_isInt32 _) (toInt32_isInt32 _)]
    at e2
  have t1 : toInt32 (((0 : Nat) : Int) - 1) = -1 := by decide
  have t0 : toInt32 ((0 : Nat) : Int) = 0 := by decide
  rw [t1, t0] at e2
  simp only [Option.some.injEq] at e2
  rw [← e2]
  generalize D.defaultWrapMode = m
  cases m <;> decide

/-! ## Expansion to eight bits: what is written -/

/-- The intermediate values of the channel loop fit 32 bits. -/
theorem expand_arith {d f frac : Nat} (hd : d ≤ 8) (hfrac : frac < 256) :
    (frac >>> (f + d - 8)) * (2 ^ d + 1) < 4294967296 ∧
      (frac >>> (f + d - 8)) * (2 ^ d + 1) / 2 ^ d < 65536 := by
  have h1 : frac >>> (f + d - 8) ≤ frac := shiftRight_le_self _ _
  have h2 : 2 ^ d ≤ 2 ^ 8 := Nat.pow_le_pow_right (by decide) hd
  have h3 : (frac >>> (f + d - 8)) * (2 ^ d + 1) ≤ 255 * (2 ^ 8 + 1) :=
    Nat.mul_le_mul (by omega) (by omega)
  have h4 : (frac >>> (f + d - 8)) * (2 ^ d + 1) / 2 ^ d
      ≤ (frac >>> (f + d - 8)) * (2 ^ d + 1) := Nat.div_le_self _ _
  have h5 : 255 * (2 ^ 8 + 1) = 65535 := by decide
  omega

/-- The channel loop body under the precondition on the depths. -/
theorem expandComponent_eq (d f component fraction : Fin 256) (hd : d.val ≤ 8)
    (hpre : 8 ≤ f.val + d.val) (hf : f.val + d.val < 40) :
    expandComponent d f component fraction
      = some (u8 (component.val + expandAddend d.val f.val fraction.val)) := by
  obtain ⟨a1, a2⟩ := expand_arith (f := f.val) hd fraction.isLt
  have hden : u32 (1 <<< d.val) = 2 ^ d.val := by
    have h2 : 2 ^ d.val ≤ 2 ^ 8 := Nat.pow_le_pow_right (by decide) hd
    have h3 : (2 : Nat) ^ 8 = 256 := by decide
    rw [Nat.one_shiftLeft]; exact u32_eq_self (by omega)
  have hnum : u32 (2 ^ d.val + 1) = 2 ^ d.val + 1 := by
    have h2 : 2 ^ d.val ≤ 2 ^ 8 := Nat.pow_le_pow_right (by decide) hd
    have h3 : (2 : Nat) ^ 8 = 256 := by decide
    exact u32_eq_self (by omega)
  have hshift : toUInt32 ((f.val : Int) - ((8 : Int) - (d.val : Int))) = f.val + d.val - 8 := by
    rw [toUInt32_eq_toNat (by omega) (by omega)]
    omega
  have hc := component.isLt
  unfold expandComponent
  rw [if_neg (by omega)]
  simp only [hden, hnum, hshift]
  rw [if_neg (by omega), u32_eq_self a1, u32_eq_self (by omega)]
  rfl

/-- The pixel loop body under the precondition on the depths. -/
theorem expandPixel_eq (D : Decls) (currentDepth : Fin 4 → Fin 256) (p fp : Pixel)
    (hd : ∀ c, (currentDepth c).val ≤ 8)
    (hpre : ∀ c, 8 ≤ (fp.BitDepth c).val + (currentDepth c).val)
    (hf : ∀ c, (fp.BitDepth c).val + (currentDepth c).val < 40) :
    expandPixel D currentDepth p fp = some (expandedPixel D currentDepth p fp) := by
  have hstep : ∀ (c : Fin 4) (r : Pixel),
      (expandComponent (currentDepth c) (fp.GetBitDepth c) (r.Component c)
          (fp.Component c)).map (fun v => r.setComponent c v)
        = some (r.setComponent c (u8 ((r.Component c).val
            + expandAddend (currentDepth c).val (fp.BitDepth c).val (fp.Component c).val))) := by
    intro c r
    simp only [Pixel.GetBitDepth]
    rw [expandComponent_eq _ _ _ _ (hd c) (hpre c) (hf c)]
    rfl
  simp only [expandPixel, forLoop, Option.some_bind, hstep, Nat.reduceLT, dite_true,
    Nat.lt_add_one, Nat.zero_lt_succ, Nat.one_lt_ofNat]
  simp only [Pixel.setComponent, Pixel.ChangeBitDepth, expandedPixel, Option.some.injEq,
    Pixel.mk.injEq, and_true]
  funext c
  fin_cases c <;> simp [Function.update]


/-- One in-place rewrite of cell `n`. -/
theorem map_step {α : Type} (g : Nat → α → Option α) (G : Nat → α → α) (ps s : List α)
    (n : Nat) (hn : n < ps.length)
    (hg : ∀ p, ps[n]? = some p → g n p = some (G n p))
    (hinv : MappedUpTo G ps n s) :
    ∃ s', ((load s n).bind fun p => (g n p).bind fun q => store s n q) = some s' ∧
      MappedUpTo G ps (n + 1) s' := by
  obtain ⟨hl, hlow, hhigh⟩ := hinv
  have hp : ps[n]? = some (ps.get ⟨n, hn⟩) := List.getElem?_eq_getElem hn
  have hs : load s n = some (ps.get ⟨n, hn⟩) := by
    rw [load_eq, hhigh n (Nat.le_refl n), hp]
  refine ⟨s.set n (G n (ps.get ⟨n, hn⟩)), ?_, ?_, ?_, ?_⟩
  · simp only [hs, Option.some_bind, hg _ hp, store]
    rw [if_pos (by omega)]
  · rw [List.length_set]; exact hl
  · intro k hk
    by_cases hEq : n = k
    · subst hEq
      rw [List.getElem?_set_self (by omega), hp]
      rfl
    · rw [List.getElem?_set_ne hEq]
      exact hlow k (by omega)
  · intro k hk
    rw [List.getElem?_set_ne (by omega)]
    exact hhigh k (by omega)

/-- Two nested loops that rewrite the cells `j * W + i` of one buffer in place,
in row-major order: every cell ends with the new value of its original
content. -/
theorem map_rows {α : Type} (W H : Nat) (g : Nat → α → Option α) (G : Nat → α → α)
    (hN : W * H < 4294967296) (ps : List α) (hps : ps.length = W * H)
    (hg : ∀ k p, ps[k]? = some p → g k p = some (G k p)) :
    ∃ s, forLoop H (fun j s => forLoop W (fun i s =>
          (load s (u32 (j * W + i))).bind fun p =>
          (g (u32 (j * W + i)) p).bind fun q =>
          store s (u32 (j * W + i)) q) s) ps = some s ∧
      s.length = W * H ∧
      ∀ k p, ps[k]? = some p → s[k]? = some (G k p) := by
  have key := forLoop_inv (fun j (s : List α) => MappedUpTo G ps (j * W) s)
    H (fun j s => forLoop W (fun i s =>
          (load s (u32 (j * W + i))).bind fun p =>
          (g (u32 (j * W + i)) p).bind fun q =>
          store s (u32 (j * W + i)) q) s) ps
    ⟨rfl, fun k hk => absurd hk (by omega), fun _ _ => rfl⟩ ?_
  · obtain ⟨s, hs, hl, hlow, _⟩ := key
    refine ⟨s, hs, by rw [hl, hps], ?_⟩
    intro k p hk
    have hklt : k < ps.length := by
      by_contra hge
      rw [List.getElem?_eq_none (by omega)] at hk
      exact Option.noConfusion hk
    rw [hlow k (by rw [Nat.mul_comm]; omega), hk]
    rfl
  · intro j s hj hinv
    have inner := forLoop_inv (fun i (s : List α) => MappedUpTo G ps (j * W + i) s)
      W (fun i s =>
          (load s (u32 (j * W + i))).bind fun p =>
          (g (u32 (j * W + i)) p).bind fun q =>
          store s (u32 (j * W + i)) q) s hinv ?_
    · obtain ⟨s', hs', h'⟩ := inner
      refine ⟨s', hs', ?_⟩
      show MappedUpTo G ps ((j + 1) * W) s'
      rw [Nat.succ_mul]
      exact h'
    · intro i t hi hinv'
      have hrow : (j + 1) * W ≤ H * W := Nat.mul_le_mul_right W hj
      have hidx : j * W + i < W * H := by
        have : j * W + i < (j + 1) * W := by rw [Nat.succ_mul]; omega
        rw [Nat.mul_comm W H]; omega
      have hu : u32 (j * W + i) = j * W + i := u32_eq_self (by omega)
      beta_reduce
      rw [hu]
      exact map_step g G ps t (j * W + i) (by omega) (fun p hp => hg _ p hp) hinv'


/-- The specification of `ExpandTo8888`: on an image with both buffers of
`width * height` pixels (a 32-bit count), a first pixel of depths at most 8,
and fractional depths `f` with `8 <= f + d` and a shift `f + d - 8` below 32,
the call returns, keeps the dimensions and the fractional buffer, and rewrites
every primary pixel to `expandedPixel`. -/
theorem ExpandTo8888_spec (D : Decls) (img : Image) (first : Pixel)
    (hsz : img.m_Width * img.m_Height < 4294967296)
    (hp : img.m_Pixels.length = img.m_Width * img.m_Height)
    (hfp : img.m_FractionalPixels.length = img.m_Width * img.m_Height)
    (hfirst : img.m_Pixels[0]? = some first)
    (hd : ∀ c, (first.BitDepth c).val ≤ 8)
    (hpre : ∀ fp ∈ img.m_FractionalPixels, ∀ c,
      8 ≤ (fp.BitDepth c).val + (first.BitDepth c).val)
    (hf : ∀ fp ∈ img.m_FractionalPixels, ∀ c,
      (fp.BitDepth c).val + (first.BitDepth c).val < 40) :
    ∃ out, img.ExpandTo8888 D = some out ∧
      out.m_Width = img.m_Width ∧ out.m_Height = img.m_Height ∧
      out.m_FractionalPixels = img.m_FractionalPixels ∧
      out.m_Pixels.length = img.m_Width * img.m_Height ∧
      ∀ (k : Nat) (p fp : Pixel), img.m_Pixels[k]? = some p →
        img.m_FractionalPixels[k]? = some fp →
        out.m_Pixels[k]? = some (expandedPixel D first.BitDepth p fp) := by
  have hbody : (fun (j : Nat) (pixels : List Pixel) =>
      forLoop img.GetWidth (fun i pixels => expandStep D img first.GetBitDepth i j pixels)
        pixels)
      = fun j s => forLoop img.m_Width (fun i s =>
          (load s (u32 (j * img.m_Width + i))).bind fun p =>
          ((fun k p => (load img.m_FractionalPixels k).bind fun fp =>
              expandPixel D first.BitDepth p fp) (u32 (j * img.m_Width + i)) p).bind fun q =>
          store s (u32 (j * img.m_Width + i)) q) s := by
    funext j s
    congr 1
    funext i s
    simp only [expandStep, Image.GetWidth, Pixel.GetBitDepth]
    cases load s (u32 (j * img.m_Width + i)) with
    | none => rfl
    | some p =>
      cases load img.m_FractionalPixels (u32 (j * img.m_Width + i)) with
      | none => rfl
      | some fp => rfl
  obtain ⟨s, hs, hl, hcells⟩ := map_rows img.m_Width img.m_Height
    (fun k p => (load img.m_FractionalPixels k).bind fun fp =>
      expandPixel D first.BitDepth p fp)
    (fun k p => match img.m_FractionalPixels[k]? with
      | some fp => expandedPixel D first.BitDepth p fp
      | none => p)
    hsz img.m_Pixels hp (by
      intro k p hk
      have hklt : k < img.m_FractionalPixels.length := by
        by_contra hge
        rw [List.getElem?_eq_none (by omega)] at hk
        exact Option.noConfusion hk
      have hfk : img.m_FractionalPixels[k]? = some (img.m_FractionalPixels.get ⟨k, hklt⟩) :=
        List.getElem?_eq_getElem hklt
      have hmem : img.m_FractionalPixels.get ⟨k, hklt⟩ ∈ img.m_FractionalPixels :=
        List.get_mem _ _ _
      simp only [load_eq, hfk, Option.some_bind]
      exact expandPixel_eq D _ p _ hd (hpre _ hmem) (hf _ hmem))
  refine ⟨⟨img.m_Width, img.m_Height, s, img.m_FractionalPixels⟩, ?_, rfl, rfl, rfl, hl, ?_⟩
  · unfold Image.ExpandTo8888
    rw [load_eq, hfirst, Option.some_bind, hbody]
    simp only [Image.GetHeight]
    rw [hs]
    rfl
  · intro k p fp hk hfk
    rw [hcells k p hk]
    simp only [hfk]

/-! ## Expansion to eight bits: the claims -/

/-- The addend with the shift written as in the source. -/
theorem expandAddend_eq {d f : Nat} (hd : d ≤ 8) (hpre : 8 ≤ f + d) (fraction : Nat) :
    expandAddend d f fraction = (fraction >>> (f - (8 - d))) * (2 ^ d + 1) / 2 ^ d := by
  have e : f + d - 8 = f - (8 - d) := by omega
  unfold expandAddend
  rw [e]

theorem u8_val (n : Nat) : (u8 n).val = n % 256 := rfl

/-- With `f + d < 8` the shift count of the channel loop wraps around to a
value of at least 32: the channel has no defined result. -/
theorem expandComponent_underflow (d f component fraction : Fin 256)
    (h : f.val + d.val < 8) : expandComponent d f component fraction = none := by
  unfold expandComponent
  by_cases hd : 32 ≤ d.val
  · rw [if_pos hd]
  · rw [if_neg hd]
    have hs : 32 ≤ toUInt32 ((f.val : Int) - ((8 : Int) - (d.val : Int))) := by
      unfold toUInt32
      omega
    simp only [hs, if_true]

/-- With `f + d < 8` on the first channel the pixel loop body has no defined
result. -/
theorem expandPixel_underflow (D : Decls) (currentDepth : Fin 4 → Fin 256) (p fp : Pixel)
    (h : (fp.BitDepth 0).val + (currentDepth 0).val < 8) :
    expandPixel D currentDepth p fp = none := by
  have h0 : ∀ r : Pixel, (expandComponent (currentDepth 0) (fp.GetBitDepth 0) (r.Component 0)
      (fp.Component 0)).map (fun v => r.setComponent 0 v) = none := by
    intro r
    simp only [Pixel.GetBitDepth]
    rw [expandComponent_underflow _ _ _ _ h]
    rfl
  simp only [expandPixel, forLoop, Option.some_bind, Nat.reduceLT, dite_true,
    Nat.lt_add_one, Nat.zero_lt_succ, Nat.one_lt_ofNat]
  have h0' := h0 (p.ChangeBitDepth D (fun _ => 8))
  simp only [Fin.zero_eta] at h0' ⊢
  rw [h0']
  rfl

/-- The first pixel of a non-empty primary buffer. -/
theorem first_pixel (img : Image) (hp : img.m_Pixels.length = img.m_Width * img.m_Height)
    (hpos : 0 < img.m_Width * img.m_Height) :
    ∃ first, img.m_Pixels[0]? = some first ∧ first ∈ img.m_Pixels := by
  have h0 : 0 < img.m_Pixels.length := by omega
  exact ⟨img.m_Pixels.get ⟨0, h0⟩, List.getElem?_eq_getElem h0, List.get_mem _ _ _⟩

/-- Expansion of an image of primary depth 4 whose fractional depths lie
between 4 and 8. -/
theorem ExpandTo8888_depth_four (D : Decls) (img : Image)
    (hsz : img.m_Width * img.m_Height < 4294967296)
    (hp : img.m_Pixels.length = img.m_Width * img.m_Height)
    (hfp : img.m_FractionalPixels.length = img.m_Width * img.m_Height)
    (hpos : 0 < img.m_Width * img.m_Height)
    (h4 : ∀ p ∈ img.m_Pixels, ∀ c, (p.BitDepth c).val = 4)
    (hf : ∀ fp ∈ img.m_FractionalPixels, ∀ c,
      4 ≤ (fp.BitDepth c).val ∧ (fp.BitDepth c).val ≤ 8) :
    ∃ out, img.ExpandTo8888 D = some out ∧
      out.m_Width = img.m_Width ∧ out.m_Height = img.m_Height ∧
      out.m_FractionalPixels = img.m_FractionalPixels ∧
      out.m_Pixels.length = img.m_Width * img.m_Height ∧
      ∀ (k : Nat) (p fp : Pixel), img.m_Pixels[k]? = some p →
        img.m_FractionalPixels[k]? = some fp →
        out.m_Pixels[k]? = some (expandedPixel D (fun _ => 4) p fp) := by
  obtain ⟨first, hfirst, hmem⟩ := first_pixel img hp hpos
  have hfd : first.BitDepth = fun _ => 4 := by
    funext c
    exact Fin.ext (h4 first hmem c)
  have := ExpandTo8888_spec D img first hsz hp hfp hfirst
    (fun c => by rw [h4 first hmem c]; decide)
    (fun fp h c => by rw [h4 first hmem c]; have := (hf fp h c).1; omega)
    (fun fp h c => by rw [h4 first hmem c]; have := (hf fp h c).2; omega)
  rw [hfd] at this
  exact this

/-- C11, counterexample. On the 1x1 image whose primary sample has depth 0 and
whose fractional sample has depth 8 and component 128 (so `f >= 8 - d`), the
claimed value `rescaled + floor(fractionBits * (2^d + 1) / 2^d)` is
`rescaled + 256`, which no stored component equals: the sum is cut to eight
bits on the store. -/
theorem C11_counterexample :
    ¬ ∃ (D : Decls) (out : Image) (q : Pixel),
      Image.depthZero.ExpandTo8888 D = some out ∧ out.m_Pixels[0]? = some q ∧
      (q.Component 0).val
        = (D.changeDepth ((Pixel.flat 0 0).Component 0) ((Pixel.flat 0 0).BitDepth 0) 8).val
          + (((Pixel.flat 128 8).Component 0).val
              >>> (((Pixel.flat 128 8).BitDepth 0).val - (8 - ((Pixel.flat 0 0).BitDepth 0).val)))
            * (2 ^ ((Pixel.flat 0 0).BitDepth 0).val + 1)
            / 2 ^ ((Pixel.flat 0 0).BitDepth 0).val := by
  rintro ⟨D, out, q, _, _, h⟩
  have hq := (q.Component 0).isLt
  have e : (((Pixel.flat 128 8).Component 0).val
      >>> (((Pixel.flat 128 8).BitDepth 0).val - (8 - ((Pixel.flat 0 0).BitDepth 0).val)))
        * (2 ^ ((Pixel.flat 0 0).BitDepth 0).val + 1)
        / 2 ^ ((Pixel.flat 0 0).BitDepth 0).val = 256 := by decide
  rw [e] at h
  omega

/-- C11, amended. On an image with both buffers of `width * height` pixels,
whose first pixel has depths `d <= 8` and whose fractional pixels have depths
`f` with `f >= 8 - d` (and a shift `f - (8 - d)` below 32), `ExpandTo8888`
returns; it keeps the dimensions and the fractional buffer, every primary
pixel gets depth 8, and every primary component becomes
`(rescaled + floor(fractionBits * (2^d + 1) / 2^d)) mod 256` with
`fractionBits = fractionalComponent >> (f - (8 - d))`: the sum is stored in a
`uint8`. -/
theorem C11_expand_formula (D : Decls) (img : Image) (first : Pixel)
    (hsz : img.m_Width * img.m_Height < 4294967296)
    (hp : img.m_Pixels.length = img.m_Width * img.m_Height)
    (hfp : img.m_FractionalPixels.length = img.m_Width * img.m_Height)
    (hfirst : img.m_Pixels[0]? = some first)
    (hd : ∀ c, (first.BitDepth c).val ≤ 8)
    (hpre : ∀ fp ∈ img.m_FractionalPixels, ∀ c,
      8 - (first.BitDepth c).val ≤ (fp.BitDepth c).val)
    (hf : ∀ fp ∈ img.m_FractionalPixels, ∀ c,
      (fp.BitDepth c).val - (8 - (first.BitDepth c).val) < 32) :
    ∃ out, img.ExpandTo8888 D = some out ∧
      out.m_Width = img.m_Width ∧ out.m_Height = img.m_Height ∧
      out.m_FractionalPixels = img.m_FractionalPixels ∧
      ∀ (k : Nat) (p fp : Pixel), img.m_Pixels[k]? = some p →
        img.m_FractionalPixels[k]? = some fp →
        ∃ q, out.m_Pixels[k]? = some q ∧ ∀ c, q.BitDepth c = 8 ∧
          (q.Component c).val
            = ((D.changeDepth (p.Component c) (p.BitDepth c) 8).val
                + ((fp.Component c).val
                      >>> ((fp.BitDepth c).val - (8 - (first.BitDepth c).val)))
                    * (2 ^ (first.BitDepth c).val + 1) / 2 ^ (first.BitDepth c).val) % 256 := by
  have hpre' : ∀ fp ∈ img.m_FractionalPixels, ∀ c,
      8 ≤ (fp.BitDepth c).val + (first.BitDepth c).val := by
    intro fp h c
    have h1 := hpre fp h c
    omega
  have hf' : ∀ fp ∈ img.m_FractionalPixels, ∀ c,
      (fp.BitDepth c).val + (first.BitDepth c).val < 40 := by
    intro fp h c
    have h1 := hf fp h c
    have h2 := hd c
    omega
  obtain ⟨out, hout, hw, hh, hfr, _, hcells⟩ :=
    ExpandTo8888_spec D img first hsz hp hfp hfirst hd hpre' hf'
  refine ⟨out, hout, hw, hh, hfr, ?_⟩
  intro k p fp hk hfk
  refine ⟨_, hcells k p fp hk hfk, fun c => ⟨rfl, ?_⟩⟩
  have hmem : fp ∈ img.m_FractionalPixels := List.getElem?_mem hfk
  simp only [expandedPixel, u8_val]
  rw [expandAddend_eq (hd c) (hpre' fp hmem c)]

/-- Witness for C11: the 2x1 image of primary depth 4 and fractional depth 4. -/
theorem C11_expand_formula_witness :
    ∃ out, Image.rampFourFour.ExpandTo8888 Decls.sample = some out ∧
      out.m_Width = Image.rampFourFour.m_Width ∧ out.m_Height = Image.rampFourFour.m_Height ∧
      out.m_FractionalPixels = Image.rampFourFour.m_FractionalPixels ∧
      ∀ (k : Nat) (p fp : Pixel), Image.rampFourFour.m_Pixels[k]? = some p →
        Image.rampFourFour.m_FractionalPixels[k]? = some fp →
        ∃ q, out.m_Pixels[k]? = some q ∧ ∀ c, q.BitDepth c = 8 ∧
          (q.Component c).val
            = ((Decls.sample.changeDepth (p.Component c) (p.BitDepth c) 8).val
                + ((fp.Component c).val
                      >>> ((fp.BitDepth c).val - (8 - ((Pixel.flat 3 4).BitDepth c).val)))
                    * (2 ^ ((Pixel.flat 3 4).BitDepth c).val + 1)
                    / 2 ^ ((Pixel.flat 3 4).BitDepth c).val) % 256 :=
  C11_expand_formula Decls.sample Image.rampFourFour (Pixel.flat 3 4) (by decide) rfl rfl rfl
    (fun _ => (by decide : (u8 4).val ≤ 8))
    (by
      intro fp h c
      simp only [Image.rampFourFour, List.mem_cons, List.mem_singleton, List.not_mem_nil,
        or_false, or_self] at h
      subst h
      exact (by decide : 8 - (u8 4).val ≤ (u8 4).val))
    (by
      intro fp h c
      simp only [Image.rampFourFour, List.mem_cons, List.mem_singleton, List.not_mem_nil,
        or_false, or_self] at h
      subst h
      exact (by decide : (u8 4).val - (8 - (u8 4).val) < 32))

/-- C12, counterexample. On the 1x1 image of primary depth 4 and fractional depth
2 the shift `2 - (8 - 4)` wraps around to `2^32 - 2`: `ExpandTo8888` has no
defined result, whatever the header declarations. -/
theorem C12_counterexample :
    ¬ ∃ (D : Decls) (out : Image), Image.depthFourTwo.ExpandTo8888 D = some out := by
  rintro ⟨D, out, h⟩
  have hp : expandPixel D (Pixel.flat 3 4).GetBitDepth (Pixel.flat 3 4) (Pixel.flat 1 2) = none :=
    expandPixel_underflow D _ _ _ (by decide)
  have : Image.depthFourTwo.ExpandTo8888 D = none := by
    simp only [Image.ExpandTo8888, Image.depthFourTwo, Image.GetWidth, Image.GetHeight, forLoop,
      expandStep, load, u32, List.get?, Option.some_bind, hp]
    rfl
  rw [this] at h
  exact Option.noConfusion h

/-- C12, amended. On an image of primary depth 4 on every channel whose
fractional depths lie between 4 and 8 (both buffers of `width * height > 0`
pixels), the precondition of `ExpandTo8888` holds and the call completes: the
shift `fracDepth - (8 - 4)` does not wrap around, the dimensions stay and every
primary pixel ends at depth 8. -/
theorem C12_expand_completes (D : Decls) (img : Image)
    (hsz : img.m_Width * img.m_Height < 4294967296)
    (hp : img.m_Pixels.length = img.m_Width * img.m_Height)
    (hfp : img.m_FractionalPixels.length = img.m_Width * img.m_Height)
    (hpos : 0 < img.m_Width * img.m_Height)
    (h4 : ∀ p ∈ img.m_Pixels, ∀ c, (p.BitDepth c).val = 4)
    (hf : ∀ fp ∈ img.m_FractionalPixels, ∀ c,
      4 ≤ (fp.BitDepth c).val ∧ (fp.BitDepth c).val ≤ 8) :
    (∀ fp ∈ img.m_FractionalPixels, ∀ c,
      toUInt32 (((fp.BitDepth c).val : Int) - ((8 : Int) - 4)) = (fp.BitDepth c).val - 4) ∧
    ∃ out, img.ExpandTo8888 D = some out ∧
      out.m_Width = img.m_Width ∧ out.m_Height = img.m_Height ∧
      out.m_Pixels.length = img.m_Width * img.m_Height ∧
      ∀ q ∈ out.m_Pixels, ∀ c, q.BitDepth c = 8 := by
  refine ⟨?_, ?_⟩
  · intro fp h c
    obtain ⟨h1, h2⟩ := hf fp h c
    rw [toUInt32_eq_toNat (by omega) (by omega)]
    omega
  · obtain ⟨out, hout, hw, hh, _, hl, hcells⟩ :=
      ExpandTo8888_depth_four D img hsz hp hfp hpos h4 hf
    refine ⟨out, hout, hw, hh, hl, ?_⟩
    intro q hq c
    obtain ⟨k, hk⟩ := List.mem_iff_getElem?.mp hq
    have hklt : k < out.m_Pixels.length := by
      by_contra hge
      rw [List.getElem?_eq_none (by omega)] at hk
      exact Option.noConfusion hk
    have h1 : k < img.m_Pixels.length := by omega
    have h2 : k < img.m_FractionalPixels.length := by omega
    have e := hcells k _ _ (List.getElem?_eq_getElem h1) (List.getElem?_eq_getElem h2)
    rw [hk] at e
    simp only [Option.some.injEq] at e
    rw [e]
    rfl

/-- Witness for C12: the 2x1 image of primary depth 4 and fractional depth 4. -/
theorem C12_expand_completes_witness :
    (∀ fp ∈ Image.rampFourFour.m_FractionalPixels, ∀ c,
      toUInt32 (((fp.BitDepth c).val : Int) - ((8 : Int) - 4)) = (fp.BitDepth c).val - 4) ∧
    ∃ out, Image.rampFourFour.ExpandTo8888 Decls.sample = some out ∧
      out.m_Width = Image.rampFourFour.m_Width ∧ out.m_Height = Image.rampFourFour.m_Height ∧
      out.m_Pixels.length = Image.rampFourFour.m_Width * Image.rampFourFour.m_Height ∧
      ∀ q ∈ out.m_Pixels, ∀ c, q.BitDepth c = 8 :=
  C12_expand_completes Decls.sample Image.rampFourFour (by decide) rfl rfl (by decide)
    (by
      intro p h c
      simp only [Image.rampFourFour, List.mem_cons, List.mem_singleton, List.not_mem_nil,
        or_false] at h
      rcases h with h | h <;> subst h <;> rfl)
    (by
      intro fp h c
      simp only [Image.rampFourFour, List.mem_cons, List.mem_singleton, List.not_mem_nil,
        or_false, or_self] at h
      subst h
      exact (by decide : 4 ≤ (u8 4).val ∧ (u8 4).val ≤ 8))

/-- C13, counterexample. On the 2x1 image of primary depth 4 with components 3
and 9 and fractional depth 2 there are no two output components to compare:
`ExpandTo8888` has no defined result. -/
theorem C13_counterexample :
    ¬ ∃ (D : Decls) (out : Image) (a b : Pixel),
      Image.rampFourTwo.ExpandTo8888 D = some out ∧
      out.m_Pixels[0]? = some a ∧ out.m_Pixels[1]? = some b ∧
      a.Component 0 ≤ b.Component 0 := by
  rintro ⟨D, out, a, b, h, _⟩
  have hp : expandPixel D (Pixel.flat 3 4).GetBitDepth (Pixel.flat 3 4) (Pixel.flat 1 2) = none :=
    expandPixel_underflow D _ _ _ (by decide)
  have : Image.rampFourTwo.ExpandTo8888 D = none := by
    simp only [Image.ExpandTo8888, Image.rampFourTwo, Image.GetWidth, Image.GetHeight, forLoop,
      expandStep, load, u32, List.get?, Option.some_bind, hp]
    rfl
  rw [this] at h
  exact Option.noConfusion h

/-- C13, amended. On an image of primary depth 4 whose fractional depths lie
between 4 and 8, with a depth conversion from 4 to 8 bits that is monotone:
for two pixels with the same fractional depth and component on channel `c`,
the smaller primary component gives the smaller output component, provided the
larger sum still fits eight bits. -/
theorem C13_expand_monotone (D : Decls) (img : Image)
    (hsz : img.m_Width * img.m_Height < 4294967296)
    (hp : img.m_Pixels.length = img.m_Width * img.m_Height)
    (hfp : img.m_FractionalPixels.length = img.m_Width * img.m_Height)
    (h4 : ∀ p ∈ img.m_Pixels, ∀ c, (p.BitDepth c).val = 4)
    (hf : ∀ fp ∈ img.m_FractionalPixels, ∀ c,
      4 ≤ (fp.BitDepth c).val ∧ (fp.BitDepth c).val ≤ 8)
    (hmono : ∀ a b : Fin 256, a ≤ b → D.changeDepth a 4 8 ≤ D.changeDepth b 4 8)
    (k1 k2 : Nat) (p1 p2 fp1 fp2 : Pixel) (c : Fin 4)
    (hk1 : img.m_Pixels[k1]? = some p1) (hk2 : img.m_Pixels[k2]? = some p2)
    (hfk1 : img.m_FractionalPixels[k1]? = some fp1)
    (hfk2 : img.m_FractionalPixels[k2]? = some fp2)
    (hdepth : fp1.BitDepth c = fp2.BitDepth c) (hfrac : fp1.Component c = fp2.Component c)
    (hle : p1.Component c ≤ p2.Component c)
    (hfit : (D.changeDepth (p2.Component c) 4 8).val
      + ((fp2.Component c).val >>> ((fp2.BitDepth c).val - 4)) * 17 / 16 ≤ 255) :
    ∃ (out : Image) (q1 q2 : Pixel), img.ExpandTo8888 D = some out ∧
      out.m_Pixels[k1]? = some q1 ∧ out.m_Pixels[k2]? = some q2 ∧
      q1.Component c ≤ q2.Component c ∧
      (q2.Component c).val = (D.changeDepth (p2.Component c) 4 8).val
        + ((fp2.Component c).val >>> ((fp2.BitDepth c).val - 4)) * 17 / 16 := by
  have hpos : 0 < img.m_Width * img.m_Height := by
    by_contra h0
    rw [List.getElem?_eq_none (by omega)] at hk1
    exact Option.noConfusion hk1
  obtain ⟨out, hout, _, _, _, _, hcells⟩ :=
    ExpandTo8888_depth_four D img hsz hp hfp hpos h4 hf
  refine ⟨out, _, _, hout, hcells k1 p1 fp1 hk1 hfk1, hcells k2 p2 fp2 hk2 hfk2, ?_, ?_⟩
  · have d1 : p1.BitDepth c = 4 := Fin.ext (h4 p1 (List.getElem?_mem hk1) c)
    have d2 : p2.BitDepth c = 4 := Fin.ext (h4 p2 (List.getElem?_mem hk2) c)
    have hm := hmono _ _ hle
    rw [Fin.le_def] at hm ⊢
    have hadd : expandAddend (4 : Fin 256).val (fp2.BitDepth c).val (fp2.Component c).val
        = ((fp2.Component c).val >>> ((fp2.BitDepth c).val - 4)) * 17 / 16 := by
      have e : (fp2.BitDepth c).val + 4 - 8 = (fp2.BitDepth c).val - 4 := by omega
      show expandAddend 4 _ _ = _
      unfold expandAddend
      rw [e]
      rfl
    simp only [expandedPixel, u8_val, d1, d2, hdepth, hfrac, hadd]
    generalize (D.changeDepth (p1.Component c) 4 8).val = r1 at hm ⊢
    generalize (D.changeDepth (p2.Component c) 4 8).val = r2 at hm hfit ⊢
    generalize ((fp2.Component c).val >>> ((fp2.BitDepth c).val - 4)) * 17 / 16 = A at hfit ⊢
    omega
  · have d2 : p2.BitDepth c = 4 := Fin.ext (h4 p2 (List.getElem?_mem hk2) c)
    have hadd : expandAddend (4 : Fin 256).val (fp2.BitDepth c).val (fp2.Component c).val
        = ((fp2.Component c).val >>> ((fp2.BitDepth c).val - 4)) * 17 / 16 := by
      have e : (fp2.BitDepth c).val + 4 - 8 = (fp2.BitDepth c).val - 4 := by omega
      show expandAddend 4 _ _ = _
      unfold expandAddend
      rw [e]
      rfl
    simp only [expandedPixel, u8_val, d2, hadd]
    exact Nat.mod_eq_of_lt (by omega)

/-- Witness for C13: pixels 0 and 1 of the 2x1 image of primary depth 4 with
components 3 and 9 and fractional depth 4. -/
theorem C13_expand_monotone_witness :
    ∃ (out : Image) (q1 q2 : Pixel),
      Image.rampFourFour.ExpandTo8888 Decls.sample = some out ∧
      out.m_Pixels[0]? = some q1 ∧ out.m_Pixels[1]? = some q2 ∧
      q1.Component 0 ≤ q2.Component 0 ∧
      (q2.Component 0).val
        = (Decls.sample.changeDepth ((Pixel.flat 9 4).Component 0) 4 8).val
          + (((Pixel.flat 5 4).Component 0).val
              >>> (((Pixel.flat 5 4).BitDepth 0).val - 4)) * 17 / 16 :=
  C13_expand_monotone Decls.sample Image.rampFourFour (by decide) rfl rfl
    (by
      intro p h c
      simp only [Image.rampFourFour, List.mem_cons, List.mem_singleton, List.not_mem_nil,
        or_false] at h
      rcases h with h | h <;> subst h <;> rfl)
    (by
      intro fp h c
      simp only [Image.rampFourFour, List.mem_cons, List.mem_singleton, List.not_mem_nil,
        or_false, or_self] at h
      subst h
      exact (by decide : 4 ≤ (u8 4).val ∧ (u8 4).val ≤ 8))
    (fun _ _ h => h) 0 1 (Pixel.flat 3 4) (Pixel.flat 9 4) (Pixel.flat 5 4) (Pixel.flat 5 4) 0
    rfl rfl rfl rfl rfl rfl (by decide) (by decide)

/-! ## Bilinear upscaling: the range of the result -/

/-- Without wrap-around for shifts up to 24 bits in total: the `uint32` sum is
the weighted sum. -/
theorem channelSum_eq_wide {sx sy : Nat} (h : sx + sy ≤ 24) (i j : Nat)
    (k : Pixel × Pixel × Pixel × Pixel) (c : Fin 4) :
    channelSum sx sy i j k.1 k.2.1 k.2.2.1 k.2.2.2 c = weightedSum sx sy i j k c ∧
      weightedSum sx sy i j k c ≤ 2 ^ (sx + sy) * 255 := by
  have hw := (weights_eq (show sx + sy < 32 by omega) i j).2.2.2.2
  rw [scale_mul_eq (by omega)] at hw
  have hS : (2 : Nat) ^ (sx + sy) ≤ 2 ^ 24 := Nat.pow_le_pow_right (by norm_num) h
  norm_num at hS
  have b1 : (k.1.Component c).val * topLeftWeight sx sy i j
      ≤ 255 * topLeftWeight sx sy i j := Nat.mul_le_mul_right _ (by omega)
  have b2 : (k.2.1.Component c).val * topRightWeight sx sy i j
      ≤ 255 * topRightWeight sx sy i j := Nat.mul_le_mul_right _ (by omega)
  have b3 : (k.2.2.1.Component c).val * bottomLeftWeight sx sy i j
      ≤ 255 * bottomLeftWeight sx sy i j := Nat.mul_le_mul_right _ (by omega)
  have b4 : (k.2.2.2.Component c).val * bottomRightWeight sx sy i j
      ≤ 255 * bottomRightWeight sx sy i j := Nat.mul_le_mul_right _ (by omega)
  refine ⟨?_, by unfold weightedSum; omega⟩
  unfold channelSum weightedSum
  simp only []
  rw [u32_eq_self (n := (k.1.Component c).val * topLeftWeight sx sy i j) (by omega),
    u32_eq_self (n := (k.2.1.Component c).val * topRightWeight sx sy i j) (by omega),
    u32_eq_self (n := (k.2.2.1.Component c).val * bottomLeftWeight sx sy i j) (by omega),
    u32_eq_self (n := (k.2.2.2.Component c).val * bottomRightWeight sx sy i j) (by omega),
    u32_eq_self (by omega)]

/-- The primary component is the quotient, for every shift pair below 32 bits. -/
theorem primaryComponent_val_wide {sx sy : Nat} (h : sx + sy < 32) {sum : Nat}
    (hsum : sum ≤ 2 ^ (sx + sy) * 255) :
    (primaryComponent sx sy sum).val = sum / 2 ^ (sx + sy) := by
  have hpos : 0 < 2 ^ (sx + sy) := by positivity
  have hq : sum / 2 ^ (sx + sy) ≤ 255 := by
    have := Nat.div_le_div_right (c := 2 ^ (sx + sy)) hsum
    rwa [Nat.mul_div_cancel_left _ hpos] at this
  unfold primaryComponent u8
  rw [u32_eq_self (scale_mul_lt h), scale_mul_eq h]
  show sum / 2 ^ (sx + sy) % 256 = sum / 2 ^ (sx + sy)
  exact Nat.mod_eq_of_lt (Nat.lt_succ_of_le hq)

/-- A weighted sum lies between the smallest and the largest term times the
total weight. -/
theorem weighted_between (a b c d w1 w2 w3 w4 S : Nat) (hS : w1 + w2 + w3 + w4 = S) :
    min (min a b) (min c d) * S ≤ a * w1 + b * w2 + c * w3 + d * w4 ∧
      a * w1 + b * w2 + c * w3 + d * w4 ≤ max (max a b) (max c d) * S := by
  subst hS
  have l1 : min (min a b) (min c d) * w1 ≤ a * w1 := Nat.mul_le_mul_right _ (by omega)
  have l2 : min (min a b) (min c d) * w2 ≤ b * w2 := Nat.mul_le_mul_right _ (by omega)
  have l3 : min (min a b) (min c d) * w3 ≤ c * w3 := Nat.mul_le_mul_right _ (by omega)
  have l4 : min (min a b) (min c d) * w4 ≤ d * w4 := Nat.mul_le_mul_right _ (by omega)
  have u1 : a * w1 ≤ max (max a b) (max c d) * w1 := Nat.mul_le_mul_right _ (by omega)
  have u2 : b * w2 ≤ max (max a b) (max c d) * w2 := Nat.mul_le_mul_right _ (by omega)
  have u3 : c * w3 ≤ max (max a b) (max c d) * w3 := Nat.mul_le_mul_right _ (by omega)
  have u4 : d * w4 ≤ max (max a b) (max c d) * w4 := Nat.mul_le_mul_right _ (by omega)
  rw [Nat.mul_add, Nat.mul_add, Nat.mul_add, Nat.mul_add, Nat.mul_add, Nat.mul_add]
  exact ⟨by omega, by omega⟩

/-- For shifts up to 24 bits in total the primary component written lies
between the smallest and the largest of the four corner components. -/
theorem upscaledPixel_between {sx sy : Nat} (hs : sx + sy ≤ 24) (i j : Nat)
    (k : Pixel × Pixel × Pixel × Pixel) (c : Fin 4) :
    min (min (k.1.Component c).val (k.2.1.Component c).val)
        (min (k.2.2.1.Component c).val (k.2.2.2.Component c).val)
      ≤ ((upscaledPixel sx sy i j k).Component c).val ∧
    ((upscaledPixel sx sy i j k).Component c).val
      ≤ max (max (k.1.Component c).val (k.2.1.Component c).val)
        (max (k.2.2.1.Component c).val (k.2.2.2.Component c).val) := by
  have hw := (weights_eq (show sx + sy < 32 by omega) i j).2.2.2.2
  rw [scale_mul_eq (by omega)] at hw
  have hpos : 0 < 2 ^ (sx + sy) := by positivity
  obtain ⟨hcs, hbound⟩ := channelSum_eq_wide hs i j k c
  obtain ⟨lo, hi⟩ := weighted_between (k.1.Component c).val (k.2.1.Component c).val
    (k.2.2.1.Component c).val (k.2.2.2.Component c).val _ _ _ _ _ hw
  have e : ((upscaledPixel sx sy i j k).Component c).val
      = weightedSum sx sy i j k c / 2 ^ (sx + sy) := by
    show (primaryComponent sx sy (channelSum sx sy i j k.1 k.2.1 k.2.2.1 k.2.2.2 c)).val = _
    rw [hcs, primaryComponent_val_wide (by omega) hbound]
  rw [e]
  constructor
  · exact (Nat.le_div_iff_mul_le hpos).mpr lo
  · have := Nat.div_le_div_right (c := 2 ^ (sx + sy)) hi
    rwa [Nat.mul_div_cancel _ hpos] at this

/-- The mask `scaleMask` keeps the low `min (sx + sy) 16` bits. -/
theorem scaleMask_eq {sx sy : Nat} (h : sx + sy < 32) :
    scaleMask sx sy = 2 ^ min (sx + sy) 16 - 1 := by
  have hpos : 0 < 2 ^ (sx + sy) := by positivity
  unfold scaleMask u16 u32sub
  rw [u32_eq_self (scale_mul_lt h), scale_mul_eq h]
  have h32 : (2 : Nat) ^ (sx + sy) < 4294967296 := by
    have : (2 : Nat) ^ (sx + sy) ≤ 2 ^ 31 := Nat.pow_le_pow_right (by norm_num) (by omega)
    norm_num at this
    omega
  by_cases hle : sx + sy ≤ 16
  · have hS : (2 : Nat) ^ (sx + sy) ≤ 2 ^ 16 := Nat.pow_le_pow_right (by norm_num) hle
    norm_num at hS
    rw [Nat.min_eq_left hle]
    omega
  · have hm : min (sx + sy) 16 = 16 := Nat.min_eq_right (by omega)
    have e : (2 : Nat) ^ (sx + sy) = 65536 * 2 ^ (sx + sy - 16) := by
      rw [show (65536 : Nat) = 2 ^ 16 by norm_num, ← Nat.pow_add]
      congr 1
      omega
    have ht : 0 < 2 ^ (sx + sy - 16) := by positivity
    rw [hm]
    generalize 2 ^ (sx + sy - 16) = t at e ht
    generalize 2 ^ (sx + sy) = S at e h32 hpos
    have : (2 : Nat) ^ 16 = 65536 := by norm_num
    omega

/-- On four equal corners the fractional components written are 0. -/
theorem upscaledFraction_flat {sx sy : Nat} (hs : sx + sy ≤ 24) (i j : Nat) (P : Pixel)
    (c : Fin 4) : ((upscaledFraction sx sy i j (P, P, P, P)).Component c).val = 0 := by
  have hw := (weights_eq (show sx + sy < 32 by omega) i j).2.2.2.2
  rw [scale_mul_eq (by omega)] at hw
  obtain ⟨hcs, _⟩ := channelSum_eq_wide hs i j (P, P, P, P) c
  have hsum : weightedSum sx sy i j (P, P, P, P) c
      = 2 ^ (sx + sy) * (P.Component c).val := by
    unfold weightedSum
    simp only []
    rw [← Nat.mul_add, ← Nat.mul_add, ← Nat.mul_add, hw, Nat.mul_comm]
  show (fractionalComponent sx sy (channelSum sx sy i j P P P P c)).val = 0
  rw [hcs, hsum]
  unfold fractionalComponent
  rw [scaleMask_eq (by omega), Nat.and_pow_two_sub_one_eq_mod]
  have hd : 2 ^ min (sx + sy) 16 ∣ 2 ^ (sx + sy) * (P.Component c).val :=
    Dvd.dvd.mul_right (Nat.pow_dvd_pow 2 (Nat.min_le_left _ _)) _
  rw [Nat.mod_eq_zero_of_dvd hd]
  rfl

/-- On four equal corners the primary pixel written is the corner, for shifts
up to 24 bits in total. -/
theorem upscaledPixel_flat_wide {sx sy : Nat} (hs : sx + sy ≤ 24) (i j : Nat) (P : Pixel) :
    upscaledPixel sx sy i j (P, P, P, P) = P := by
  have hcomp : ∀ c, (upscaledPixel sx sy i j (P, P, P, P)).Component c = P.Component c := by
    intro c
    obtain ⟨lo, hi⟩ := upscaledPixel_between hs i j (P, P, P, P) c
    simp only [Nat.min_self, Nat.max_self] at lo hi
    exact Fin.ext (Nat.le_antisymm hi lo)
  show (⟨(upscaledPixel sx sy i j (P, P, P, P)).Component, P.BitDepth⟩ : Pixel) = P
  rw [funext hcomp]

/-- The image of the counterexample to C19 is well formed. -/
theorem whitePixel_wellFormed :
    Image.whitePixel.WellFormed ∧ Image.whitePixel.UniformDepth := by
  refine ⟨⟨by decide, by decide, by decide, rfl⟩, ?_⟩
  intro p hp q hq
  simp only [Image.whitePixel, List.mem_singleton] at hp hq
  rw [hp, hq]

/-- C19, counterexample. Upscaling the 1x1 image whose components are 255 by shifts
`(13, 12)`: at output pixel `(0, 0)` the four corners have component 255, the
`uint32` sum `255 * 2^25` wraps around, and the primary component written is
127, below the smallest corner component. -/
theorem C19_counterexample :
    ¬ ∃ (D : Decls) (out : Image) (k : Pixel × Pixel × Pixel × Pixel) (p : Pixel),
      Image.whitePixel.BilinearUpscale D 13 12 EWrapMode.eWrapMode_Clamp = some out ∧
        upscaleCorners Image.whitePixel 13 12 EWrapMode.eWrapMode_Clamp 0 0 = some k ∧
        out.m_Pixels[0 * out.m_Width + 0]? = some p ∧
        min (min (k.1.Component 0).val (k.2.1.Component 0).val)
            (min (k.2.2.1.Component 0).val (k.2.2.2.Component 0).val)
          ≤ (p.Component 0).val := by
  rintro ⟨D, out, k, p, hout, hk, hp, hle⟩
  obtain ⟨hwf, hud⟩ := whitePixel_wellFormed
  obtain ⟨out', hout', hW, hH, _, _, hcells⟩ := BilinearUpscale_spec D _ hwf hud 13 12
    (by norm_num [Image.whitePixel]) EWrapMode.eWrapMode_Clamp
  rw [hout] at hout'
  cases hout'
  obtain ⟨k', hk', ⟨m1, m2, m3, m4⟩, hp', _⟩ := hcells 0 0
    (by rw [hW]; norm_num [Image.whitePixel]) (by rw [hH]; norm_num [Image.whitePixel])
  rw [hk] at hk'
  cases hk'
  rw [hp] at hp'
  cases hp'
  obtain ⟨k1, k2, k3, k4⟩ := k
  simp only [Image.whitePixel, List.mem_singleton] at m1 m2 m3 m4
  subst m1 m2 m3 m4
  revert hle
  decide

/-- C19, amended. In `BilinearUpscale` with shifts of at most 24 bits in total, on a
well-formed image of uniform depth (upscaled pixel count within 32 bits), for
every wrap mode, output pixel and channel: the primary component written lies
between the minimum and the maximum of the four corner components; it does
not exceed `2^depth - 1` when the source components do not; and when all
source pixels equal `P`, every output pixel is `P` and every fractional
component written is 0. -/
theorem C19_upscale_convex (D : Decls) (img : Image) (hwf : img.WellFormed)
    (hud : img.UniformDepth) (sx sy : Nat) (hs : sx + sy ≤ 24)
    (hsz : img.m_Width * 2 ^ sx * (img.m_Height * 2 ^ sy) < 4294967296)
    (wrapMode : EWrapMode) :
    ∃ out, img.BilinearUpscale D sx sy wrapMode = some out ∧
      out.m_Width = img.m_Width * 2 ^ sx ∧ out.m_Height = img.m_Height * 2 ^ sy ∧
      (∀ i j, i < out.m_Width → j < out.m_Height → ∀ c : Fin 4,
        ∃ (k : Pixel × Pixel × Pixel × Pixel) (p : Pixel),
          upscaleCorners img sx sy wrapMode i j = some k ∧
          out.m_Pixels[j * out.m_Width + i]? = some p ∧
          min (min (k.1.Component c).val (k.2.1.Component c).val)
              (min (k.2.2.1.Component c).val (k.2.2.2.Component c).val)
            ≤ (p.Component c).val ∧
          (p.Component c).val
            ≤ max (max (k.1.Component c).val (k.2.1.Component c).val)
              (max (k.2.2.1.Component c).val (k.2.2.2.Component c).val) ∧
          ((∀ q ∈ img.m_Pixels, (q.Component c).val ≤ 2 ^ (q.BitDepth c).val - 1) →
            (p.Component c).val ≤ 2 ^ (p.BitDepth c).val - 1)) ∧
      ∀ P : Pixel, (∀ q ∈ img.m_Pixels, q = P) →
        ∀ i j, i < out.m_Width → j < out.m_Height →
          out.m_Pixels[j * out.m_Width + i]? = some P ∧
          ∃ fp, out.m_FractionalPixels[j * out.m_Width + i]? = some fp ∧
            ∀ c, (fp.Component c).val = 0 := by
  obtain ⟨out, hout, hW, hH, _, _, hcells⟩ := BilinearUpscale_spec D img hwf hud sx sy hsz
    wrapMode
  refine ⟨out, hout, hW, hH, ?_, ?_⟩
  · intro i j hi hj c
    obtain ⟨k, hk, ⟨m1, m2, m3, m4⟩, hp, _⟩ := hcells i j hi hj
    obtain ⟨lo, hi'⟩ := upscaledPixel_between hs i j k c
    refine ⟨k, _, hk, hp, lo, hi', ?_⟩
    intro hrange
    have d2 : k.2.1.BitDepth = k.1.BitDepth := hud _ m2 _ m1
    have d3 : k.2.2.1.BitDepth = k.1.BitDepth := hud _ m3 _ m1
    have d4 : k.2.2.2.BitDepth = k.1.BitDepth := hud _ m4 _ m1
    have r1 := hrange _ m1
    have r2 := hrange _ m2
    have r3 := hrange _ m3
    have r4 := hrange _ m4
    rw [d2] at r2
    rw [d3] at r3
    rw [d4] at r4
    show ((upscaledPixel sx sy i j k).Component c).val ≤ 2 ^ (k.1.BitDepth c).val - 1
    generalize ((upscaledPixel sx sy i j k).Component c).val = v at hi'
    generalize 2 ^ (k.1.BitDepth c).val - 1 = B at r1 r2 r3 r4
    omega
  · intro P hP i j hi hj
    obtain ⟨k, hk, ⟨m1, m2, m3, m4⟩, hp, hfp⟩ := hcells i j hi hj
    have hkP : k = (P, P, P, P) := by
      obtain ⟨k1, k2, k3, k4⟩ := k
      have e1 : k1 = P := hP _ m1
      have e2 : k2 = P := hP _ m2
      have e3 : k3 = P := hP _ m3
      have e4 : k4 = P := hP _ m4
      rw [e1, e2, e3, e4]
    rw [hkP] at hp hfp
    rw [upscaledPixel_flat_wide hs] at hp
    exact ⟨hp, _, hfp, fun c => upscaledFraction_flat hs i j P c⟩

/-- Witness for C19: the row of two pixels upscaled by shifts `(1, 1)`. -/
theorem C19_upscale_convex_witness :
    ∃ out, Image.twoPixelRow.BilinearUpscale Decls.sample 1 1 EWrapMode.eWrapMode_Clamp
        = some out ∧
      out.m_Width = Image.twoPixelRow.m_Width * 2 ^ 1 ∧
      out.m_Height = Image.twoPixelRow.m_Height * 2 ^ 1 ∧
      (∀ i j, i < out.m_Width → j < out.m_Height → ∀ c : Fin 4,
        ∃ (k : Pixel × Pixel × Pixel × Pixel) (p : Pixel),
          upscaleCorners Image.twoPixelRow 1 1 EWrapMode.eWrapMode_Clamp i j = some k ∧
          out.m_Pixels[j * out.m_Width + i]? = some p ∧
          min (min (k.1.Component c).val (k.2.1.Component c).val)
              (min (k.2.2.1.Component c).val (k.2.2.2.Component c).val)
            ≤ (p.Component c).val ∧
          (p.Component c).val
            ≤ max (max (k.1.Component c).val (k.2.1.Component c).val)
              (max (k.2.2.1.Component c).val (k.2.2.2.Component c).val) ∧
          ((∀ q ∈ Image.twoPixelRow.m_Pixels,
              (q.Component c).val ≤ 2 ^ (q.BitDepth c).val - 1) →
            (p.Component c).val ≤ 2 ^ (p.BitDepth c).val - 1)) ∧
      ∀ P : Pixel, (∀ q ∈ Image.twoPixelRow.m_Pixels, q = P) →
        ∀ i j, i < out.m_Width → j < out.m_Height →
          out.m_Pixels[j * out.m_Width + i]? = some P ∧
          ∃ fp, out.m_FractionalPixels[j * out.m_Width + i]? = some fp ∧
            ∀ c, (fp.Component c).val = 0 :=
  C19_upscale_convex Decls.sample Image.twoPixelRow
    ⟨by decide, by decide, by decide, rfl⟩
    (by
      intro p hp q hq
      simp only [Image.twoPixelRow, List.mem_cons, List.mem_singleton, List.not_mem_nil,
        or_false] at hp hq
      rcases hp with rfl | rfl <;> rcases hq with rfl | rfl <;> rfl)
    1 1 (by decide) (by decide) EWrapMode.eWrapMode_Clamp

/-! ## Copies -/

/-- Expansion of a 2x1 image with two equal primary samples and two equal
fractional samples: if it returns, the two output pixels are equal. -/
theorem ExpandTo8888_pair (D : Decls) (P X : Pixel) (out : Image)
    (h : (Image.mk 2 1 [P, P] [X, X]).ExpandTo8888 D = some out) :
    out.m_Pixels[0]? = out.m_Pixels[1]? := by
  simp only [Image.ExpandTo8888, Image.GetWidth, Image.GetHeight, forLoop, expandStep, load,
    u32, List.get?, Option.some_bind] at h
  cases hr : expandPixel D P.GetBitDepth P X with
  | none =>
    rw [hr] at h
    exact Option.noConfusion h
  | some q =>
    rw [hr] at h
    simp [store, hr] at h
    subst h
    rfl

/-- C20, the code at a failing input. For the 2x1 image of depth 4 with equal primary
samples and fractional samples of components 1 and 2: `operator=` yields the
image itself, but the copy constructor yields an image whose fractional
samples are two default pixels, not those of the source, and `ExpandTo8888` of
the copy differs from `ExpandTo8888` of the source. This holds for every
default pixel and conversion of the header. -/
theorem C20_copy_drops_fractional (D : Decls) (self : Image) :
    ∃ c : Image, Image.copyConstruct D Image.twoFractions = some c ∧
      Image.assign self Image.twoFractions = some Image.twoFractions ∧
      c.m_Width = 2 ∧ c.m_Height = 1 ∧ c.m_Pixels = Image.twoFractions.m_Pixels ∧
      c.m_FractionalPixels = [D.defaultPixel, D.defaultPixel] ∧
      c.m_FractionalPixels ≠ Image.twoFractions.m_FractionalPixels ∧
      c.ExpandTo8888 D ≠ Image.twoFractions.ExpandTo8888 D := by
  refine ⟨⟨2, 1, [Pixel.flat 3 4, Pixel.flat 3 4], [D.defaultPixel, D.defaultPixel]⟩,
    rfl, rfl, rfl, rfl, rfl, rfl, ?_, ?_⟩
  · intro h
    simp only [Image.twoFractions, List.cons.injEq, and_true] at h
    have h2 : Pixel.flat 1 4 = Pixel.flat 2 4 := h.1.symm.trans h.2
    have h3 := congrArg (fun p : Pixel => (p.Component 0).val) h2
    exact absurd h3 (by decide)
  · intro h
    obtain ⟨out, hout, _, _, _, _, hcells⟩ :=
      ExpandTo8888_spec D Image.twoFractions (Pixel.flat 3 4) (by decide) rfl rfl rfl
        (fun _ => (by decide : (u8 4).val ≤ 8))
        (by
          intro fp hm c
          simp only [Image.twoFractions, List.mem_cons, List.mem_singleton, List.not_mem_nil,
            or_false] at hm
          rcases hm with hm | hm <;> subst hm <;>
            exact (by decide : 8 ≤ (u8 4).val + (u8 4).val))
        (by
          intro fp hm c
          simp only [Image.twoFractions, List.mem_cons, List.mem_singleton, List.not_mem_nil,
            or_false] at hm
          rcases hm with hm | hm <;> subst hm <;>
            exact (by decide : (u8 4).val + (u8 4).val < 40))
    rw [hout] at h
    have hpair := ExpandTo8888_pair D _ _ out h
    have e0 := hcells 0 (Pixel.flat 3 4) (Pixel.flat 1 4) rfl rfl
    have e1 := hcells 1 (Pixel.flat 3 4) (Pixel.flat 2 4) rfl rfl
    rw [e0, e1] at hpair
    simp only [Option.some.injEq] at hpair
    have h3 := congrArg (fun p : Pixel => (p.Component 0).val) hpair
    simp only [expandedPixel, u8_val] at h3
    have a1 : expandAddend ((Pixel.flat 3 4).BitDepth 0).val ((Pixel.flat 1 4).BitDepth 0).val
        ((Pixel.flat 1 4).Component 0).val = 1 := by decide
    have a2 : expandAddend ((Pixel.flat 3 4).BitDepth 0).val ((Pixel.flat 2 4).BitDepth 0).val
        ((Pixel.flat 2 4).Component 0).val = 2 := by decide
    rw [a1, a2] at h3
    omega

end PVRTCC

